import Mathlib

/-!
# A verification development for the raire-rs assertion generator

This file gives a shallow embedding, in Lean 4, of the core of the
`raire-rs` repository (the RAIRE assertion-search engine for risk-limiting
audits of IRV elections), together with theorems settling a list of claims
about it.

Modelling conventions, used throughout:

* Rust `CandidateIndex` (a `u32`) and `BallotPaperCount` (a `usize`) are
  modelled as `Nat`; overflow is out of scope for the sizes involved.
* Rust `f64` audit difficulties are modelled as `WithTop Rat`: the code
  never produces NaN (documented in the source), only compares, takes
  maxima and tests for infinity, so a linearly ordered field with a top
  element is a faithful model.  `f64::INFINITY` is `(⊤ : WithTop Rat)`.
  The sentinel `f64::MAX` used to start minimum searches is also modelled
  as `⊤`, which is equivalent as long as finite difficulties stay below
  `f64::MAX` (true for all realistic inputs).
* The generic parameter `A : AuditType` of the Rust functions is modelled
  by passing the trait method itself, a function
  `audit : Nat → Nat → Nat → WithTop Rat`.
* `std::collections::HashSet` is modelled by canonically sorted
  duplicate-free lists; the iteration order of a hash set, which Rust
  leaves unspecified, is modelled by an explicit parameter `HashOrder`
  producing a permutation of such a list where the order can be observed.
* The cooperative `TimeOut` object is modelled by its work counter and
  optional work limit; the wall-clock duration limit is not statable and
  is omitted (a `TimeOut` with no work limit never fires, exactly like a
  `TimeOut::new(None, None)`).
* Recursions whose termination in Rust rests on runtime invariants are
  given an explicit fuel parameter (a `none` result means the fuel ran
  out; lemmas show the fuel chosen by the wrappers is always sufficient
  where that is needed).
-/

deriving instance DecidableEq for Except

namespace Raire

/-- Difficulty values: the model of non-NaN `f64` with `f64::INFINITY` as `⊤`. -/
abbrev Difficulty := WithTop Rat

/-- From `src/raire/src/lib.rs` (`enum RaireError`).  The variant
`InvalidCandidateNumber` is the one constructed in `irv.rs` (`Votes::new`),
and `InvalidNumberOfCandidates` is the one expected by
`tests/edge_cases.rs`; both are included. -/
inductive RaireError where
  | InvalidTimeout
  | InvalidNumberOfCandidates
  | InvalidCandidateNumber
  | TimeoutCheckingWinner
  | TimeoutFindingAssertions (difficulty : Difficulty)
  | TimeoutTrimmingAssertions
  | TiedWinners (candidates : List Nat)
  | WrongWinner (possibleWinners : List Nat)
  | CouldNotRuleOut (order : List Nat)
  | InternalErrorRuledOutWinner
  | InternalErrorDidntRuleOutLoser
  | InternalErrorTrimming
  deriving DecidableEq, Repr

/-- From `src/raire/src/timeout.rs` (`struct TimeOut`): the work counter and
the optional work limit.  The wall-clock duration limit is not modelled. -/
structure TimeOut where
  workDone : Nat
  workLimit : Option Nat
  deriving DecidableEq, Repr

namespace TimeOut

/-- `TimeOut::new` with no limits: a timer that never fires. -/
def never : TimeOut := { workDone := 0, workLimit := none }

/-- From `timeout.rs` (`TimeOut::quick_check_timeout`): increment the work
counter, and report whether the work limit is exceeded. -/
def quickCheckTimeout (t : TimeOut) : Bool × TimeOut :=
  let t' : TimeOut := { t with workDone := t.workDone + 1 }
  (match t.workLimit with
   | some limit => decide (t'.workDone > limit)
   | none => false, t')

end TimeOut

/-- From `src/raire/src/irv.rs` (`struct Vote`). -/
structure Vote where
  /-- The number of voters who voted this way. -/
  n : Nat
  /-- `prefs[0]` is the first preferenced candidate. -/
  prefs : List Nat
  deriving DecidableEq, Repr

/-- From `irv.rs` (`struct Votes`): the vote records plus the number of
candidates.  The `first_preference_votes` cache of the Rust struct is
recomputed on demand by `firstPreferenceOnlyTally` (extensionally the same
array). -/
structure Votes where
  votes : List Vote
  numCandidates : Nat
  deriving DecidableEq, Repr

namespace Votes

/-- From `irv.rs` (`Votes::new`): reject any vote record whose *first*
preference names a candidate `≥ num_candidates`.  (Later preferences are
not inspected.) -/
def new (votes : List Vote) (numCandidates : Nat) : Except RaireError Votes :=
  if votes.all (fun v =>
      match v.prefs.head? with
      | some c => decide (c < numCandidates)
      | none => true) then
    .ok { votes := votes, numCandidates := numCandidates }
  else
    .error .InvalidCandidateNumber

/-- From `irv.rs` (`Vote::top_sub_preference_array`, specialised to the
candidate it denotes): the first preference of `v` that is a member of
`continuing`, if any. -/
def topPreference (v : Vote) (continuing : List Nat) : Option Nat :=
  v.prefs.find? (fun c => c ∈ continuing)

/-- The restricted tally of one candidate `c`: the number of ballots whose
highest-ranked continuing preference is `c`. -/
def tallyOf (vs : Votes) (continuing : List Nat) (c : Nat) : Nat :=
  (vs.votes.map (fun v => if topPreference v continuing = some c then v.n else 0)).sum

/-- From `irv.rs` (`Votes::restricted_tallies`): the tallies of the
continuing candidates, one per element of `continuing` in the same order.
The Rust code accumulates over votes through a dense reverse-index array;
for a duplicate-free `continuing` (all call sites) this is extensionally
the per-candidate sum used here. -/
def restrictedTallies (vs : Votes) (continuing : List Nat) : List Nat :=
  continuing.map (vs.tallyOf continuing)

/-- From `irv.rs` (`Votes::first_preference_only_tally`, together with the
`first_preference_votes` array built in `Votes::new`). -/
def firstPreferenceOnlyTally (vs : Votes) (c : Nat) : Nat :=
  (vs.votes.map (fun v => if v.prefs.head? = some c then v.n else 0)).sum

/-- From `irv.rs` (`Votes::total_votes`). -/
def totalVotes (vs : Votes) : Nat := (vs.votes.map Vote.n).sum

end Votes

/-- From `src/raire/src/assertions.rs`
(`enum EffectOfAssertionOnEliminationOrderSuffix`). -/
inductive EffectOfAssertionOnEliminationOrderSuffix where
  | Contradiction
  | Ok
  | NeedsMoreDetail
  deriving DecidableEq, Repr

open EffectOfAssertionOnEliminationOrderSuffix

/-- From `assertions.rs` (`struct NotEliminatedBefore`). -/
structure NotEliminatedBefore where
  winner : Nat
  loser : Nat
  deriving DecidableEq, Repr

/-- From `assertions.rs` (`struct NotEliminatedNext`). -/
structure NotEliminatedNext where
  winner : Nat
  loser : Nat
  /-- sorted (ascending) list of continuing candidates. -/
  continuing : List Nat
  deriving DecidableEq, Repr

/-- From `assertions.rs` (`enum Assertion`). -/
inductive Assertion where
  | NEB (a : NotEliminatedBefore)
  | NEN (a : NotEliminatedNext)
  deriving DecidableEq, Repr

/-- From `assertions.rs` (`struct AssertionAndDifficulty`). -/
structure AssertionAndDifficulty where
  assertion : Assertion
  difficulty : Difficulty
  deriving DecidableEq, Repr

/-- From `assertions.rs` (`fn check_winner_eliminated_after_loser`): scan the
elimination order from the end (most recently eliminated); `Ok` at the first
occurrence of the winner, `Contradiction` at the first occurrence of the
loser, `NeedsMoreDetail` if neither occurs.  The Rust `for … .iter().rev()`
loop is this recursion on the reversed list. -/
def checkWinnerEliminatedAfterLoser (eliminationOrder : List Nat)
    (winner loser : Nat) : EffectOfAssertionOnEliminationOrderSuffix :=
  go eliminationOrder.reverse
where
  go : List Nat → EffectOfAssertionOnEliminationOrderSuffix
  | [] => NeedsMoreDetail
  | c :: rest => if c = winner then Ok else if c = loser then Contradiction else go rest

namespace NotEliminatedBefore

/-- From `assertions.rs` (`NotEliminatedBefore::ok_elimination_order_suffix`). -/
def okEliminationOrderSuffix (a : NotEliminatedBefore)
    (eliminationOrderSuffix : List Nat) : EffectOfAssertionOnEliminationOrderSuffix :=
  checkWinnerEliminatedAfterLoser eliminationOrderSuffix a.winner a.loser

end NotEliminatedBefore

/-- The interval-halving loop of Rust `slice::binary_search_by_key` (used by
`NotEliminatedNext::is_continuing`), on the segment of `l` between `left`
(inclusive) and `right` (exclusive), reporting whether the key occurs.  The
loop runs at most `right - left` times; `fuel` is a structural bound on the
iteration count (`binarySearchContains` supplies one that always suffices). -/
def binarySearchGo (l : List Nat) (key : Nat) : Nat → Nat → Nat → Bool
  | 0, _, _ => false
  | fuel + 1, left, right =>
    if left < right then
      let mid := left + (right - left) / 2
      let v := (l.get? mid).getD 0
      if v < key then binarySearchGo l key fuel (mid + 1) right
      else if key < v then binarySearchGo l key fuel left mid
      else true
    else false

/-- Rust `slice::binary_search_by_key(&key, |e| e)` over the whole list,
reduced to the found/not-found bit (the only thing `is_continuing` uses). -/
def binarySearchContains (l : List Nat) (key : Nat) : Bool :=
  binarySearchGo l key (l.length + 1) 0 l.length

namespace NotEliminatedNext

/-- From `assertions.rs` (`NotEliminatedNext::is_continuing`): binary search
for `c` in the sorted `continuing` list. -/
def isContinuing (a : NotEliminatedNext) (c : Nat) : Bool :=
  binarySearchContains a.continuing c

/-- From `assertions.rs` (`NotEliminatedNext::ok_elimination_order_suffix`). -/
def okEliminationOrderSuffix (a : NotEliminatedNext)
    (eliminationOrderSuffix : List Nat) : EffectOfAssertionOnEliminationOrderSuffix :=
  -- the last `continuing.length` elements if the suffix is longer, else all of it
  let suffix :=
    if eliminationOrderSuffix.length > a.continuing.length then
      eliminationOrderSuffix.drop (eliminationOrderSuffix.length - a.continuing.length)
    else eliminationOrderSuffix
  if suffix.all (fun c => a.isContinuing c) then
    if suffix.length = a.continuing.length then
      if suffix.head? = some a.winner then Contradiction else Ok
    else
      if a.winner ∈ suffix then Ok else NeedsMoreDetail
  else Ok

/-- The NEN effect as the specification words it (spec section 4.3): let the
considered segment be the last `|C|` elements of π if `|π| > |C|`, else all
of π; if any candidate of the segment is not in `C`, `Ok`; else if the
segment has length `|C|`, `Contradiction` exactly when the segment starts
with the winner, else `Ok`; else `Ok` if the winner appears in the segment
and `NeedsMoreDetail` if not.  Stated for comparison with the
implementation `okEliminationOrderSuffix` (with membership for the
implementation's binary search). -/
def specNENEffect (a : NotEliminatedNext) (pi : List Nat) :
    EffectOfAssertionOnEliminationOrderSuffix :=
  let segment :=
    if pi.length > a.continuing.length then
      pi.drop (pi.length - a.continuing.length)
    else pi
  if ∃ c ∈ segment, c ∉ a.continuing then .Ok
  else if segment.length = a.continuing.length then
    (if segment.head? = some a.winner then .Contradiction else .Ok)
  else if a.winner ∈ segment then .Ok else .NeedsMoreDetail

end NotEliminatedNext

namespace Assertion

/-- From `assertions.rs` (`Assertion::ok_elimination_order_suffix`). -/
def okEliminationOrderSuffix (a : Assertion)
    (eliminationOrderSuffix : List Nat) : EffectOfAssertionOnEliminationOrderSuffix :=
  match a with
  | .NEB wo => wo.okEliminationOrderSuffix eliminationOrderSuffix
  | .NEN irv => irv.okEliminationOrderSuffix eliminationOrderSuffix

/-- From `tree_showing_what_assertions_pruned_leaves.rs` (use of
`Assertion::is_neb`; the method itself is a trivial discriminator). -/
def isNEB (a : Assertion) : Bool :=
  match a with
  | .NEB _ => true
  | .NEN _ => false

end Assertion

/-! ## Audit difficulty metrics, from `src/raire/src/audit_type.rs`

The two transcendental metrics (BRAVO, MACRO) are modelled over the reals
(`WithTop Real`); the two diluted-margin metrics are exactly rational and are
modelled computably over `WithTop Rat`.  Floating-point rounding in the
finite branches is out of scope; the branch structure (the `w <= l` test
that yields `f64::INFINITY`) is modelled exactly. -/

/-- From `audit_type.rs` (`struct BallotPollingBRAVO`). -/
structure BallotPollingBRAVO where
  confidence : Real
  totalAuditableBallots : Nat

/-- From `audit_type.rs`
(`BallotPollingBRAVO::average_sample_number_original_paper_using_total_auditable_ballots`,
the body of its `AuditType::difficulty`). -/
noncomputable def BallotPollingBRAVO.averageSampleNumberUsingTotalAuditableBallots
    (audit : BallotPollingBRAVO)
    (lowestTallyWinner highestTallyLoser _activePaperCount : Nat) : WithTop Real :=
  if lowestTallyWinner ≤ highestTallyLoser then ⊤ else
    let w : Real := lowestTallyWinner
    let l : Real := highestTallyLoser
    let s := w / (w + l)
    let twos := 2 * s
    let ln2s := Real.log twos
    let numerator := 0.5 * ln2s - Real.log audit.confidence
    let denominator := (w * ln2s + l * Real.log (2 - twos)) / (audit.totalAuditableBallots : Real)
    ((numerator / denominator : Real) : WithTop Real)

/-- From `audit_type.rs` (`struct BallotComparisonMACRO`). -/
structure BallotComparisonMACRO where
  confidence : Real
  errorInflationFactor : Real
  totalAuditableBallots : Nat

/-- From `audit_type.rs` (`BallotComparisonMACRO::average_sample_number_original_paper`,
the body of its `AuditType::difficulty`). -/
noncomputable def BallotComparisonMACRO.averageSampleNumber
    (audit : BallotComparisonMACRO)
    (lowestTallyWinner highestTallyLoser : Nat) : WithTop Real :=
  if lowestTallyWinner ≤ highestTallyLoser then ⊤ else
    let v : Real := (lowestTallyWinner - highestTallyLoser : Nat)
    let u := 2 * audit.errorInflationFactor * (audit.totalAuditableBallots : Real) / v
    ((-(Real.log audit.confidence) * u : Real) : WithTop Real)

/-- From `audit_type.rs` (`struct BallotComparisonOneOnDilutedMargin`). -/
structure BallotComparisonOneOnDilutedMargin where
  totalAuditableBallots : Nat
  deriving DecidableEq, Repr

/-- From `audit_type.rs` (`AuditType::difficulty` for
`BallotComparisonOneOnDilutedMargin`): `total_auditable_ballots` divided by
the margin.  The quotient is written with `mkRat` (so that it evaluates
inside the kernel); `BallotComparisonOneOnDilutedMargin.difficulty_eq_div`
shows it is exactly the division the source computes. -/
def BallotComparisonOneOnDilutedMargin.difficulty
    (audit : BallotComparisonOneOnDilutedMargin)
    (lowestTallyWinner highestTallyLoser _activePaperCount : Nat) : Difficulty :=
  if lowestTallyWinner ≤ highestTallyLoser then ⊤ else
    ((mkRat audit.totalAuditableBallots
      (lowestTallyWinner - highestTallyLoser) : Rat) : Difficulty)


/-- From `audit_type.rs` (`struct BallotPollingOneOnDilutedMarginSquared`). -/
structure BallotPollingOneOnDilutedMarginSquared where
  totalAuditableBallots : Nat
  deriving DecidableEq, Repr

/-- From `audit_type.rs` (`AuditType::difficulty` for
`BallotPollingOneOnDilutedMarginSquared`): the squared reciprocal diluted
margin, written with `mkRat` so that it evaluates inside the kernel;
`BallotPollingOneOnDilutedMarginSquared.difficultySquaredEqDiv` shows it is the
source's squared quotient. -/
def BallotPollingOneOnDilutedMarginSquared.difficulty
    (audit : BallotPollingOneOnDilutedMarginSquared)
    (lowestTallyWinner highestTallyLoser _activePaperCount : Nat) : Difficulty :=
  if lowestTallyWinner ≤ highestTallyLoser then ⊤ else
    ((mkRat (audit.totalAuditableBallots * audit.totalAuditableBallots)
      ((lowestTallyWinner - highestTallyLoser)
        * (lowestTallyWinner - highestTallyLoser)) : Rat) : Difficulty)


/-! ## Best-assertion search, from `assertions.rs` and `raire_algorithm.rs`

The generic `A : AuditType` parameter of the Rust code is modelled by
passing the trait method itself: `audit : Nat → Nat → Nat → Difficulty`. -/

/-- From `assertions.rs` (`NotEliminatedBefore::difficulty`). -/
def NotEliminatedBefore.difficulty (a : NotEliminatedBefore) (vs : Votes)
    (audit : Nat → Nat → Nat → Difficulty) : Difficulty :=
  let tallyWinner := vs.firstPreferenceOnlyTally a.winner
  let tallies := vs.restrictedTallies [a.winner, a.loser]
  let tallyLoser := (tallies.get? 1).getD 0
  audit tallyWinner tallyLoser (tallyWinner + tallyLoser)

/-- From `assertions.rs` (`NotEliminatedBeforeCache`): the N×N table of NEB
difficulties with `⊤` on the diagonal.  The table is a pure memo and all
lookups are in range, so it is modelled as the function it tabulates. -/
def nebCacheDifficulty (vs : Votes) (audit : Nat → Nat → Nat → Difficulty)
    (entry : NotEliminatedBefore) : Difficulty :=
  if entry.winner = entry.loser then ⊤ else entry.difficulty vs audit

/-- From `assertions.rs` (`NotEliminatedBefore::find_best_assertion_using_cache`):
for each rival `altC` of `c`, consider `NEB(c, altC)` if `altC` occurs later
in π and `NEB(altC, c)` otherwise, keeping the strictly smallest difficulty.
The running best starts at `f64::MAX`, modelled as `⊤`. -/
def NotEliminatedBefore.findBestAssertionUsingCache (c : Nat) (laterInPi : List Nat)
    (vs : Votes) (audit : Nat → Nat → Nat → Difficulty) : Option AssertionAndDifficulty :=
  let step := fun (best : Difficulty × Option NotEliminatedBefore) (altC : Nat) =>
    if altC = c then best else
    let contest : NotEliminatedBefore :=
      if altC ∈ laterInPi then ⟨c, altC⟩ else ⟨altC, c⟩
    let asn := nebCacheDifficulty vs audit contest
    if asn < best.1 then (asn, some contest) else best
  let best := (List.range vs.numCandidates).foldl step (⊤, none)
  match best.2 with
  | some assertion => some ⟨.NEB assertion, best.1⟩
  | none => none

/-- From `assertions.rs` (`NotEliminatedNext::find_best_difficulty`).  The
`usize::MAX` sentinels for the not-yet-seen winner and loser tallies are
modelled as `Option Nat`, so the first loser comparison always succeeds and
a later equal tally replaces the best loser (the `<=` of the source).  All
call sites pass `winner ∈ continuing`, so the winner-tally default is never
used there. -/
def NotEliminatedNext.findBestDifficulty (vs : Votes)
    (audit : Nat → Nat → Nat → Difficulty) (continuing : List Nat) (winner : Nat) :
    Option AssertionAndDifficulty :=
  let tallies := vs.restrictedTallies continuing
  let step := fun (st : Option Nat × Option Nat × Option Nat) (ct : Nat × Nat) =>
    if winner = ct.1 then (some ct.2, st.2.1, st.2.2)
    else if st.2.1.all (fun tl => ct.2 ≤ tl) then (st.1, some ct.2, some ct.1)
    else st
  let st := (continuing.zip tallies).foldl step (none, none, none)
  match st.2.2, st.2.1 with
  | some loser, some tallyLoser =>
    let difficulty := audit (st.1.getD 0) tallyLoser tallies.sum
    -- `sort_unstable_by_key(|c| c.0)`: sorting Nat keys, where tied elements
    -- are identical, so any correct sort produces the same list.
    let continuing' := continuing.insertionSort (· ≤ ·)
    some ⟨.NEN ⟨winner, loser, continuing'⟩, difficulty⟩
  | _, _ => none

/-- From `raire_algorithm.rs` (`fn find_best_audit`): the cheapest of a dummy
infinitely-bad `NEB(c,c)`, the best cached NEB, and the best NEN over
continuing set π with winner `π[0]`. -/
def findBestAudit (pi : List Nat) (vs : Votes)
    (audit : Nat → Nat → Nat → Difficulty) : AssertionAndDifficulty :=
  match pi with
  | [] => ⟨.NEB ⟨0, 0⟩, ⊤⟩   -- all call sites have π nonempty (`pi[0]` would panic)
  | c :: rest =>
    let res : AssertionAndDifficulty := ⟨.NEB ⟨c, c⟩, ⊤⟩
    let res := match NotEliminatedBefore.findBestAssertionUsingCache c rest vs audit with
      | some assertion => if assertion.difficulty < res.difficulty then assertion else res
      | none => res
    match NotEliminatedNext.findBestDifficulty vs audit pi c with
      | some assertion => if assertion.difficulty < res.difficulty then assertion else res
      | none => res

/-! ## IRV winner discovery, from `src/raire/src/irv.rs` -/

/-- Insert a value into a sorted duplicate-free list, keeping it sorted and
duplicate-free: the model of `HashSet::insert` under the canonical
set representation used below. -/
def insertSortedSet (c : Nat) : List Nat → List Nat
  | [] => [c]
  | x :: xs =>
    if c < x then c :: x :: xs
    else if c = x then x :: xs
    else x :: insertSortedSet c xs

/-- The model of `HashSet` iteration order: a function that lists the
elements of a (canonically sorted) winner set in some order.  Rust leaves
a hash set's iteration order unspecified; theorems about determinism
quantify over this parameter. -/
structure HashOrder where
  listing : List Nat → List Nat
  listing_perm : ∀ l, (listing l).Perm l

/-- A `HashOrder` that happens to list sets in their canonical order. -/
def idHashOrder : HashOrder where
  listing l := l
  listing_perm l := List.Perm.refl l

/-- A `HashOrder` that lists sets backwards. -/
def reverseHashOrder : HashOrder where
  listing l := l.reverse
  listing_perm l := l.reverse_perm

/-- From `irv.rs` (`struct IRVElectionWork`).  The memo `HashMap`, keyed by
the canonically sorted continuing list, is modelled as an association list.
The winner collections the Rust code stores are `Vec`s drained from
`HashSet`s, consumed only element-wise, so only the set matters: the model
keeps them as canonically sorted duplicate-free lists, and `runElection`
applies the unspecified iteration order (`HashOrder`) to the final one. -/
structure IRVWork where
  winnerGivenContinuingCandidates : List (List Nat × List Nat)
  eliminationOrder : List Nat

/-- From `irv.rs` (`IRVElectionWork::find_bulk_elimination`): sort candidates
by tally ascending (stably, like `sort_by_key`) and look for a cut point
`i > 1` whose tally exceeds the cumulative sum below it. -/
def findBulkElimination (continuing : List Nat) (tallies : List Nat) : Option (List Nat) :=
  let merged := (continuing.zip tallies).insertionSort (fun a b => a.2 ≤ b.2)
  go merged merged 0 0
where
  go (all : List (Nat × Nat)) : List (Nat × Nat) → Nat → Nat → Option (List Nat)
  | [], _, _ => none
  | m :: rest, i, cumulativeSum =>
    if i > 1 ∧ m.2 > cumulativeSum then some (((all.take i).map Prod.fst))
    else go all rest (i + 1) (cumulativeSum + m.2)

/-- From `irv.rs` (the body of the `for i in 0..continuing.len()` loop of
`IRVElectionWork::find_all_possible_winners`): try every continuing
candidate whose tally is minimal, recursing via `recurse` (the outer
function, one fuel level down), accumulating the union of winner sets and
maintaining the `already_tried_one_option` / `already_tried_bulk_elimination`
flags and the bulk-elimination `break`. -/
def findAllPossibleWinnersLoop (vs : Votes)
    (recurse : List Nat → IRVWork → TimeOut →
      Option (Except RaireError (List Nat × IRVWork × TimeOut)))
    (continuing : List Nat) (tallies : List Nat) (minTally : Nat) :
    List Nat → List Nat → Bool → Bool → IRVWork → TimeOut →
    Option (Except RaireError (List Nat × IRVWork × TimeOut))
  | [], winners, _, _, work, timeout => some (.ok (winners, work, timeout))
  | i :: rest, winners, alreadyTriedOneOption, alreadyTriedBulkElimination, work, timeout =>
    if (tallies.get? i).getD 0 = minTally then
      if alreadyTriedOneOption && !alreadyTriedBulkElimination
          && (findBulkElimination continuing tallies).isSome then
        some (.ok (winners, work, timeout))   -- the `break`
      else
        let alreadyTriedBulkElimination :=
          alreadyTriedBulkElimination || alreadyTriedOneOption
        let work :=
          if work.eliminationOrder.length + continuing.length = vs.numCandidates then
            { work with eliminationOrder :=
                work.eliminationOrder ++ [(continuing.get? i).getD 0] }
          else work
        let newContinuing := continuing.take i ++ continuing.drop (i + 1)
        match recurse newContinuing work timeout with
        | none => none
        | some (.error e) => some (.error e)
        | some (.ok (res, work, timeout)) =>
          findAllPossibleWinnersLoop vs recurse continuing tallies minTally
            rest (res.foldl (fun w c => insertSortedSet c w) winners) true
            alreadyTriedBulkElimination work timeout
    else
      findAllPossibleWinnersLoop vs recurse continuing tallies minTally
        rest winners alreadyTriedOneOption alreadyTriedBulkElimination work timeout

/-- From `irv.rs` (`IRVElectionWork::find_all_possible_winners`).  Rust
recursion is on strictly shrinking continuing sets; `fuel` is a structural
bound on the depth (`fuel > continuing.length` always suffices, see
`findAllPossibleWinners_fuel_sufficient`).  For an empty `continuing` (only
reachable with zero candidates, where the Rust code would panic on
`min().unwrap()`) the model returns the empty winner set. -/
def findAllPossibleWinners (vs : Votes) :
    Nat → List Nat → IRVWork → TimeOut →
    Option (Except RaireError (List Nat × IRVWork × TimeOut))
  | 0, _, _, _ => none
  | fuel + 1, continuing, work, timeout =>
    let ct := timeout.quickCheckTimeout
    if ct.1 then some (.error .TimeoutCheckingWinner) else
    let timeout := ct.2
    if continuing.length = 1 then
      let work :=
        if work.eliminationOrder.length + continuing.length = vs.numCandidates then
          { work with eliminationOrder := work.eliminationOrder ++ continuing }
        else work
      some (.ok (continuing, work, timeout))
    else
      match work.winnerGivenContinuingCandidates.lookup continuing with
      | some alreadyComputed => some (.ok (alreadyComputed, work, timeout))
      | none =>
        let tallies := vs.restrictedTallies continuing
        match tallies.min? with
        | none => some (.ok ([], work, timeout))   -- zero candidates; Rust panics here
        | some minTally =>
          match findAllPossibleWinnersLoop vs
              (fun c w t => findAllPossibleWinners vs fuel c w t)
              continuing tallies minTally
              (List.range continuing.length) [] false false work timeout with
          | none => none
          | some (.error e) => some (.error e)
          | some (.ok (winners, work, timeout)) =>
            let work :=
              { work with winnerGivenContinuingCandidates :=
                  (continuing, winners) :: work.winnerGivenContinuingCandidates }
            some (.ok (winners, work, timeout))

/-- From `irv.rs` (`struct IRVResult`). -/
structure IRVResult where
  possibleWinners : List Nat
  eliminationOrder : List Nat

/-- From `irv.rs` (`Votes::run_election`).  The `ho` parameter models the
unspecified iteration order in which the final `HashSet` of winners is
collected into a `Vec`. -/
def Votes.runElection (vs : Votes) (ho : HashOrder) (timeout : TimeOut) :
    Except RaireError (IRVResult × TimeOut) :=
  let allCandidates := List.range vs.numCandidates
  match findAllPossibleWinners vs (vs.numCandidates + 1) allCandidates
      ⟨[], []⟩ timeout with
  | none => .error .TimeoutCheckingWinner
      -- unreachable: see `findAllPossibleWinners_fuel_sufficient`
  | some (.error e) => .error e
  | some (.ok (winners, work, timeout)) =>
    .ok (⟨ho.listing winners, work.eliminationOrder⟩, timeout)

/-! ## The RAIRE search, from `src/raire/src/raire_algorithm.rs` -/

/-- From `raire_algorithm.rs` (`struct SequenceAndEffort`). -/
structure SequenceAndEffort where
  /-- a permutation that needs to be ruled out. -/
  pi : List Nat
  bestAssertionForAncestor : AssertionAndDifficulty
  /-- the best ancestor for pi is the last `bestAncestorLength` elements of pi. -/
  bestAncestorLength : Nat
  /-- if not `none`, a dive has already been done on the specified candidate. -/
  diveDone : Option Nat
  deriving DecidableEq, Repr

namespace SequenceAndEffort

/-- From `raire_algorithm.rs` (`SequenceAndEffort::difficulty`). -/
def difficulty (s : SequenceAndEffort) : Difficulty :=
  s.bestAssertionForAncestor.difficulty

/-- From `raire_algorithm.rs` (`SequenceAndEffort::best_ancestor`). -/
def bestAncestor (s : SequenceAndEffort) : List Nat :=
  s.pi.drop (s.pi.length - s.bestAncestorLength)

/-- From `raire_algorithm.rs` (`SequenceAndEffort::extend_by_candidate`). -/
def extendByCandidate (s : SequenceAndEffort) (c : Nat) (vs : Votes)
    (audit : Nat → Nat → Nat → Difficulty) : SequenceAndEffort :=
  let piPrime := c :: s.pi
  let a := findBestAudit piPrime vs audit
  if a.difficulty < s.difficulty then
    { pi := piPrime, bestAncestorLength := piPrime.length,
      bestAssertionForAncestor := a, diveDone := none }
  else
    { pi := piPrime, bestAncestorLength := s.bestAncestorLength,
      bestAssertionForAncestor := s.bestAssertionForAncestor, diveDone := none }

/-- From `raire_algorithm.rs` (`SequenceAndEffort::just_take_assertion`): add
the best assertion to the list unless already present, first purging from the
frontier every entry whose π ends with this entry's best ancestor. -/
def justTakeAssertion (s : SequenceAndEffort)
    (assertions : List AssertionAndDifficulty) (frontier : List SequenceAndEffort) :
    List AssertionAndDifficulty × List SequenceAndEffort :=
  if assertions.any (fun a => a.assertion = s.bestAssertionForAncestor.assertion) then
    (assertions, frontier)
  else
    let bestAncestorPi := s.bestAncestor
    let frontier := frontier.filter (fun e => !(bestAncestorPi.isSuffixOf e.pi))
    (assertions ++ [s.bestAssertionForAncestor], frontier)

/-- From `raire_algorithm.rs` (`SequenceAndEffort::contains_all_candidates`):
called when π has gone as far as it can; fails on infinite difficulty, else
raises the lower bound and takes the assertion. -/
def containsAllCandidates (s : SequenceAndEffort)
    (assertions : List AssertionAndDifficulty) (frontier : List SequenceAndEffort)
    (bound : Difficulty) :
    Except RaireError (List AssertionAndDifficulty × List SequenceAndEffort × Difficulty) :=
  if s.difficulty = ⊤ then .error (.CouldNotRuleOut s.pi)
  else
    let bound := if bound < s.difficulty then s.difficulty else bound
    let af := s.justTakeAssertion assertions frontier
    .ok (af.1, af.2, bound)

end SequenceAndEffort

/-- The pop of the `BinaryHeap` frontier: remove an entry of maximal
difficulty.  Among equal difficulties Rust's heap order is unspecified; the
model takes the entry pushed least recently among the earliest listed. -/
def popMax : List SequenceAndEffort → Option (SequenceAndEffort × List SequenceAndEffort)
  | [] => none
  | e :: rest =>
    match popMax rest with
    | none => some (e, [])
    | some (m, others) =>
      if e.difficulty < m.difficulty then some (m, e :: others) else some (e, rest)

/-- From `raire_algorithm.rs` (`const USE_DIVING`). -/
def USE_DIVING : Bool := true

/-- From `raire_algorithm.rs` (the diving `for &c in
irv_result.elimination_order.iter().rev()` loop inside `raire`): walk the
reversed IRV elimination order, extending a chain from the popped entry; on
each step the previous chain entry is marked with `dive_done` and pushed
back; a chain entry whose difficulty is within the bound is committed and
the dive aborts (modelled by returning `none` for the chain, so the caller
skips the final `contains_all_candidates`). -/
def diveLoop (vs : Votes) (audit : Nat → Nat → Nat → Difficulty) (bound : Difficulty) :
    List Nat → SequenceAndEffort → Option SequenceAndEffort →
    List AssertionAndDifficulty → List SequenceAndEffort →
    SequenceAndEffort × Option SequenceAndEffort
      × List AssertionAndDifficulty × List SequenceAndEffort
  | [], x0, last, assertions, frontier => (x0, last, assertions, frontier)
  | c :: rest, x0, last, assertions, frontier =>
    if c ∈ x0.pi then diveLoop vs audit bound rest x0 last assertions frontier
    else
      match last with
      | some l =>
        let l' := { l with diveDone := some c }
        let newSequence := l'.extendByCandidate c vs audit
        let frontier := l' :: frontier
        if newSequence.difficulty ≤ bound then
          let af := newSequence.justTakeAssertion assertions frontier
          (x0, none, af.1, af.2)   -- the `break` after committing
        else diveLoop vs audit bound rest x0 (some newSequence) assertions frontier
      | none =>
        let x0' := { x0 with diveDone := some c }
        let newSequence := x0'.extendByCandidate c vs audit
        if newSequence.difficulty ≤ bound then
          let af := newSequence.justTakeAssertion assertions frontier
          (x0', none, af.1, af.2)
        else diveLoop vs audit bound rest x0' (some newSequence) assertions frontier

/-- From `raire_algorithm.rs` (the `for c in 0..votes.num_candidates()`
expansion loop inside `raire`): extend the considered entry by every
candidate not in π and not the dive candidate; full-length extensions go
through `contains_all_candidates`, the rest are pushed on the frontier. -/
def expandLoop (vs : Votes) (audit : Nat → Nat → Nat → Difficulty)
    (e : SequenceAndEffort) :
    List Nat → List AssertionAndDifficulty → List SequenceAndEffort → Difficulty →
    Except RaireError (List AssertionAndDifficulty × List SequenceAndEffort × Difficulty)
  | [], assertions, frontier, bound => .ok (assertions, frontier, bound)
  | c :: rest, assertions, frontier, bound =>
    if c ∈ e.pi ∨ e.diveDone = some c then
      expandLoop vs audit e rest assertions frontier bound
    else
      let newSequence := e.extendByCandidate c vs audit
      if newSequence.pi.length = vs.numCandidates then
        match newSequence.containsAllCandidates assertions frontier bound with
        | .error err => .error err
        | .ok (a, f, b) => expandLoop vs audit e rest a f b
      else
        expandLoop vs audit e rest assertions (newSequence :: frontier) bound

/-- From `raire_algorithm.rs` (the `while let Some(mut sequence_being_considered)
= frontier.pop()` loop of `raire`).  The Rust loop terminates because every
pop either shrinks the frontier or replaces an entry by entries of greater
π-length; `fuel` is a structural bound on the number of pops.  A `none`
result means the fuel ran out (never the case for the bound used by
`raire`, on realistic inputs).  The `assert_eq!` on the elimination order
length is not modelled; `runElection_eliminationOrder_length` shows it
holds whenever the loop is reached. -/
def raireLoop (vs : Votes) (audit : Nat → Nat → Nat → Difficulty)
    (irvEliminationOrder : List Nat) :
    Nat → List AssertionAndDifficulty → Difficulty → List SequenceAndEffort →
    Option (Except RaireError (List AssertionAndDifficulty × Difficulty))
  | 0, _, _, _ => none
  | fuel + 1, assertions, bound, frontier =>
    match popMax frontier with
    | none => some (.ok (assertions, bound))
    | some (sequenceBeingConsidered, frontier) =>
      if sequenceBeingConsidered.difficulty ≤ bound then
        -- may as well just include
        let af := sequenceBeingConsidered.justTakeAssertion assertions frontier
        raireLoop vs audit irvEliminationOrder fuel af.1 bound af.2
      else
        let afterDive :
            Except RaireError
              (SequenceAndEffort × List AssertionAndDifficulty
                × List SequenceAndEffort × Difficulty) :=
          if USE_DIVING && sequenceBeingConsidered.diveDone.isNone then
            match diveLoop vs audit bound irvEliminationOrder.reverse
                sequenceBeingConsidered none assertions frontier with
            | (x0, some last, assertions, frontier) =>
              match last.containsAllCandidates assertions frontier bound with
              | .error err => .error err
              | .ok (a, f, b) => .ok (x0, a, f, b)
            | (x0, none, assertions, frontier) => .ok (x0, assertions, frontier, bound)
          else .ok (sequenceBeingConsidered, assertions, frontier, bound)
        match afterDive with
        | .error err => some (.error err)
        | .ok (e, assertions, frontier, bound) =>
          match expandLoop vs audit e (List.range vs.numCandidates)
              assertions frontier bound with
          | .error err => some (.error err)
          | .ok (assertions, frontier, bound) =>
            raireLoop vs audit irvEliminationOrder fuel assertions bound frontier

/-- The fuel `raire` hands to `raireLoop`: far more pops than the search can
perform on any input it completes on. -/
def raireSearchFuel (numCandidates : Nat) : Nat :=
  (numCandidates + 2) ^ (2 * numCandidates + 4)

/-- From `raire_algorithm.rs` (the frontier construction in `raire`: the
`for c in 0..votes.num_candidates()` population loop). -/
def initialFrontier (vs : Votes) (audit : Nat → Nat → Nat → Difficulty)
    (winner : Nat) : List SequenceAndEffort :=
  (List.range vs.numCandidates).foldl
    (fun frontier c =>
      if c ≠ winner then
        let pi := [c]
        let bestAssertionForPi := findBestAudit pi vs audit
        { pi := pi, bestAncestorLength := pi.length,
          bestAssertionForAncestor := bestAssertionForPi,
          diveDone := none } :: frontier
      else frontier)
    []

/-! ## Assertion trimming, from
`src/raire/src/tree_showing_what_assertions_pruned_leaves.rs` -/

/-- From the tree module (`enum HowFarToContinueSearchTreeWhenPruningAssertionFound`). -/
inductive HowFarToContinueSearchTreeWhenPruningAssertionFound where
  | StopImmediately
  | ContinueOnce
  | Forever
  | StopOnNEB
  deriving DecidableEq, Repr

namespace HowFarToContinueSearchTreeWhenPruningAssertionFound

/-- From the tree module (`should_continue_if_pruning_assertion_found`). -/
def shouldContinueIfPruningAssertionFound
    (h : HowFarToContinueSearchTreeWhenPruningAssertionFound)
    (prunedByNEB : Bool) : Bool :=
  match h with
  | .StopImmediately => false
  | .StopOnNEB => !prunedByNEB
  | _ => true

/-- From the tree module (`next_level_if_pruning_assertion_found`). -/
def nextLevelIfPruningAssertionFound
    (h : HowFarToContinueSearchTreeWhenPruningAssertionFound) :
    HowFarToContinueSearchTreeWhenPruningAssertionFound :=
  match h with
  | .StopImmediately => .StopImmediately
  | .ContinueOnce => .StopImmediately
  | .Forever => .Forever
  | .StopOnNEB => .StopOnNEB

end HowFarToContinueSearchTreeWhenPruningAssertionFound

/-- From the tree module (`struct TreeNodeShowingWhatAssertionsPrunedIt`). -/
inductive TreeNodeShowingWhatAssertionsPrunedIt where
  | mk (candidateBeingEliminatedAtThisNode : Nat)
       (pruningAssertions : List Nat)
       (children : List TreeNodeShowingWhatAssertionsPrunedIt)
       (valid : Bool)

namespace TreeNodeShowingWhatAssertionsPrunedIt

def candidateBeingEliminatedAtThisNode : TreeNodeShowingWhatAssertionsPrunedIt → Nat
  | .mk c _ _ _ => c

def pruningAssertions : TreeNodeShowingWhatAssertionsPrunedIt → List Nat
  | .mk _ p _ _ => p

def children :
    TreeNodeShowingWhatAssertionsPrunedIt → List TreeNodeShowingWhatAssertionsPrunedIt
  | .mk _ _ c _ => c

def valid : TreeNodeShowingWhatAssertionsPrunedIt → Bool
  | .mk _ _ _ v => v

end TreeNodeShowingWhatAssertionsPrunedIt

/-- The effect of the assertion with index `i` of `allAssertions` on a
suffix; `none` for an out-of-range index (where Rust would panic; all call
sites are in range). -/
def assertionEffect (allAssertions : List Assertion) (i : Nat) (suffix : List Nat) :
    Option EffectOfAssertionOnEliminationOrderSuffix :=
  (allAssertions.get? i).map (fun a => a.okEliminationOrderSuffix suffix)

/-- From the tree module (the `for candidate in 0..num_candidates` loop of
`TreeNodeShowingWhatAssertionsPrunedIt::new`): build the children for each
candidate not in the suffix, propagating validity; when a valid child is
found below a pruned node the children are cleared and the loop breaks. -/
def treeChildrenLoop
    (recurse : List Nat → Nat → List Nat → TimeOut →
       Option (Except RaireError (TreeNodeShowingWhatAssertionsPrunedIt × TimeOut)))
    (eliminationOrderSuffix : List Nat) (stillRelevantAssertions : List Nat)
    (pruningIsEmpty : Bool) :
    List Nat → List TreeNodeShowingWhatAssertionsPrunedIt → Bool → TimeOut →
    Option (Except RaireError
      (List TreeNodeShowingWhatAssertionsPrunedIt × Bool × TimeOut))
  | [], childrenAcc, valid, timeout => some (.ok (childrenAcc, valid, timeout))
  | candidate :: rest, childrenAcc, valid, timeout =>
    if candidate ∈ eliminationOrderSuffix then
      treeChildrenLoop recurse eliminationOrderSuffix stillRelevantAssertions
        pruningIsEmpty rest childrenAcc valid timeout
    else
      match recurse eliminationOrderSuffix candidate stillRelevantAssertions timeout with
      | none => none
      | some (.error e) => some (.error e)
      | some (.ok (child, timeout)) =>
        if child.valid then
          if pruningIsEmpty then
            treeChildrenLoop recurse eliminationOrderSuffix stillRelevantAssertions
              pruningIsEmpty rest (childrenAcc ++ [child]) true timeout
          else
            some (.ok ([], valid, timeout))   -- `children.clear()` and `break`
        else
          treeChildrenLoop recurse eliminationOrderSuffix stillRelevantAssertions
            pruningIsEmpty rest (childrenAcc ++ [child]) valid timeout

/-- From the tree module (`TreeNodeShowingWhatAssertionsPrunedIt::new`).
Rust recursion is on suffixes gaining one fresh candidate per level; `fuel`
is a structural depth bound (`numCandidates + 1` always suffices from a
root, see `treeNew_fuel_sufficient`). -/
def treeNew (allAssertions : List Assertion) (numCandidates : Nat) :
    Nat → List Nat → Nat → List Nat →
    HowFarToContinueSearchTreeWhenPruningAssertionFound → TimeOut →
    Option (Except RaireError (TreeNodeShowingWhatAssertionsPrunedIt × TimeOut))
  | 0, _, _, _, _, _ => none
  | fuel + 1, parentEliminationOrderSuffix, candidateBeingEliminatedAtThisNode,
      relevantAssertions, considerChildrenOfEliminatedNodes, timeout =>
    let ct := timeout.quickCheckTimeout
    if ct.1 then some (.error .TimeoutTrimmingAssertions) else
    let timeout := ct.2
    let eliminationOrderSuffix :=
      candidateBeingEliminatedAtThisNode :: parentEliminationOrderSuffix
    let pruningAssertions := relevantAssertions.filter (fun i =>
      assertionEffect allAssertions i eliminationOrderSuffix = some .Contradiction)
    let stillRelevantAssertions := relevantAssertions.filter (fun i =>
      assertionEffect allAssertions i eliminationOrderSuffix = some .NeedsMoreDetail)
    let valid := pruningAssertions.isEmpty && stillRelevantAssertions.isEmpty
    let prunedByNEB := pruningAssertions.any (fun i =>
      ((allAssertions.get? i).map Assertion.isNEB) = some true)
    if (pruningAssertions.isEmpty
          || considerChildrenOfEliminatedNodes.shouldContinueIfPruningAssertionFound
               prunedByNEB)
        && !stillRelevantAssertions.isEmpty then
      let nextConsiderChildrenOfEliminatedNodes :=
        if pruningAssertions.isEmpty then considerChildrenOfEliminatedNodes
        else considerChildrenOfEliminatedNodes.nextLevelIfPruningAssertionFound
      match treeChildrenLoop
          (fun s c r t => treeNew allAssertions numCandidates fuel s c r
            nextConsiderChildrenOfEliminatedNodes t)
          eliminationOrderSuffix stillRelevantAssertions pruningAssertions.isEmpty
          (List.range numCandidates) [] valid timeout with
      | none => none
      | some (.error e) => some (.error e)
      | some (.ok (children, valid, timeout)) =>
        some (.ok (⟨candidateBeingEliminatedAtThisNode, pruningAssertions,
          children, valid⟩, timeout))
    else
      some (.ok (⟨candidateBeingEliminatedAtThisNode, pruningAssertions, [],
        valid⟩, timeout))

/-- From the tree module (`struct HeuristicWorkOutWhichAssertionsAreUsed`):
the `Vec<bool>` of used assertion indices, modelled by the (sorted,
duplicate-free) list of indices that are true. -/
structure HeuristicWorkOutWhichAssertionsAreUsed where
  assertionsUsed : List Nat
  deriving DecidableEq

namespace HeuristicWorkOutWhichAssertionsAreUsed

/-- `HeuristicWorkOutWhichAssertionsAreUsed::new`: nothing used yet. -/
def new : HeuristicWorkOutWhichAssertionsAreUsed := ⟨[]⟩

/-- From the tree module (`uses`). -/
def uses (h : HeuristicWorkOutWhichAssertionsAreUsed) (index : Nat) : Bool :=
  index ∈ h.assertionsUsed

end HeuristicWorkOutWhichAssertionsAreUsed

mutual

/-- From the tree module (`add_tree_forced`): a leaf pruned by exactly one
assertion forces that assertion to be used; recurse through unpruned
nodes. -/
def addTreeForced (h : HeuristicWorkOutWhichAssertionsAreUsed) :
    TreeNodeShowingWhatAssertionsPrunedIt → HeuristicWorkOutWhichAssertionsAreUsed
  | .mk _ pruning children _ =>
    if pruning.length > 0 then
      if children.isEmpty then
        if pruning.length = 1 then
          ⟨insertSortedSet (pruning.head?.getD 0) h.assertionsUsed⟩
        else h
      else h
    else addTreeForcedList h children

/-- The `for child in &node.children` recursion of `add_tree_forced`. -/
def addTreeForcedList (h : HeuristicWorkOutWhichAssertionsAreUsed) :
    List TreeNodeShowingWhatAssertionsPrunedIt → HeuristicWorkOutWhichAssertionsAreUsed
  | [] => h
  | n :: rest => addTreeForcedList (addTreeForced h n) rest

end

mutual

/-- From the tree module (`node_already_eliminated`): a used pruning
assertion eliminates the node directly, or all of a nonempty list of
children are eliminated. -/
def nodeAlreadyEliminated (h : HeuristicWorkOutWhichAssertionsAreUsed) :
    TreeNodeShowingWhatAssertionsPrunedIt → Bool
  | .mk _ pruning children _ =>
    pruning.any (fun v => h.uses v)
      || (!children.isEmpty && nodeAlreadyEliminatedList h children)

/-- The `node.children.iter().all(...)` recursion of `node_already_eliminated`. -/
def nodeAlreadyEliminatedList (h : HeuristicWorkOutWhichAssertionsAreUsed) :
    List TreeNodeShowingWhatAssertionsPrunedIt → Bool
  | [] => true
  | n :: rest => nodeAlreadyEliminated h n && nodeAlreadyEliminatedList h rest

end

mutual

/-- From the tree module (`add_tree_second_pass`): a pruned node not already
eliminated by used assertions gets its first pruning assertion marked;
recurse through unpruned nodes. -/
def addTreeSecondPass (h : HeuristicWorkOutWhichAssertionsAreUsed) :
    TreeNodeShowingWhatAssertionsPrunedIt → TimeOut →
    Except RaireError (HeuristicWorkOutWhichAssertionsAreUsed × TimeOut)
  | .mk cand pruning children valid, timeout =>
    let ct := timeout.quickCheckTimeout
    if ct.1 then .error .TimeoutTrimmingAssertions else
    let timeout := ct.2
    if pruning.length > 0 then
      if nodeAlreadyEliminated h (.mk cand pruning children valid) then .ok (h, timeout)
      else .ok (⟨insertSortedSet (pruning.head?.getD 0) h.assertionsUsed⟩, timeout)
    else addTreeSecondPassList h children timeout

/-- The `for child in &node.children` recursion of `add_tree_second_pass`;
also the `for tree in trees` second-pass loop of
`order_assertions_and_remove_unnecessary`. -/
def addTreeSecondPassList (h : HeuristicWorkOutWhichAssertionsAreUsed) :
    List TreeNodeShowingWhatAssertionsPrunedIt → TimeOut →
    Except RaireError (HeuristicWorkOutWhichAssertionsAreUsed × TimeOut)
  | [], timeout => .ok (h, timeout)
  | n :: rest, timeout =>
    match addTreeSecondPass h n timeout with
    | .error e => .error e
    | .ok (h, timeout) => addTreeSecondPassList h rest timeout

end

/-- From `raire_algorithm.rs` (`enum TrimAlgorithm`).  The snapshot of
`raire_algorithm.rs` additionally lists a deprecated `Slow` variant that the
tree module's dispatcher (the operative one, which matches on exactly these
three) does not accept; it is omitted. -/
inductive TrimAlgorithm where
  | None
  | MinimizeTree
  | MinimizeAssertions
  deriving DecidableEq, Repr

/-- The pairwise lexicographic comparison of two equal-length continuing
lists in the NEN arm of the sort comparator. -/
def compareContinuing : List Nat → List Nat → Ordering
  | x :: xs, y :: ys => (compare x y).then (compareContinuing xs ys)
  | _, _ => .eq

/-- From the tree module (the comparator closure inside
`order_assertions_and_remove_unnecessary`): NEBs before NENs; NENs by
continuing length, winner, loser, then continuing lexicographically; NEBs
by winner then loser. -/
def assertionCompare (a b : AssertionAndDifficulty) : Ordering :=
  match a.assertion, b.assertion with
  | .NEN _, .NEB _ => .gt
  | .NEB _, .NEN _ => .lt
  | .NEN x, .NEN y =>
    (compare x.continuing.length y.continuing.length).then
      ((compare x.winner y.winner).then
        ((compare x.loser y.loser).then (compareContinuing x.continuing y.continuing)))
  | .NEB x, .NEB y => (compare x.winner y.winner).then (compare x.loser y.loser)

/-- The `assertions.sort_unstable_by(...)` call with `assertionCompare`.
Entries tied under the comparator have equal assertion fields, so stability
is irrelevant and any correct sort produces the same list. -/
def sortAssertions (assertions : List AssertionAndDifficulty) :
    List AssertionAndDifficulty :=
  assertions.insertionSort (fun a b => assertionCompare a b ≠ .gt)

/-- From the tree module (the tree-building `for candidate in
0..num_candidates` loop of `order_assertions_and_remove_unnecessary`):
build each losing candidate's pruning tree, check it rules the loser out,
and run the forced first pass.  The winner's tree is skipped
(`CHECK_WINNER_NOT_ELIMINATED` is `false` in the source). -/
def buildTreesLoop (allAssertions : List Assertion) (numCandidates winner : Nat)
    (considerChildrenOfEliminatedNodes :
      HowFarToContinueSearchTreeWhenPruningAssertionFound) :
    List Nat → HeuristicWorkOutWhichAssertionsAreUsed →
    List TreeNodeShowingWhatAssertionsPrunedIt → TimeOut →
    Option (Except RaireError (HeuristicWorkOutWhichAssertionsAreUsed
      × List TreeNodeShowingWhatAssertionsPrunedIt × TimeOut))
  | [], findUsed, trees, timeout => some (.ok (findUsed, trees, timeout))
  | candidate :: rest, findUsed, trees, timeout =>
    if candidate ≠ winner then
      match treeNew allAssertions numCandidates (numCandidates + 1) [] candidate
          (List.range allAssertions.length) considerChildrenOfEliminatedNodes timeout with
      | none => none
      | some (.error e) => some (.error e)
      | some (.ok (tree, timeout)) =>
        if tree.valid ≠ decide (candidate = winner) then
          some (.error (if candidate = winner then .InternalErrorRuledOutWinner
            else .InternalErrorDidntRuleOutLoser))
        else
          buildTreesLoop allAssertions numCandidates winner
            considerChildrenOfEliminatedNodes rest
            (addTreeForced findUsed tree) (trees ++ [tree]) timeout
    else
      buildTreesLoop allAssertions numCandidates winner
        considerChildrenOfEliminatedNodes rest findUsed trees timeout

/-- From the tree module (the `match trim_algorithm` inside
`order_assertions_and_remove_unnecessary`): how far each trimming
algorithm continues the pruning-tree search, `none` meaning no trimming. -/
def trimPolicy : TrimAlgorithm →
    Option HowFarToContinueSearchTreeWhenPruningAssertionFound
  | .None => none
  | .MinimizeTree =>
    some HowFarToContinueSearchTreeWhenPruningAssertionFound.StopImmediately
  | .MinimizeAssertions =>
    some HowFarToContinueSearchTreeWhenPruningAssertionFound.StopOnNEB

/-- From the tree module (`fn order_assertions_and_remove_unnecessary`):
sort the assertions canonically, and (unless trimming is disabled) keep
only the ones the two-pass heuristic marks as used.  (`finish_second_pass`
of the source is a no-op.)  On a timeout error the Rust function leaves the
sorted-but-untrimmed array in the caller's vector; the model's caller
reconstructs it with `sortAssertions` (see `trimAndFinalize`). -/
def orderAssertionsAndRemoveUnnecessary (assertions : List AssertionAndDifficulty)
    (winner : Nat) (numCandidates : Nat) (trimAlgorithm : TrimAlgorithm)
    (timeout : TimeOut) :
    Option (Except RaireError (List AssertionAndDifficulty × TimeOut)) :=
  let assertions := sortAssertions assertions
  match trimPolicy trimAlgorithm with
  | none => some (.ok (assertions, timeout))
  | some considerChildrenOfEliminatedNodes =>
    let allAssertions := assertions.map (·.assertion)
    match buildTreesLoop allAssertions numCandidates winner
        considerChildrenOfEliminatedNodes (List.range numCandidates)
        HeuristicWorkOutWhichAssertionsAreUsed.new [] timeout with
    | none => none
    | some (.error e) => some (.error e)
    | some (.ok (findUsed, trees, timeout)) =>
      match addTreeSecondPassList findUsed trees timeout with
      | .error e => some (.error e)
      | .ok (findUsed, timeout) =>
        some (.ok (((assertions.enum.filter (fun p => findUsed.uses p.1)).map (·.2),
          timeout)))

/-! ## The orchestrator, from `raire_algorithm.rs` (`fn raire`) and
`src/raire/src/lib.rs` (`RaireProblem::solve`) -/

/-- From `raire_algorithm.rs` (`struct RaireResult`), which has the
assertions, the difficulty (the final lower bound), the winner and the
number of candidates.  The field `warningTrimTimedOut` is Modelled from the
spec: the snapshot's struct (an older commit) lacks it, but the spec's
Solution shape, the doc comment on `RaireError::TimeoutTrimmingAssertions`
in `lib.rs`, and the readers in the utilities crate all require it.  (The
timing fields of the Solution shape are wall-clock data and are not
modelled.) -/
structure RaireResult where
  assertions : List AssertionAndDifficulty
  difficulty : Difficulty
  winner : Nat
  numCandidates : Nat
  warningTrimTimedOut : Bool
  deriving DecidableEq, Repr

/-- Modelled from the spec: the trimming step of the orchestrator.  The
snapshot's `raire` (an older commit, which type-mismatches the tree
module's dispatcher it calls) propagates every trimming error with `?`; the
spec (sections 4.7 and 7), the documentation of
`RaireError::TimeoutTrimmingAssertions` in `lib.rs` and the utilities crate
all state that the orchestrator catches `TimeoutTrimmingAssertions` and
returns the sorted, untrimmed assertions together with a raised
`warning_trim_timed_out` flag; other errors still propagate.  (That the
assertion list is exactly `sortAssertions assertions` after a trimming
timeout is documented on `order_assertions_and_remove_unnecessary`.) -/
def trimAndFinalize (assertions : List AssertionAndDifficulty) (winner : Nat)
    (numCandidates : Nat) (trimAlgorithm : TrimAlgorithm) (timeout : TimeOut) :
    Option (Except RaireError (List AssertionAndDifficulty × Bool)) :=
  match orderAssertionsAndRemoveUnnecessary assertions winner numCandidates
      trimAlgorithm timeout with
  | none => none
  | some (.ok (trimmed, _)) => some (.ok (trimmed, false))
  | some (.error .TimeoutTrimmingAssertions) =>
    some (.ok (sortAssertions assertions, true))
  | some (.error e) => some (.error e)

/-- From `raire_algorithm.rs` (`fn raire`), with the timeout parameter the
current `lib.rs` passes it and the spec-modelled trimming-timeout recovery
of `trimAndFinalize`.  The NEB cache built here in the source is modelled
by the function it tabulates (`nebCacheDifficulty`, used inside
`findBestAudit`).  A `none` result means a fuel bound was exhausted, which
the Rust loops cannot do.  (`wrongWinnerCheck` is the announced-winner
consistency check at the top of `raire`.) -/
def wrongWinnerCheck (winner : Option Nat) (possibleWinners : List Nat) : Bool :=
  match winner with
  | some w => !(possibleWinners.contains w)
  | none => false

def raire (ho : HashOrder) (vs : Votes) (winner : Option Nat)
    (audit : Nat → Nat → Nat → Difficulty) (trimAlgorithm : TrimAlgorithm)
    (timeout : TimeOut) : Option (Except RaireError RaireResult) :=
  match vs.runElection ho timeout with
  | .error e => some (.error e)
  | .ok (irvResult, timeout) =>
    if wrongWinnerCheck winner irvResult.possibleWinners then
      some (.error (.WrongWinner irvResult.possibleWinners))
    else if irvResult.possibleWinners.length ≠ 1 then
      some (.error (.TiedWinners irvResult.possibleWinners))
    else
      let winner := irvResult.possibleWinners.head?.getD 0
      let frontier := initialFrontier vs audit winner
      match raireLoop vs audit irvResult.eliminationOrder
          (raireSearchFuel vs.numCandidates) [] 0 frontier with
      | none => none
      | some (.error e) => some (.error e)
      | some (.ok (assertions, bound)) =>
        match trimAndFinalize assertions winner vs.numCandidates
            trimAlgorithm timeout with
        | none => none
        | some (.error e) => some (.error e)
        | some (.ok (assertions, warningTrimTimedOut)) =>
          some (.ok ⟨assertions, bound, winner, vs.numCandidates,
            warningTrimTimedOut⟩)

/-- From `lib.rs` (`struct RaireProblem`).  The opaque `metadata` value
(echoed unchanged into the solution) is omitted; the `audit` trait object
is modelled by its difficulty method. -/
structure RaireProblem where
  numCandidates : Nat
  votes : List Vote
  winner : Option Nat
  audit : Nat → Nat → Nat → Difficulty
  trimAlgorithm : Option TrimAlgorithm
  difficultyEstimate : Option Difficulty
  timeLimitSeconds : Option Rat

/-- From `lib.rs` (`RaireProblem::solve`): validate the time limit, build
the vote store and run `raire` with the default `MinimizeTree` trimming.
The zero-candidate rejection is Modelled from the spec: the spec's S4
scenario and `tests/edge_cases.rs` require
`Err(InvalidNumberOfCandidates)` for `num_candidates == 0`, and the
snapshot's `lib.rs` (whose error enum predates that variant) has no such
check - without it the winner finder would panic on an empty tally list.
The wall-clock time limit itself cannot fire in the model (durations are
not modelled); its validity check is (`v <= 0`; NaN is not representable
in the model).  The returned value is the `solution` field of the Rust
`RaireSolution` (the echoed metadata is omitted). -/
def RaireProblem.solve (ho : HashOrder) (p : RaireProblem) :
    Option (Except RaireError RaireResult) :=
  if (match p.timeLimitSeconds with
      | some v => decide (v ≤ 0)
      | none => false) then
    some (.error .InvalidTimeout)
  else if p.numCandidates = 0 then
    some (.error .InvalidNumberOfCandidates)
  else
    match Votes.new p.votes p.numCandidates with
    | .error e => some (.error e)
    | .ok votes =>
      raire ho votes p.winner p.audit (p.trimAlgorithm.getD .MinimizeTree)
        TimeOut.never

/-! ## Specification predicates used by the theorems below -/

/-- The assertion list rules out an elimination order: some listed assertion
contradicts it. -/
def RulesOut (A : List AssertionAndDifficulty) (τ : List Nat) : Prop :=
  ∃ ad ∈ A, ad.assertion.okEliminationOrderSuffix τ = .Contradiction

/-- A full elimination order of an `N`-candidate contest: a permutation of
all the candidates, first eliminated first. -/
def GoodOrder (N : Nat) (τ : List Nat) : Prop :=
  τ.Perm (List.range N)

/-- Structural sanity of an assertion of an `N`-candidate contest, as
produced by the search: NEB winners are candidates; NEN continuing lists
are strictly sorted candidate lists (the documented data-model
invariant). -/
def Assertion.AOK (N : Nat) : Assertion → Prop
  | .NEB neb => neb.winner < N
  | .NEN nen => nen.continuing.Sorted (· < ·) ∧ ∀ x ∈ nen.continuing, x < N

/-- The state invariant of a frontier entry: a non-empty duplicate-free
candidate suffix, a best-ancestor window inside it, the best assertion
being the best audit of the best ancestor, and the difficulty being minimal
among all the suffixes of π (the ancestors through which the entry was
built). -/
def SequenceAndEffort.EntryOK (vs : Votes)
    (audit : Nat → Nat → Nat → Difficulty) (winner : Nat)
    (e : SequenceAndEffort) : Prop :=
  e.pi ≠ [] ∧ e.pi.Nodup ∧ (∀ x ∈ e.pi, x < vs.numCandidates) ∧
  1 ≤ e.bestAncestorLength ∧ e.bestAncestorLength ≤ e.pi.length ∧
  e.bestAssertionForAncestor = findBestAudit e.bestAncestor vs audit ∧
  (∀ σ : List Nat, σ ≠ [] → σ <:+ e.pi →
    e.difficulty ≤ (findBestAudit σ vs audit).difficulty) ∧
  e.pi.getLast? ≠ some winner

/-- The search-loop coverage invariant for one elimination order: either an
already-committed assertion contradicts it, or a frontier entry's π is a
proper suffix of it (so the search will still process it) whose already-dived
direction, if any, does not head into the order (orders down the dive
direction got their own witness when the dive ran). -/
def Covered (A : List AssertionAndDifficulty) (F : List SequenceAndEffort)
    (τ : List Nat) : Prop :=
  RulesOut A τ ∨ ∃ e ∈ F, e.pi <:+ τ ∧ e.pi.length < τ.length ∧
    ∀ c2, e.diveDone = some c2 → ¬((c2 :: e.pi) <:+ τ)

/-- Structural facts established by `treeNew` about a pruning-tree node
whose parent's elimination-order suffix is σ: every recorded pruning
assertion contradicts the node's suffix; an invalid childless node is
pruned; an invalid node's children are all invalid; when children exist
they include one for every candidate outside the suffix, recursively
well-formed, and the suffix is not yet full. -/
inductive TreeNodeOK (allAssertions : List Assertion) (N : Nat) :
    TreeNodeShowingWhatAssertionsPrunedIt → List Nat → Prop where
  | intro : ∀ (cand : Nat) (pruning : List Nat)
      (children : List TreeNodeShowingWhatAssertionsPrunedIt) (valid : Bool)
      (σ : List Nat),
      (∀ i ∈ pruning,
        assertionEffect allAssertions i (cand :: σ) = some .Contradiction) →
      (valid = false → children = [] → pruning ≠ []) →
      (valid = false → ∀ child ∈ children, child.valid = false) →
      (children ≠ [] →
        ∀ c, c < N → c ∉ (cand :: σ) →
          ∃ child ∈ children,
            child.candidateBeingEliminatedAtThisNode = c) →
      (∀ child, child ∈ children → TreeNodeOK allAssertions N child (cand :: σ)) →
      (children ≠ [] → (cand :: σ).length < N) →
      TreeNodeOK allAssertions N (.mk cand pruning children valid) σ

/-- Monotonicity of an audit difficulty function in the loser tally (margin
shrinking can only make an audit harder), satisfied by the four audit
types of `audit_type.rs`. -/
def AuditMono (audit : Nat → Nat → Nat → Difficulty) : Prop :=
  ∀ w t l l', l ≤ l' → audit w l t ≤ audit w l' t

/-- The selection step of `find_best_difficulty`, with the zipped
per-candidate tally pair `(c, f c)` written through the tally function `f`
(the fold in `findBestDifficulty` is exactly this step over the zip). -/
def fbdStep (w : Nat) (f : Nat → Nat)
    (st : Option Nat × Option Nat × Option Nat) (c : Nat) :
    Option Nat × Option Nat × Option Nat :=
  if w = c then (some (f c), st.2.1, st.2.2)
  else if st.2.1.all (fun tl => f c ≤ tl) then (st.1, some (f c), some c)
  else st

/-- The largest difficulty among a list of assertions (`0` for an empty
list; all difficulties the program stores are non-negative). -/
def maxDifficulty (l : List AssertionAndDifficulty) : Difficulty :=
  l.foldr (fun ad acc => max ad.difficulty acc) 0

/-- Non-negativity of an audit difficulty function, satisfied by the four
audit types of `audit_type.rs` (the spec: "non-negative real"). -/
def AuditNonneg (audit : Nat → Nat → Nat → Difficulty) : Prop :=
  ∀ w l t, 0 ≤ audit w l t

/-- The difficulty the program computes for an assertion is a function of
the assertion's content alone: the cached NEB difficulty, or the audit of
the winner and loser tallies restricted to the continuing set.  Every
assertion the search commits satisfies this. -/
def adCanonical (vs : Votes) (audit : Nat → Nat → Nat → Difficulty)
    (ad : AssertionAndDifficulty) : Prop :=
  match ad.assertion with
  | .NEB neb => ad.difficulty = nebCacheDifficulty vs audit neb
  | .NEN nen => nen.loser ∈ nen.continuing ∧ nen.loser ≠ nen.winner ∧
      ad.difficulty = audit (vs.tallyOf nen.continuing nen.winner)
        (vs.tallyOf nen.continuing nen.loser)
        (vs.restrictedTallies nen.continuing).sum

/-- The C2 search invariant on the committed assertions and the running
lower bound: the bound is non-negative, every committed assertion is priced
canonically and within the bound, and the bound is zero or was set by some
full order all of whose suffixes audit at least that hard (and which does
not end with the winner). -/
def BoundOK (vs : Votes) (audit : Nat → Nat → Nat → Difficulty)
    (winner : Nat) (A : List AssertionAndDifficulty) (bound : Difficulty) :
    Prop :=
  0 ≤ bound ∧
  (∀ ad ∈ A, ad.difficulty ≤ bound ∧ adCanonical vs audit ad) ∧
  (bound = 0 ∨ ∃ τ, GoodOrder vs.numCandidates τ ∧
    τ.getLast? ≠ some winner ∧
    ∀ σ, σ ≠ [] → σ <:+ τ → bound ≤ (findBestAudit σ vs audit).difficulty)

mutual

/-- Node count of a pruning tree: the structural measure for arguments about
the mutually recursive tree walks. -/
def treeSize : TreeNodeShowingWhatAssertionsPrunedIt → Nat
  | .mk _ _ children _ => 1 + treeListSize children

/-- Node count of a list of pruning trees. -/
def treeListSize : List TreeNodeShowingWhatAssertionsPrunedIt → Nat
  | [] => 0
  | n :: rest => treeSize n + treeListSize rest

end

/-! ## Theorems and supporting lemmas -/

/-- The binary-search loop of `is_continuing` finds exactly the keys present
in the searched interval of a strictly sorted list. -/
theorem binarySearchGo_correct (l : List Nat) (key : Nat)
    (hs : l.Sorted (· < ·)) :
    ∀ fuel left right, right ≤ l.length → right - left ≤ fuel →
      (binarySearchGo l key fuel left right = true ↔
        ∃ i, left ≤ i ∧ i < right ∧ l.get? i = some key) := by
  have hpw := List.pairwise_iff_get.mp hs
  intro fuel
  induction fuel with
  | zero =>
    intro left right _ hf
    rw [binarySearchGo]
    constructor
    · intro h; cases h
    · rintro ⟨i, h1, h2, _⟩; omega
  | succ fuel ih =>
    intro left right hr hf
    simp only [binarySearchGo]
    by_cases hlr : left < right
    · rw [if_pos hlr]
      have hmlt : left + (right - left) / 2 < right := by omega
      have hmge : left ≤ left + (right - left) / 2 := by omega
      have hmlen : left + (right - left) / 2 < l.length := by omega
      have hget : l.get? (left + (right - left) / 2)
          = some (l.get ⟨left + (right - left) / 2, hmlen⟩) := List.get?_eq_get hmlen
      have hv : (l.get? (left + (right - left) / 2)).getD 0
          = l.get ⟨left + (right - left) / 2, hmlen⟩ := by rw [hget]; rfl
      rw [hv]
      by_cases h1 : l.get ⟨left + (right - left) / 2, hmlen⟩ < key
      · rw [if_pos h1,
          ih (left + (right - left) / 2 + 1) right hr (by omega)]
        constructor
        · rintro ⟨i, hi1, hi2, hi3⟩; exact ⟨i, by omega, hi2, hi3⟩
        · rintro ⟨i, hi1, hi2, hi3⟩
          refine ⟨i, ?_, hi2, hi3⟩
          by_contra hcon
          have hile : i ≤ left + (right - left) / 2 := by omega
          have higet : l.get ⟨i, by omega⟩ = key := by
            have := List.get?_eq_get (show i < l.length by omega)
            rw [this] at hi3; exact Option.some.inj hi3
          rcases Nat.lt_or_ge i (left + (right - left) / 2) with hlt | hge
          · have := hpw ⟨i, by omega⟩ ⟨left + (right - left) / 2, hmlen⟩ hlt
            rw [higet] at this; omega
          · have : i = left + (right - left) / 2 := by omega
            subst this; rw [higet] at h1; omega
      · rw [if_neg h1]
        by_cases h2 : key < l.get ⟨left + (right - left) / 2, hmlen⟩
        · rw [if_pos h2,
            ih left (left + (right - left) / 2) (by omega) (by omega)]
          constructor
          · rintro ⟨i, hi1, hi2, hi3⟩; exact ⟨i, hi1, by omega, hi3⟩
          · rintro ⟨i, hi1, hi2, hi3⟩
            refine ⟨i, hi1, ?_, hi3⟩
            by_contra hcon
            have higet : l.get ⟨i, by omega⟩ = key := by
              have := List.get?_eq_get (show i < l.length by omega)
              rw [this] at hi3; exact Option.some.inj hi3
            rcases Nat.lt_or_ge (left + (right - left) / 2) i with hlt | hge
            · have := hpw ⟨left + (right - left) / 2, hmlen⟩ ⟨i, by omega⟩ hlt
              rw [higet] at this; omega
            · have : i = left + (right - left) / 2 := by omega
              subst this; rw [higet] at h2; omega
        · rw [if_neg h2]
          have heq : l.get ⟨left + (right - left) / 2, hmlen⟩ = key := by omega
          simp only [true_iff]
          exact ⟨left + (right - left) / 2, hmge, hmlt, by rw [hget, heq]⟩
    · rw [if_neg hlr]
      constructor
      · intro h; cases h
      · rintro ⟨i, h1, h2, _⟩; omega

/-- On a strictly sorted list, the Rust binary search agrees with
membership. -/
theorem binarySearchContains_iff_mem (l : List Nat) (key : Nat)
    (hs : l.Sorted (· < ·)) :
    binarySearchContains l key = true ↔ key ∈ l := by
  rw [binarySearchContains,
    binarySearchGo_correct l key hs (l.length + 1) 0 l.length le_rfl (by omega)]
  constructor
  · rintro ⟨i, _, _, h3⟩; exact List.get?_mem h3
  · intro hm
    obtain ⟨i, hget⟩ := List.mem_iff_get.mp hm
    exact ⟨i, Nat.zero_le _, i.isLt, by rw [List.get?_eq_get i.isLt, hget]⟩

/-- C6: for an NEN assertion whose continuing list satisfies the data-model
invariant (strictly sorted ascending) and any non-empty elimination-order
suffix π, `ok_elimination_order_suffix` returns exactly the case analysis
of the claim: with the considered segment being the last `|C|` elements of
π (or all of π when `|π| ≤ |C|`), a segment member outside `C` gives `Ok`;
a full-length segment gives `Contradiction` exactly when it starts with the
winner, else `Ok`; a shorter segment gives `Ok` if the winner appears in it
and `NeedsMoreDetail` otherwise. -/
theorem claim_C6_nen_effect_on_suffix (a : NotEliminatedNext) (pi : List Nat)
    (_hpi : pi ≠ []) (hs : a.continuing.Sorted (· < ·)) :
    a.okEliminationOrderSuffix pi = a.specNENEffect pi := by
  have hall : ∀ seg : List Nat,
      (seg.all (fun c => a.isContinuing c)) = true ↔ ∀ c ∈ seg, c ∈ a.continuing := by
    intro seg
    rw [List.all_eq_true]
    constructor
    · intro h c hc
      exact (binarySearchContains_iff_mem a.continuing c hs).mp (h c hc)
    · intro h c hc
      exact (binarySearchContains_iff_mem a.continuing c hs).mpr (h c hc)
  by_cases hseg : (if pi.length > a.continuing.length then
      pi.drop (pi.length - a.continuing.length) else pi).all
        (fun c => a.isContinuing c) = true
  · have hno : ¬ ∃ c ∈ (if pi.length > a.continuing.length then
        pi.drop (pi.length - a.continuing.length) else pi), c ∉ a.continuing := by
      push_neg
      exact fun c hc => (hall _).mp hseg c hc
    simp only [NotEliminatedNext.okEliminationOrderSuffix, NotEliminatedNext.specNENEffect]
    rw [if_pos hseg, if_neg hno]
  · have hbad : ∃ c ∈ (if pi.length > a.continuing.length then
        pi.drop (pi.length - a.continuing.length) else pi), c ∉ a.continuing := by
      by_contra hcon
      push_neg at hcon
      exact hseg ((hall _).mpr hcon)
    simp only [NotEliminatedNext.okEliminationOrderSuffix, NotEliminatedNext.specNENEffect]
    rw [if_neg hseg, if_pos hbad]

/-- Witness for C6 at a concrete assertion and suffix: NEN(winner 0, loser 1,
continuing {0,1,2}) on the suffix `[2,0,1]`. -/
theorem claim_C6_witness :
    ([2, 0, 1] : List Nat) ≠ [] ∧ ([0, 1, 2] : List Nat).Sorted (· < ·) ∧
    (NotEliminatedNext.mk 0 1 [0, 1, 2]).okEliminationOrderSuffix [2, 0, 1]
      = (NotEliminatedNext.mk 0 1 [0, 1, 2]).specNENEffect [2, 0, 1] :=
  ⟨by decide, by decide,
    claim_C6_nen_effect_on_suffix (NotEliminatedNext.mk 0 1 [0, 1, 2]) [2, 0, 1]
      (by decide) (by decide)⟩

/-- C8: each of the four audit-difficulty implementations returns `⊤` (the
model of `f64::INFINITY`) whenever the winner tally is less than or equal
to the loser tally, whatever the total-ballots data (both the
`total_auditable_ballots` field and the ignored active-paper-count
argument). -/
theorem claim_C8_audit_difficulty_infinite_when_tied (confidence gamma : Real)
    (total w l t : Nat) (h : w ≤ l) :
    (BallotPollingBRAVO.mk confidence total).averageSampleNumberUsingTotalAuditableBallots
        w l t = ⊤ ∧
    (BallotComparisonMACRO.mk confidence gamma total).averageSampleNumber w l = ⊤ ∧
    (BallotComparisonOneOnDilutedMargin.mk total).difficulty w l t = ⊤ ∧
    (BallotPollingOneOnDilutedMarginSquared.mk total).difficulty w l t = ⊤ := by
  refine ⟨?_, ?_, ?_, ?_⟩
  · rw [BallotPollingBRAVO.averageSampleNumberUsingTotalAuditableBallots, if_pos h]
  · rw [BallotComparisonMACRO.averageSampleNumber, if_pos h]
  · rw [BallotComparisonOneOnDilutedMargin.difficulty, if_pos h]
  · rw [BallotPollingOneOnDilutedMarginSquared.difficulty, if_pos h]

/-- Witness for C8 at winner tally 2, loser tally 5. -/
theorem claim_C8_witness :
    (2 : Nat) ≤ 5 ∧
    ((BallotPollingBRAVO.mk (1 / 100) 20).averageSampleNumberUsingTotalAuditableBallots
        2 5 10 = ⊤ ∧
     (BallotComparisonMACRO.mk (1 / 100) 2 20).averageSampleNumber 2 5 = ⊤ ∧
     (BallotComparisonOneOnDilutedMargin.mk 20).difficulty 2 5 10 = ⊤ ∧
     (BallotPollingOneOnDilutedMarginSquared.mk 20).difficulty 2 5 10 = ⊤) :=
  ⟨by norm_num,
    claim_C8_audit_difficulty_infinite_when_tied (1 / 100) 2 20 2 5 10 (by norm_num)⟩

/-- Counterexample to C5 as stated: the vote record `{n 1, prefs [0, 5]}`
mentions candidate 5, which does not exist among 3 candidates, in a later
preference; yet `Votes::new` accepts the record (only the first preference
is checked). -/
theorem claim_C5_counterexample :
    (5 : Nat) ∈ (Vote.mk 1 [0, 5]).prefs ∧ ¬ (5 : Nat) < 3 ∧
    Votes.new [Vote.mk 1 [0, 5]] 3 = .ok (Votes.mk [Vote.mk 1 [0, 5]] 3) := by
  refine ⟨by decide, by decide, by decide⟩

/-- C5 as amended: `Votes::new` rejects exactly the vote lists in which some
record's *first* preference names a candidate `≥ num_candidates`, with the
structural-input error `InvalidCandidateNumber`; all other vote lists are
accepted unchanged.  (Later preferences are not validated.) -/
theorem claim_C5_first_preference_validation (votes : List Vote) (n : Nat) :
    ((∃ v ∈ votes, ∃ c, v.prefs.head? = some c ∧ n ≤ c) →
      Votes.new votes n = .error .InvalidCandidateNumber) ∧
    ((∀ v ∈ votes, ∀ c, v.prefs.head? = some c → c < n) →
      Votes.new votes n = .ok (Votes.mk votes n)) := by
  constructor
  · rintro ⟨v, hv, c, hc, hge⟩
    rw [Votes.new, if_neg]
    intro hall
    rw [List.all_eq_true] at hall
    have := hall v hv
    rw [hc] at this
    simp only [decide_eq_true_eq] at this
    omega
  · intro hok
    rw [Votes.new, if_pos]
    rw [List.all_eq_true]
    intro v hv
    cases hhead : v.prefs.head? with
    | none => rfl
    | some c => simp only [decide_eq_true_eq]; exact hok v hv c hhead

/-- Witness for the amended C5: a list whose only record has first
preference 5 among 3 candidates is rejected, and one with first
preference 0 is accepted. -/
theorem claim_C5_witness :
    Votes.new [Vote.mk 1 [5, 0]] 3 = .error .InvalidCandidateNumber ∧
    Votes.new [Vote.mk 1 [0, 5]] 3 = .ok (Votes.mk [Vote.mk 1 [0, 5]] 3) :=
  ⟨(claim_C5_first_preference_validation [Vote.mk 1 [5, 0]] 3).1
      ⟨Vote.mk 1 [5, 0], by decide, 5, by decide, by decide⟩,
   (claim_C5_first_preference_validation [Vote.mk 1 [0, 5]] 3).2
      (by decide)⟩

/-- C7: under `MinimizeAssertions` the pruning-tree construction runs with
the `StopOnNEB` policy, which (i) continues past a pruning assertion found
at a node exactly when no pruning assertion there is a NEB, (ii) keeps
doing so at every depth, and (iii) makes the construction attach no
children to any node one of whose pruning assertions is a NEB. -/
theorem claim_C7_minimize_assertions_stops_on_neb :
    trimPolicy .MinimizeAssertions =
      some HowFarToContinueSearchTreeWhenPruningAssertionFound.StopOnNEB ∧
    (∀ prunedByNEB,
      HowFarToContinueSearchTreeWhenPruningAssertionFound.StopOnNEB.shouldContinueIfPruningAssertionFound
        prunedByNEB = !prunedByNEB) ∧
    HowFarToContinueSearchTreeWhenPruningAssertionFound.StopOnNEB.nextLevelIfPruningAssertionFound
      = HowFarToContinueSearchTreeWhenPruningAssertionFound.StopOnNEB ∧
    (∀ (allAssertions : List Assertion) (numCandidates fuel : Nat)
       (parent : List Nat) (cand : Nat) (relevant : List Nat)
       (tm tm' : TimeOut) (node : TreeNodeShowingWhatAssertionsPrunedIt),
      treeNew allAssertions numCandidates (fuel + 1) parent cand relevant
          HowFarToContinueSearchTreeWhenPruningAssertionFound.StopOnNEB tm
        = some (.ok (node, tm')) →
      (∃ i ∈ node.pruningAssertions,
        (allAssertions.get? i).map Assertion.isNEB = some true) →
      node.children = []) := by
  refine ⟨rfl, fun b => by cases b <;> rfl, rfl, ?_⟩
  intro allAssertions numCandidates fuel parent cand relevant tm tm' node h hneb
  simp only [treeNew] at h
  split at h
  · exact absurd h (by simp)
  · split at h
    · -- the construction descended: impossible when a NEB prunes the node
      rename_i hcond
      exfalso
      split at h
      · exact absurd h (by simp)
      · exact absurd h (by simp)
      · rename_i children validFlag tmo _
        have hnode := Except.ok.inj (Option.some.inj h)
        cases hnode
        obtain ⟨i, hi0, hineb⟩ := hneb
        have hi : i ∈ relevant.filter (fun i => decide
            (assertionEffect allAssertions i (cand :: parent) = some .Contradiction)) := hi0
        have hany : (relevant.filter (fun i => decide
            (assertionEffect allAssertions i (cand :: parent) = some .Contradiction))).any
              (fun i => decide ((allAssertions.get? i).map Assertion.isNEB = some true))
            = true := by
          rw [List.any_eq_true]
          exact ⟨i, hi, decide_eq_true hineb⟩
        have hne : (relevant.filter (fun i => decide
            (assertionEffect allAssertions i (cand :: parent)
              = some .Contradiction))).isEmpty = false := by
          rcases hp : List.isEmpty (relevant.filter (fun i => decide
              (assertionEffect allAssertions i (cand :: parent)
                = some .Contradiction))) with _ | _
          · rfl
          · rw [List.isEmpty_iff] at hp
            rw [hp] at hi
            cases hi
        rw [hany, hne] at hcond
        exact absurd hcond (by
          rw [HowFarToContinueSearchTreeWhenPruningAssertionFound.shouldContinueIfPruningAssertionFound]
          simp)
    · -- the construction attached no children
      have hnode := Except.ok.inj (Option.some.inj h)
      cases hnode
      rfl

/-- Witness for C7 part (iii): a node pruned by the NEB `1 beats 0` while
the NEN `1 beats 0 among {0,1}` still needs more detail gets no children
under `StopOnNEB`. -/
theorem claim_C7_witness :
    treeNew [.NEB ⟨1, 0⟩, .NEN ⟨1, 0, [0, 1]⟩] 2 3 [] 0 [0, 1]
        HowFarToContinueSearchTreeWhenPruningAssertionFound.StopOnNEB TimeOut.never
      = some (.ok (⟨0, [0], [], false⟩, ⟨1, none⟩)) ∧
    (TreeNodeShowingWhatAssertionsPrunedIt.mk 0 [0] [] false).children = [] :=
  ⟨rfl,
    claim_C7_minimize_assertions_stops_on_neb.2.2.2
      [.NEB ⟨1, 0⟩, .NEN ⟨1, 0, [0, 1]⟩] 2 2 [] 0 [0, 1] TimeOut.never ⟨1, none⟩
      ⟨0, [0], [], false⟩ rfl ⟨0, by decide, by decide⟩⟩

/-- The search is a pure function of its inputs; the only place the
unspecified hash-set iteration order enters is the listing of the final
winner set, and a successful run is invariant under it. -/
theorem raire_hashOrder_invariant (ho1 ho2 : HashOrder) (vs : Votes)
    (w : Option Nat) (audit : Nat → Nat → Nat → Difficulty)
    (trim : TrimAlgorithm) (t : TimeOut) (r1 r2 : RaireResult)
    (h1 : raire ho1 vs w audit trim t = some (.ok r1))
    (h2 : raire ho2 vs w audit trim t = some (.ok r2)) : r1 = r2 := by
  rw [raire, Votes.runElection] at h1 h2
  cases hfa : findAllPossibleWinners vs (vs.numCandidates + 1)
      (List.range vs.numCandidates) ⟨[], []⟩ t with
  | none => rw [hfa] at h1; exact absurd h1 (by simp)
  | some res =>
    rw [hfa] at h1 h2
    cases res with
    | error e => exact absurd h1 (by simp)
    | ok val =>
      obtain ⟨winners, work, t'⟩ := val
      simp only [] at h1 h2
      have hperm : (ho1.listing winners).Perm (ho2.listing winners) :=
        (ho1.listing_perm winners).trans (ho2.listing_perm winners).symm
      have hcond : wrongWinnerCheck w (ho1.listing winners)
          = wrongWinnerCheck w (ho2.listing winners) := by
        cases w with
        | none => rfl
        | some x =>
          rw [wrongWinnerCheck, wrongWinnerCheck]
          congr 1
          have hmem := hperm.mem_iff (a := x)
          simp only [List.contains]
          rcases hx : List.elem x (ho1.listing winners) with _ | _ <;>
            rcases hy : List.elem x (ho2.listing winners) with _ | _
          · rfl
          · rw [List.elem_iff] at hy
            rw [← hmem, ← List.elem_iff, hx] at hy
            cases hy
          · rw [List.elem_iff] at hx
            rw [hmem, ← List.elem_iff, hy] at hx
            cases hx
          · rfl
      rw [← hcond] at h2
      by_cases hw : wrongWinnerCheck w (ho1.listing winners) = true
      · rw [if_pos hw] at h1; exact absurd h1 (by simp)
      · rw [if_neg hw] at h1
        rw [if_neg hw] at h2
        have hlen : (ho1.listing winners).length = (ho2.listing winners).length :=
          hperm.length_eq
        by_cases hl : (ho1.listing winners).length ≠ 1
        · rw [if_pos hl] at h1; exact absurd h1 (by simp)
        · rw [if_neg hl] at h1
          rw [if_neg (by rw [← hlen]; exact hl)] at h2
          push_neg at hl
          obtain ⟨a, ha⟩ := List.length_eq_one.mp hl
          have hb : ho2.listing winners = [a] := by
            rw [ha] at hperm
            exact (List.perm_singleton.mp hperm.symm)
          rw [ha] at h1
          rw [hb] at h2
          rw [h1] at h2
          exact Except.ok.inj (Option.some.inj h2)

/-- C9: solving the same problem twice (with time budgets that do not fire,
as modelled) yields identical successful results - the same assertion list,
difficulty and winner - even though the hash-set iteration order of the two
runs may differ. -/
theorem claim_C9_solve_deterministic (ho1 ho2 : HashOrder) (p : RaireProblem)
    (r1 r2 : RaireResult)
    (h1 : p.solve ho1 = some (.ok r1)) (h2 : p.solve ho2 = some (.ok r2)) :
    r1 = r2 := by
  rw [RaireProblem.solve] at h1 h2
  by_cases ht : (match p.timeLimitSeconds with
      | some v => decide (v ≤ 0)
      | none => false) = true
  · rw [if_pos ht] at h1; exact absurd h1 (by simp)
  · rw [if_neg ht] at h1 h2
    by_cases hn : p.numCandidates = 0
    · rw [if_pos hn] at h1; exact absurd h1 (by simp)
    · rw [if_neg hn] at h1 h2
      cases hv : Votes.new p.votes p.numCandidates with
      | error e => rw [hv] at h1; exact absurd h1 (by simp)
      | ok votes =>
        rw [hv] at h1 h2
        simp only [] at h1 h2
        exact raire_hashOrder_invariant ho1 ho2 votes p.winner p.audit
          (p.trimAlgorithm.getD .MinimizeTree) TimeOut.never r1 r2 h1 h2

/-- Witness for C9: a two-candidate election solved under two different
hash-set iteration orders gives the same result. -/
theorem claim_C9_witness :
    RaireProblem.solve idHashOrder
        { numCandidates := 2, votes := [⟨2, [0, 1]⟩, ⟨1, [1]⟩], winner := none,
          audit := fun w l t => (BallotComparisonOneOnDilutedMargin.mk 3).difficulty w l t,
          trimAlgorithm := some .MinimizeTree,
          difficultyEstimate := none, timeLimitSeconds := none }
      = some (.ok ⟨[⟨.NEB ⟨0, 1⟩, ((3 : Rat) : Difficulty)⟩], ((3 : Rat) : Difficulty),
          0, 2, false⟩) ∧
    RaireProblem.solve reverseHashOrder
        { numCandidates := 2, votes := [⟨2, [0, 1]⟩, ⟨1, [1]⟩], winner := none,
          audit := fun w l t => (BallotComparisonOneOnDilutedMargin.mk 3).difficulty w l t,
          trimAlgorithm := some .MinimizeTree,
          difficultyEstimate := none, timeLimitSeconds := none }
      = some (.ok ⟨[⟨.NEB ⟨0, 1⟩, ((3 : Rat) : Difficulty)⟩], ((3 : Rat) : Difficulty),
          0, 2, false⟩) ∧
    (⟨[⟨.NEB ⟨0, 1⟩, ((3 : Rat) : Difficulty)⟩], ((3 : Rat) : Difficulty), 0, 2,
        false⟩ : RaireResult)
      = ⟨[⟨.NEB ⟨0, 1⟩, ((3 : Rat) : Difficulty)⟩], ((3 : Rat) : Difficulty), 0, 2,
        false⟩ :=
  ⟨by decide, by decide,
    claim_C9_solve_deterministic idHashOrder reverseHashOrder
      { numCandidates := 2, votes := [⟨2, [0, 1]⟩, ⟨1, [1]⟩], winner := none,
        audit := fun w l t => (BallotComparisonOneOnDilutedMargin.mk 3).difficulty w l t,
        trimAlgorithm := some .MinimizeTree,
        difficultyEstimate := none, timeLimitSeconds := none }
      _ _ (by decide) (by decide)⟩

/-- The only error the winner-finder loop can produce, given that its
recursion argument produces only that error, is the winner-checking
timeout. -/
theorem findAllPossibleWinnersLoop_error (vs : Votes)
    (recurse : List Nat → IRVWork → TimeOut →
      Option (Except RaireError (List Nat × IRVWork × TimeOut)))
    (hrec : ∀ c w t e, recurse c w t = some (.error e) → e = .TimeoutCheckingWinner)
    (continuing tallies : List Nat) (minTally : Nat) :
    ∀ idxs winners oneOption bulk work timeout e,
      findAllPossibleWinnersLoop vs recurse continuing tallies minTally idxs
          winners oneOption bulk work timeout = some (.error e) →
      e = .TimeoutCheckingWinner := by
  intro idxs
  induction idxs with
  | nil =>
    intro winners oneOption bulk work timeout e h
    simp only [findAllPossibleWinnersLoop] at h
    simp at h
  | cons i rest ih =>
    intro winners oneOption bulk work timeout e h
    simp only [findAllPossibleWinnersLoop] at h
    split at h
    · split at h
      · simp at h
      · split at h
        · simp at h
        · rename_i heq
          have he := Except.error.inj (Option.some.inj h)
          rw [← he]
          exact hrec _ _ _ _ heq
        · exact ih _ _ _ _ _ _ h
    · exact ih _ _ _ _ _ _ h

/-- The only error `find_all_possible_winners` can produce is the
winner-checking timeout. -/
theorem findAllPossibleWinners_error (vs : Votes) :
    ∀ fuel continuing work timeout e,
      findAllPossibleWinners vs fuel continuing work timeout = some (.error e) →
      e = .TimeoutCheckingWinner := by
  intro fuel
  induction fuel with
  | zero =>
    intro continuing work timeout e h
    simp only [findAllPossibleWinners] at h
    simp at h
  | succ fuel ih =>
    intro continuing work timeout e h
    simp only [findAllPossibleWinners] at h
    split at h
    · exact (Except.error.inj (Option.some.inj h)).symm
    · split at h
      · simp at h
      · split at h
        · simp at h
        · split at h
          · simp at h
          · split at h
            · simp at h
            · rename_i heq
              have he := Except.error.inj (Option.some.inj h)
              rw [← he]
              exact findAllPossibleWinnersLoop_error vs _
                (fun c w t e hh => ih c w t e hh) _ _ _ _ _ _ _ _ _ _ heq
            · simp at h

/-- The only error `Votes::new` can produce is `InvalidCandidateNumber`. -/
theorem votesNew_error (votes : List Vote) (n : Nat) (e : RaireError)
    (h : Votes.new votes n = .error e) : e = .InvalidCandidateNumber := by
  rw [Votes.new] at h
  split at h
  · simp at h
  · exact (Except.error.inj h).symm

/-- The only error `run_election` can produce is the winner-checking
timeout. -/
theorem runElection_error (vs : Votes) (ho : HashOrder) (t : TimeOut)
    (e : RaireError) (h : vs.runElection ho t = .error e) :
    e = .TimeoutCheckingWinner := by
  rw [Votes.runElection] at h
  split at h
  · exact (Except.error.inj h).symm
  · rename_i heq
    rw [← Except.error.inj h]
    exact findAllPossibleWinners_error _ _ _ _ _ _ heq
  · simp at h

/-- The only error `contains_all_candidates` can produce is
`CouldNotRuleOut`. -/
theorem containsAllCandidates_error (s : SequenceAndEffort)
    (assertions : List AssertionAndDifficulty) (frontier : List SequenceAndEffort)
    (bound : Difficulty) (e : RaireError)
    (h : s.containsAllCandidates assertions frontier bound = .error e) :
    ∃ pi, e = .CouldNotRuleOut pi := by
  rw [SequenceAndEffort.containsAllCandidates] at h
  split at h
  · exact ⟨s.pi, (Except.error.inj h).symm⟩
  · simp at h

/-- The only error the expansion loop can produce is `CouldNotRuleOut`. -/
theorem expandLoop_error (vs : Votes) (audit : Nat → Nat → Nat → Difficulty)
    (e : SequenceAndEffort) :
    ∀ cands assertions frontier bound err,
      expandLoop vs audit e cands assertions frontier bound = .error err →
      ∃ pi, err = .CouldNotRuleOut pi := by
  intro cands
  induction cands with
  | nil =>
    intro assertions frontier bound err h
    simp only [expandLoop] at h
    simp at h
  | cons c rest ih =>
    intro assertions frontier bound err h
    simp only [expandLoop] at h
    split at h
    · exact ih _ _ _ _ h
    · split at h
      · split at h
        · rename_i heq
          exact Except.error.inj h ▸ containsAllCandidates_error _ _ _ _ _ heq
        · exact ih _ _ _ _ h
      · exact ih _ _ _ _ h

/-- The only error the RAIRE search loop can produce is
`CouldNotRuleOut`. -/
theorem raireLoop_error (vs : Votes) (audit : Nat → Nat → Nat → Difficulty)
    (irvOrder : List Nat) :
    ∀ fuel assertions bound frontier e,
      raireLoop vs audit irvOrder fuel assertions bound frontier
        = some (.error e) →
      ∃ pi, e = .CouldNotRuleOut pi := by
  intro fuel
  induction fuel with
  | zero =>
    intro assertions bound frontier e h
    simp only [raireLoop] at h
    simp at h
  | succ fuel ih =>
    intro assertions bound frontier e h
    simp only [raireLoop] at h
    split at h
    · simp at h
    · split at h
      · exact ih _ _ _ _ h
      · split at h
        · rename_i heq
          have he := Except.error.inj (Option.some.inj h)
          rw [← he]
          -- the dive phase errs only through contains_all_candidates
          split at heq
          · split at heq
            · split at heq
              · rename_i heq2
                exact Except.error.inj heq ▸ containsAllCandidates_error _ _ _ _ _ heq2
              · simp at heq
            · simp at heq
          · simp at heq
        · split at h
          · rename_i heq
            have he := Except.error.inj (Option.some.inj h)
            rw [← he]
            exact expandLoop_error _ _ _ _ _ _ _ _ heq
          · exact ih _ _ _ _ h

/-- `trimAndFinalize` never lets the trimming timeout escape as an error. -/
theorem trimAndFinalize_not_timeout (assertions : List AssertionAndDifficulty)
    (winner numCandidates : Nat) (trim : TrimAlgorithm) (timeout : TimeOut) :
    trimAndFinalize assertions winner numCandidates trim timeout
      ≠ some (.error .TimeoutTrimmingAssertions) := by
  rw [trimAndFinalize]
  split
  · simp
  · simp
  · simp
  · rename_i hne _
    intro hcon
    have := Except.error.inj (Option.some.inj hcon)
    rw [this] at hne
    simp at hne

/-- C3: a trimming timeout never becomes the `Err` of the solution - the
orchestrator (the spec-modelled `trimAndFinalize`) recovers it locally,
returning the sorted-but-untrimmed assertions with the
`warning_trim_timed_out` flag raised. -/
theorem claim_C3_trim_timeout_recovered :
    (∀ (ho : HashOrder) (p : RaireProblem),
      p.solve ho ≠ some (.error .TimeoutTrimmingAssertions)) ∧
    (∀ (assertions : List AssertionAndDifficulty) (winner numCandidates : Nat)
       (trim : TrimAlgorithm) (timeout : TimeOut),
      orderAssertionsAndRemoveUnnecessary assertions winner numCandidates trim
          timeout = some (.error .TimeoutTrimmingAssertions) →
      trimAndFinalize assertions winner numCandidates trim timeout
        = some (.ok (sortAssertions assertions, true))) := by
  constructor
  · intro ho p
    rw [RaireProblem.solve]
    split
    · simp
    · split
      · simp
      · split
        · rename_i e heq
          intro hcon
          have h1 := votesNew_error _ _ _ heq
          have h2 := Except.error.inj (Option.some.inj hcon)
          rw [h1] at h2
          simp at h2
        · simp only [raire]
          split
          · rename_i e heq
            intro hcon
            have h1 := runElection_error _ _ _ _ heq
            have h2 := Except.error.inj (Option.some.inj hcon)
            rw [h1] at h2
            simp at h2
          · split
            · simp
            · split
              · simp
              · split
                · simp
                · rename_i e heq
                  intro hcon
                  have h2 := Except.error.inj (Option.some.inj hcon)
                  obtain ⟨pi, hpi⟩ := raireLoop_error _ _ _ _ _ _ _ _ heq
                  rw [h2] at hpi
                  simp at hpi
                · split
                  · simp
                  · rename_i heq
                    intro hcon
                    have h2 := Except.error.inj (Option.some.inj hcon)
                    rw [h2] at heq
                    exact trimAndFinalize_not_timeout _ _ _ _ _ heq
                  · simp
  · intro assertions winner numCandidates trim timeout h
    rw [trimAndFinalize, h]

/-- Witness for C3: a concrete trimming run that times out (work limit 0),
which `trimAndFinalize` recovers into a sorted assertion list with the
warning flag raised. -/
theorem claim_C3_witness :
    orderAssertionsAndRemoveUnnecessary
        [⟨.NEB ⟨2, 1⟩, 2⟩, ⟨.NEN ⟨0, 3, [0, 3]⟩, 3⟩] 2 4 .MinimizeTree
        ⟨0, some 0⟩
      = some (.error .TimeoutTrimmingAssertions) ∧
    trimAndFinalize [⟨.NEB ⟨2, 1⟩, 2⟩, ⟨.NEN ⟨0, 3, [0, 3]⟩, 3⟩] 2 4
        .MinimizeTree ⟨0, some 0⟩
      = some (.ok
          (sortAssertions [⟨.NEB ⟨2, 1⟩, 2⟩, ⟨.NEN ⟨0, 3, [0, 3]⟩, 3⟩],
           true)) :=
  ⟨by decide,
   claim_C3_trim_timeout_recovered.2 _ _ _ _ _ (by decide)⟩

/-- C4: solving the spec's S4 scenario (zero candidates, empty vote list)
returns exactly `Err(InvalidNumberOfCandidates)`. -/
theorem claim_C4_zero_candidates :
    RaireProblem.solve idHashOrder
      { numCandidates := 0, votes := [], winner := none,
        audit := fun w l t =>
          (BallotComparisonOneOnDilutedMargin.mk 0).difficulty w l t,
        trimAlgorithm := some .MinimizeAssertions,
        difficultyEstimate := none, timeLimitSeconds := none }
      = some (.error .InvalidNumberOfCandidates) := by
  rfl

/-- The `mkRat` in `BallotComparisonOneOnDilutedMargin.difficulty` is the
source's `total / (w - l)`. -/
theorem BallotComparisonOneOnDilutedMargin.difficulty_eq_div
    (audit : BallotComparisonOneOnDilutedMargin) (w l t : Nat) (h : l < w) :
    audit.difficulty w l t =
      (((audit.totalAuditableBallots : Rat) / ((w - l : Nat) : Rat) : Rat) : Difficulty) := by
  rw [BallotComparisonOneOnDilutedMargin.difficulty, if_neg (by omega)]
  congr 1
  rw [Rat.mkRat_eq_div]
  push_cast
  ring

/-- The `mkRat` in `BallotPollingOneOnDilutedMarginSquared.difficulty` is the
source's `(total / (w - l)) * (total / (w - l))`. -/
theorem BallotPollingOneOnDilutedMarginSquared.difficultySquaredEqDiv
    (audit : BallotPollingOneOnDilutedMarginSquared) (w l t : Nat) (h : l < w) :
    audit.difficulty w l t =
      (let reciprocalDilutedMargin : Rat :=
        (audit.totalAuditableBallots : Rat) / ((w - l : Nat) : Rat)
      ((reciprocalDilutedMargin * reciprocalDilutedMargin : Rat) : Difficulty)) := by
  rw [BallotPollingOneOnDilutedMarginSquared.difficulty, if_neg (by omega)]
  congr 1
  rw [Rat.mkRat_eq_div]
  push_cast
  ring

/-- `just_take_assertion` with an assertion already in the list does
nothing: neither the assertion list nor the frontier changes. -/
theorem justTakeAssertion_already_there (s : SequenceAndEffort)
    (assertions : List AssertionAndDifficulty)
    (frontier : List SequenceAndEffort)
    (h : ∃ a ∈ assertions, a.assertion = s.bestAssertionForAncestor.assertion) :
    s.justTakeAssertion assertions frontier = (assertions, frontier) := by
  rw [SequenceAndEffort.justTakeAssertion, if_pos]
  simp only [List.any_eq_true, decide_eq_true_eq]
  exact h

/-- `just_take_assertion` preserves the no-duplicate-assertions invariant:
it appends only after checking the assertion is not already present. -/
theorem justTakeAssertion_nodup (s : SequenceAndEffort)
    (assertions : List AssertionAndDifficulty)
    (frontier : List SequenceAndEffort)
    (h : (assertions.map (·.assertion)).Nodup) :
    (((s.justTakeAssertion assertions frontier).1).map (·.assertion)).Nodup := by
  rw [SequenceAndEffort.justTakeAssertion]
  split
  · exact h
  · rename_i hany
    simp only [List.any_eq_true, decide_eq_true_eq, not_exists, not_and] at hany
    show (((assertions ++ [s.bestAssertionForAncestor]).map (·.assertion)).Nodup)
    rw [List.map_append]
    simp only [List.nodup_append, List.map_cons, List.map_nil, List.nodup_cons,
      List.not_mem_nil, not_false_eq_true, List.nodup_nil, and_true, true_and]
    refine ⟨h, ?_⟩
    intro x hx hmem
    simp only [List.mem_singleton] at hmem
    obtain ⟨a, ha, rfl⟩ := List.mem_map.mp hx
    exact hany a ha hmem

/-- `contains_all_candidates` preserves the no-duplicate invariant (its
only mutation of the list is through `just_take_assertion`). -/
theorem containsAllCandidates_nodup (s : SequenceAndEffort)
    (assertions : List AssertionAndDifficulty)
    (frontier : List SequenceAndEffort) (bound : Difficulty)
    (a : List AssertionAndDifficulty) (f : List SequenceAndEffort)
    (b : Difficulty)
    (heq : s.containsAllCandidates assertions frontier bound = .ok (a, f, b))
    (h : (assertions.map (·.assertion)).Nodup) :
    (a.map (·.assertion)).Nodup := by
  rw [SequenceAndEffort.containsAllCandidates] at heq
  split at heq
  · simp at heq
  · have h2 := Except.ok.inj heq
    have h3 : (s.justTakeAssertion assertions frontier).1 = a :=
      congrArg (fun p => p.1) h2
    rw [← h3]
    exact justTakeAssertion_nodup _ _ _ h

/-- The diving phase preserves the no-duplicate invariant. -/
theorem diveLoop_nodup (vs : Votes) (audit : Nat → Nat → Nat → Difficulty)
    (bound : Difficulty) :
    ∀ (l : List Nat) (x0 : SequenceAndEffort) (last : Option SequenceAndEffort)
      (assertions : List AssertionAndDifficulty)
      (frontier : List SequenceAndEffort),
      (assertions.map (·.assertion)).Nodup →
      (((diveLoop vs audit bound l x0 last assertions frontier).2.2.1).map
        (·.assertion)).Nodup := by
  intro l
  induction l with
  | nil => intro x0 last assertions frontier h; exact h
  | cons c rest ih =>
    intro x0 last assertions frontier h
    simp only [diveLoop]
    split
    · exact ih _ _ _ _ h
    · split
      · split
        · exact justTakeAssertion_nodup _ _ _ h
        · exact ih _ _ _ _ h
      · split
        · exact justTakeAssertion_nodup _ _ _ h
        · exact ih _ _ _ _ h

/-- The expansion loop preserves the no-duplicate invariant. -/
theorem expandLoop_nodup (vs : Votes) (audit : Nat → Nat → Nat → Difficulty)
    (e : SequenceAndEffort) :
    ∀ (l : List Nat) (assertions : List AssertionAndDifficulty)
      (frontier : List SequenceAndEffort) (bound : Difficulty)
      (a : List AssertionAndDifficulty) (f : List SequenceAndEffort)
      (b : Difficulty),
      (assertions.map (·.assertion)).Nodup →
      expandLoop vs audit e l assertions frontier bound = .ok (a, f, b) →
      (a.map (·.assertion)).Nodup := by
  intro l
  induction l with
  | nil =>
    intro assertions frontier bound a f b h heq
    rw [expandLoop] at heq
    have h2 := Except.ok.inj heq
    have h3 : assertions = a := congrArg (fun p => p.1) h2
    rw [← h3]
    exact h
  | cons c rest ih =>
    intro assertions frontier bound a f b h heq
    simp only [expandLoop] at heq
    split at heq
    · exact ih _ _ _ _ _ _ h heq
    · split at heq
      · split at heq
        · simp at heq
        · rename_i hcac
          exact ih _ _ _ _ _ _
            (containsAllCandidates_nodup _ _ _ _ _ _ _ hcac h) heq
      · exact ih _ _ _ _ _ _ h heq

/-- The RAIRE search loop preserves the no-duplicate invariant of the
assertion list from any starting state. -/
theorem raireLoop_nodup (vs : Votes) (audit : Nat → Nat → Nat → Difficulty)
    (irvOrder : List Nat) :
    ∀ (fuel : Nat) (assertions : List AssertionAndDifficulty)
      (bound : Difficulty) (frontier : List SequenceAndEffort)
      (out : List AssertionAndDifficulty) (d : Difficulty),
      (assertions.map (·.assertion)).Nodup →
      raireLoop vs audit irvOrder fuel assertions bound frontier
        = some (.ok (out, d)) →
      (out.map (·.assertion)).Nodup := by
  intro fuel
  induction fuel with
  | zero =>
    intro assertions bound frontier out d h heq
    simp only [raireLoop] at heq
    simp at heq
  | succ fuel ih =>
    intro assertions bound frontier out d h heq
    simp only [raireLoop] at heq
    split at heq
    · have h2 := Except.ok.inj (Option.some.inj heq)
      have h3 : assertions = out := congrArg (fun p => p.1) h2
      rw [← h3]
      exact h
    · rename_i seqc rest2 hpop
      split at heq
      · exact ih _ _ _ _ _ (justTakeAssertion_nodup _ _ _ h) heq
      · split at heq
        · simp at heq
        · rename_i e2 assertions2 frontier2 bound2 heqad
          have hA : (assertions2.map (·.assertion)).Nodup := by
            split at heqad
            · split at heqad
              · rename_i x0 last A3 F3 heqdive
                split at heqad
                · simp at heqad
                · rename_i a3 f3 b3 hcac
                  have h4 := Except.ok.inj heqad
                  have h5 : a3 = assertions2 := congrArg (fun p => p.2.1) h4
                  rw [← h5]
                  have hdive := diveLoop_nodup vs audit bound
                    irvOrder.reverse seqc none assertions rest2 h
                  rw [heqdive] at hdive
                  exact containsAllCandidates_nodup _ _ _ _ _ _ _ hcac hdive
              · rename_i x0 A3 F3 heqdive
                have h4 := Except.ok.inj heqad
                have h5 : A3 = assertions2 := congrArg (fun p => p.2.1) h4
                rw [← h5]
                have hdive := diveLoop_nodup vs audit bound
                  irvOrder.reverse seqc none assertions rest2 h
                rw [heqdive] at hdive
                exact hdive
            · have h4 := Except.ok.inj heqad
              have h5 : assertions = assertions2 := congrArg (fun p => p.2.1) h4
              rw [← h5]
              exact h
          split at heq
          · simp at heq
          · rename_i assertions3 frontier3 bound3 hexp
            exact ih _ _ _ _ _
              (expandLoop_nodup _ _ _ _ _ _ _ _ _ _ hA hexp) heq

/-- Sorting the assertions (a permutation) preserves the no-duplicate
invariant. -/
theorem sortAssertions_map_nodup (assertions : List AssertionAndDifficulty)
    (h : (assertions.map (·.assertion)).Nodup) :
    ((sortAssertions assertions).map (·.assertion)).Nodup := by
  rw [sortAssertions]
  exact ((List.perm_insertionSort _ _).map _).nodup_iff.mpr h

/-- The keep-only-the-used-indices selection of the trimming pass yields a
sublist of the input. -/
theorem enum_filter_map_sublist {α : Type} (l : List α) (p : Nat × α → Bool) :
    ((l.enum.filter p).map (fun q => q.2)).Sublist l := by
  have h1 : (l.enum.filter p).Sublist l.enum := List.filter_sublist _
  have h2 := h1.map (fun q : Nat × α => q.2)
  have h3 : l.enum.map (fun q : Nat × α => q.2) = l := List.enum_map_snd l
  rwa [h3] at h2

/-- A successful trimming pass preserves the no-duplicate invariant: its
output is a sublist of the sorted input. -/
theorem orderAssertions_nodup (assertions : List AssertionAndDifficulty)
    (winner numCandidates : Nat) (trim : TrimAlgorithm) (timeout : TimeOut)
    (out : List AssertionAndDifficulty) (t2 : TimeOut)
    (heq : orderAssertionsAndRemoveUnnecessary assertions winner numCandidates
        trim timeout = some (.ok (out, t2)))
    (h : (assertions.map (·.assertion)).Nodup) :
    (out.map (·.assertion)).Nodup := by
  have hsorted := sortAssertions_map_nodup assertions h
  simp only [orderAssertionsAndRemoveUnnecessary] at heq
  split at heq
  · have h2 := Except.ok.inj (Option.some.inj heq)
    have h3 : sortAssertions assertions = out := congrArg (fun p => p.1) h2
    rw [← h3]
    exact hsorted
  · split at heq
    · simp at heq
    · simp at heq
    · split at heq
      · simp at heq
      · have h2 := Except.ok.inj (Option.some.inj heq)
        have h3 :
            ((sortAssertions assertions).enum.filter _).map (fun q => q.2)
              = out := congrArg (fun p => p.1) h2
        rw [← h3]
        exact List.Nodup.sublist
          (List.Sublist.map _ (enum_filter_map_sublist _ _)) hsorted

/-- The finalisation step preserves the no-duplicate invariant in both its
success cases (trimmed sublist, or sorted-untrimmed on a trim timeout). -/
theorem trimAndFinalize_nodup (assertions : List AssertionAndDifficulty)
    (winner numCandidates : Nat) (trim : TrimAlgorithm) (timeout : TimeOut)
    (out : List AssertionAndDifficulty) (w : Bool)
    (heq : trimAndFinalize assertions winner numCandidates trim timeout
        = some (.ok (out, w)))
    (h : (assertions.map (·.assertion)).Nodup) :
    (out.map (·.assertion)).Nodup := by
  simp only [trimAndFinalize] at heq
  split at heq
  · simp at heq
  · rename_i trimmed t2 hord
    have h2 := Except.ok.inj (Option.some.inj heq)
    have h3 : trimmed = out := congrArg (fun p => p.1) h2
    rw [← h3]
    exact orderAssertions_nodup _ _ _ _ _ _ _ hord h
  · have h2 := Except.ok.inj (Option.some.inj heq)
    have h3 : sortAssertions assertions = out := congrArg (fun p => p.1) h2
    rw [← h3]
    exact sortAssertions_map_nodup _ h
  · simp at heq

/-- An `Ok` result of `raire` carries a duplicate-free assertion list: the
search starts from the empty list, every commit goes through
`just_take_assertion`, and trimming only selects or reorders. -/
theorem raire_nodup (ho : HashOrder) (vs : Votes) (winner : Option Nat)
    (audit : Nat → Nat → Nat → Difficulty) (trim : TrimAlgorithm)
    (timeout : TimeOut) (r : RaireResult)
    (heq : raire ho vs winner audit trim timeout = some (.ok r)) :
    (r.assertions.map (·.assertion)).Nodup := by
  simp only [raire] at heq
  split at heq
  · simp at heq
  · split at heq
    · simp at heq
    · split at heq
      · simp at heq
      · split at heq
        · simp at heq
        · simp at heq
        · rename_i asr bound hloop
          split at heq
          · simp at heq
          · simp at heq
          · rename_i out w htf
            have h2 := Except.ok.inj (Option.some.inj heq)
            have hloopn := raireLoop_nodup vs audit _ _ _ _ _ _ _
              (by simp) hloop
            have hout := trimAndFinalize_nodup _ _ _ _ _ _ _ htf hloopn
            rw [← h2]
            exact hout

/-- C10: the no-duplicate invariant of the assertion list.  (i) Every
commit path goes through `just_take_assertion`, which checks membership
first, so committing an assertion already present leaves both the list and
the frontier unchanged; (ii) each such commit preserves distinctness of the
listed assertions — so the list is duplicate-free at every point of the
search, starting as it does from the empty list; (iii) hence the final
returned result's assertion list contains no two entries with equal
assertions. -/
theorem claim_C10_no_duplicate_assertions :
    (∀ (s : SequenceAndEffort) (assertions : List AssertionAndDifficulty)
       (frontier : List SequenceAndEffort),
      (∃ a ∈ assertions,
        a.assertion = s.bestAssertionForAncestor.assertion) →
      s.justTakeAssertion assertions frontier = (assertions, frontier)) ∧
    (∀ (s : SequenceAndEffort) (assertions : List AssertionAndDifficulty)
       (frontier : List SequenceAndEffort),
      (assertions.map (·.assertion)).Nodup →
      (((s.justTakeAssertion assertions frontier).1).map
        (·.assertion)).Nodup) ∧
    (∀ (ho : HashOrder) (p : RaireProblem) (r : RaireResult),
      p.solve ho = some (.ok r) →
      (r.assertions.map (·.assertion)).Nodup) := by
  refine ⟨justTakeAssertion_already_there, justTakeAssertion_nodup, ?_⟩
  intro ho p r heq
  rw [RaireProblem.solve] at heq
  split at heq
  · simp at heq
  · split at heq
    · simp at heq
    · split at heq
      · simp at heq
      · exact raire_nodup _ _ _ _ _ _ _ heq

/-- Witness for C10: a concrete no-op commit of an already-present
assertion, a concrete duplicate-free commit, and a concrete solved problem
with a duplicate-free result. -/
theorem claim_C10_witness :
    SequenceAndEffort.justTakeAssertion ⟨[1, 0], ⟨.NEB ⟨0, 1⟩, 3⟩, 1, none⟩
        [⟨.NEB ⟨0, 1⟩, 3⟩] []
      = ([⟨.NEB ⟨0, 1⟩, 3⟩], []) ∧
    (((SequenceAndEffort.justTakeAssertion
        ⟨[1, 0], ⟨.NEB ⟨1, 0⟩, 2⟩, 1, none⟩
        [⟨.NEB ⟨0, 1⟩, 3⟩] []).1).map (·.assertion)).Nodup ∧
    ∃ r : RaireResult,
      RaireProblem.solve idHashOrder
          { numCandidates := 2, votes := [⟨3, [0, 1]⟩, ⟨1, [1]⟩],
            winner := none,
            audit := fun w l t =>
              (BallotComparisonOneOnDilutedMargin.mk 4).difficulty w l t,
            trimAlgorithm := some .MinimizeAssertions,
            difficultyEstimate := none, timeLimitSeconds := none }
        = some (.ok r) ∧
      (r.assertions.map (·.assertion)).Nodup := by
  refine ⟨claim_C10_no_duplicate_assertions.1 _ _ _ (by decide),
    claim_C10_no_duplicate_assertions.2.1 _ _ _ (by decide),
    ⟨⟨[⟨.NEB ⟨0, 1⟩, ((2 : Rat) : Difficulty)⟩], ((2 : Rat) : Difficulty),
      0, 2, false⟩, ?_, ?_⟩⟩
  · decide
  · exact claim_C10_no_duplicate_assertions.2.2 idHashOrder
      { numCandidates := 2, votes := [⟨3, [0, 1]⟩, ⟨1, [1]⟩],
        winner := none,
        audit := fun w l t =>
          (BallotComparisonOneOnDilutedMargin.mk 4).difficulty w l t,
        trimAlgorithm := some .MinimizeAssertions,
        difficultyEstimate := none, timeLimitSeconds := none }
      _ (by decide)

/-! ### The effect of assertions on extensions of a suffix -/

/-- The rear-to-front scan distributes over append: the second part is
consulted only if the first is inconclusive. -/
theorem checkScan_append (winner loser : Nat) :
    ∀ xs ys : List Nat,
      checkWinnerEliminatedAfterLoser.go winner loser (xs ++ ys)
        = match checkWinnerEliminatedAfterLoser.go winner loser xs with
          | .NeedsMoreDetail => checkWinnerEliminatedAfterLoser.go winner loser ys
          | r => r := by
  intro xs ys
  induction xs with
  | nil => simp [checkWinnerEliminatedAfterLoser.go]
  | cons c rest ih =>
    rw [List.cons_append, checkWinnerEliminatedAfterLoser.go,
      checkWinnerEliminatedAfterLoser.go]
    split
    · rfl
    · split
      · rfl
      · exact ih

/-- If the winner is absent and the loser present, the scan finds the
contradiction. -/
theorem checkScan_contradiction (winner loser : Nat) :
    ∀ xs : List Nat, winner ∉ xs → loser ∈ xs →
      checkWinnerEliminatedAfterLoser.go winner loser xs = .Contradiction := by
  intro xs
  induction xs with
  | nil => intro _ h; simp at h
  | cons c rest ih =>
    intro hw hl
    rw [checkWinnerEliminatedAfterLoser.go]
    rw [if_neg (by intro h; exact hw (h ▸ List.mem_cons_self c rest))]
    by_cases hc : c = loser
    · rw [if_pos hc]
    · rw [if_neg hc]
      exact ih (fun h => hw (List.mem_cons_of_mem c h))
        (by rcases List.mem_cons.mp hl with h | h
            · exact absurd h.symm hc
            · exact h)

/-- The scan is inconclusive exactly when neither candidate appears. -/
theorem checkScan_needsMoreDetail (winner loser : Nat) :
    ∀ xs : List Nat,
      checkWinnerEliminatedAfterLoser.go winner loser xs = .NeedsMoreDetail ↔
        winner ∉ xs ∧ loser ∉ xs := by
  intro xs
  induction xs with
  | nil => simp [checkWinnerEliminatedAfterLoser.go]
  | cons c rest ih =>
    rw [checkWinnerEliminatedAfterLoser.go]
    constructor
    · intro h
      split at h
      · simp at h
      · split at h
        · simp at h
        · rename_i hw hl
          have := ih.mp h
          refine ⟨?_, ?_⟩
          · intro hm
            rcases List.mem_cons.mp hm with hh | hh
            · exact hw hh.symm
            · exact this.1 hh
          · intro hm
            rcases List.mem_cons.mp hm with hh | hh
            · exact hl hh.symm
            · exact this.2 hh
    · intro ⟨hw, hl⟩
      rw [if_neg (by intro h; exact hw (h ▸ List.mem_cons_self c rest)),
        if_neg (by intro h; exact hl (h ▸ List.mem_cons_self c rest))]
      exact ih.mpr ⟨fun h => hw (List.mem_cons_of_mem c h),
        fun h => hl (List.mem_cons_of_mem c h)⟩

/-- A contradiction on a suffix is stable under extending the order at the
front (NEB case). -/
theorem NotEliminatedBefore.contradictionStableNEB (a : NotEliminatedBefore)
    (σ ρ : List Nat)
    (h : a.okEliminationOrderSuffix σ = .Contradiction) :
    a.okEliminationOrderSuffix (ρ ++ σ) = .Contradiction := by
  rw [NotEliminatedBefore.okEliminationOrderSuffix,
    checkWinnerEliminatedAfterLoser] at *
  rw [List.reverse_append, checkScan_append, h]

/-- `NEB(π₀, alt)` with `alt` later in a duplicate-free π contradicts every
elimination order with suffix π. -/
theorem neb_laterInPi_contradicts (c alt : Nat) (rest : List Nat)
    (hnd : (c :: rest).Nodup) (halt : alt ∈ rest) :
    ∀ τ : List Nat, (c :: rest) <:+ τ →
      (NotEliminatedBefore.mk c alt).okEliminationOrderSuffix τ
        = .Contradiction := by
  intro τ hsuf
  obtain ⟨ρ, rfl⟩ := hsuf
  apply NotEliminatedBefore.contradictionStableNEB
  rw [NotEliminatedBefore.okEliminationOrderSuffix,
    checkWinnerEliminatedAfterLoser, List.reverse_cons, checkScan_append]
  have hcnr : c ∉ rest := (List.nodup_cons.mp hnd).1
  rw [checkScan_contradiction c alt rest.reverse
    (by simpa using hcnr) (by simpa using halt)]

/-- `NEB(alt, π₀)` with `alt` outside a suffix π contradicts every
elimination order with suffix π. -/
theorem neb_outsidePi_contradicts (alt : Nat) (pi : List Nat) (c : Nat)
    (halt : alt ∉ pi) (hc : c ∈ pi) :
    ∀ τ : List Nat, pi <:+ τ →
      (NotEliminatedBefore.mk alt c).okEliminationOrderSuffix τ
        = .Contradiction := by
  intro τ hsuf
  obtain ⟨ρ, rfl⟩ := hsuf
  apply NotEliminatedBefore.contradictionStableNEB
  rw [NotEliminatedBefore.okEliminationOrderSuffix,
    checkWinnerEliminatedAfterLoser]
  exact checkScan_contradiction alt c pi.reverse
    (by simpa using halt) (by simpa using hc)

/-- An NEN assertion over a sorted permutation of a suffix π, whose winner
heads π, contradicts every elimination order with suffix π. -/
theorem nen_of_suffix_contradicts (a : NotEliminatedNext) (pi : List Nat)
    (hs : a.continuing.Sorted (· < ·)) (hperm : a.continuing.Perm pi)
    (hw : pi.head? = some a.winner) :
    ∀ τ : List Nat, pi <:+ τ →
      a.okEliminationOrderSuffix τ = .Contradiction := by
  intro τ hsuf
  obtain ⟨ρ, rfl⟩ := hsuf
  have hlen : a.continuing.length = pi.length := hperm.length_eq
  have hsegment : (if (ρ ++ pi).length > a.continuing.length then
      (ρ ++ pi).drop ((ρ ++ pi).length - a.continuing.length)
    else (ρ ++ pi)) = pi := by
    rw [List.length_append, hlen]
    by_cases hρ : ρ.length = 0
    · rw [if_neg (by omega)]
      rw [List.length_eq_zero.mp hρ, List.nil_append]
    · rw [if_pos (by omega)]
      have : ρ.length + pi.length - pi.length = ρ.length := by omega
      rw [this, List.drop_append_of_le_length le_rfl, List.drop_length,
        List.nil_append]
  rw [NotEliminatedNext.okEliminationOrderSuffix]
  simp only [hsegment]
  rw [if_pos, if_pos (by rw [hlen]), if_pos (by rw [hw])]
  rw [List.all_eq_true]
  intro c hcmem
  rw [NotEliminatedNext.isContinuing,
    binarySearchContains_iff_mem _ _ hs]
  exact hperm.mem_iff.mpr hcmem

/-- Dropping to the last `L` elements of an extended list reaches the same
tail as dropping on the original, when the original has at least `L`
elements. -/
theorem drop_append_tail (L : Nat) (σ ρ : List Nat) (hlen : L ≤ σ.length) :
    (ρ ++ σ).drop ((ρ ++ σ).length - L) = σ.drop (σ.length - L) := by
  have h1 : (List.drop ρ.length (ρ ++ σ)).drop (σ.length - L)
      = σ.drop (σ.length - L) := by rw [List.drop_left]
  rw [List.drop_drop] at h1
  rw [show (ρ ++ σ).length - L = ρ.length + (σ.length - L) from by
    rw [List.length_append]; omega]
  exact h1

/-- The considered segment of the NEN effect is unchanged by extending the
order at the front, when the order already covers the continuing set. -/
theorem nen_segment_eq (L : Nat) (σ ρ : List Nat) (hlen : L ≤ σ.length) :
    (if (ρ ++ σ).length > L then (ρ ++ σ).drop ((ρ ++ σ).length - L)
      else (ρ ++ σ))
    = (if σ.length > L then σ.drop (σ.length - L) else σ) := by
  rcases List.eq_nil_or_concat ρ with hρ | ⟨l2, b, hb⟩
  · rw [hρ, List.nil_append]
  · have hρpos : 0 < ρ.length := by rw [hb]; simp
    have hgt : (ρ ++ σ).length > L := by rw [List.length_append]; omega
    rw [if_pos hgt, drop_append_tail L σ ρ hlen]
    by_cases hc : σ.length > L
    · rw [if_pos hc]
    · rw [if_neg hc, show σ.length - L = 0 by omega, List.drop_zero]

/-- A contradiction on a suffix is stable under extending the order at the
front (NEN case). -/
theorem NotEliminatedNext.contradictionStableNEN (a : NotEliminatedNext)
    (σ ρ : List Nat)
    (h : a.okEliminationOrderSuffix σ = .Contradiction) :
    a.okEliminationOrderSuffix (ρ ++ σ) = .Contradiction := by
  simp only [NotEliminatedNext.okEliminationOrderSuffix] at h ⊢
  have hlen : a.continuing.length ≤ σ.length := by
    by_contra hcon
    rw [if_neg (show ¬ σ.length > a.continuing.length by omega)] at h
    split at h
    · split at h
      · rename_i h1 h2
        omega
      · split at h
        · simp at h
        · simp at h
    · simp at h
  rw [nen_segment_eq _ _ _ hlen]
  exact h

/-- A contradiction on a suffix is stable under extending the order at the
front. -/
theorem Assertion.contradictionStable (a : Assertion) (σ τ : List Nat)
    (hsuf : σ <:+ τ)
    (h : a.okEliminationOrderSuffix σ = .Contradiction) :
    a.okEliminationOrderSuffix τ = .Contradiction := by
  obtain ⟨ρ, rfl⟩ := hsuf
  match a with
  | .NEB wo => exact wo.contradictionStableNEB σ ρ h
  | .NEN irv => exact irv.contradictionStableNEN σ ρ h

/-- A structurally sane assertion that still needs more detail on a
duplicate-free suffix leaves at least one candidate outside the suffix. -/
theorem Assertion.needsMoreDetail_fresh (N : Nat) (a : Assertion)
    (ha : a.AOK N) (σ : List Nat) (_hnd : σ.Nodup)
    (h : a.okEliminationOrderSuffix σ = .NeedsMoreDetail) :
    ∃ c, c < N ∧ c ∉ σ := by
  match a with
  | .NEB wo =>
    rw [Assertion.okEliminationOrderSuffix,
      NotEliminatedBefore.okEliminationOrderSuffix,
      checkWinnerEliminatedAfterLoser] at h
    have := (checkScan_needsMoreDetail _ _ _).mp h
    exact ⟨wo.winner, ha, by simpa using this.1⟩
  | .NEN irv =>
    rw [Assertion.okEliminationOrderSuffix] at h
    simp only [NotEliminatedNext.okEliminationOrderSuffix] at h
    have hng : ¬ σ.length > irv.continuing.length := by
      intro hcon
      rw [if_pos hcon] at h
      split at h
      · rw [if_pos (by rw [List.length_drop]; omega)] at h
        split at h
        · simp at h
        · simp at h
      · simp at h
    rw [if_neg hng] at h
    split at h
    · rename_i hall
      split at h
      · split at h
        · simp at h
        · simp at h
      · rename_i hne
        have hsub : ∀ c ∈ σ, c ∈ irv.continuing := by
          intro c hc
          have := (List.all_eq_true.mp hall) c hc
          rw [NotEliminatedNext.isContinuing,
            binarySearchContains_iff_mem _ _ ha.1] at this
          exact this
        by_contra hcon
        push_neg at hcon
        have hsub2 : irv.continuing ⊆ σ := by
          intro c hc
          by_contra hcs
          exact hcs (hcon c (ha.2 c hc))
        have hsp := (ha.1.nodup).subperm hsub2
        have := hsp.length_le
        omega
    · simp at h

/-! ### What `find_best_audit` returns -/

/-- Any NEB selected by the cached search pairs the suffix head with a later
suffix member, or an outside candidate with the suffix head. -/
theorem findBestAssertionUsingCache_shape (c : Nat) (laterInPi : List Nat)
    (vs : Votes) (audit : Nat → Nat → Nat → Difficulty)
    (ad : AssertionAndDifficulty)
    (h : NotEliminatedBefore.findBestAssertionUsingCache c laterInPi vs audit
      = some ad) :
    ∃ contest : NotEliminatedBefore, ad.assertion = .NEB contest ∧
      ((contest.winner = c ∧ contest.loser ∈ laterInPi) ∨
       (contest.winner ∉ laterInPi ∧ contest.winner ≠ c ∧ contest.loser = c)) := by
  simp only [NotEliminatedBefore.findBestAssertionUsingCache] at h
  have hP : ∀ (l : List Nat) (init : Difficulty × Option NotEliminatedBefore),
      (∀ contest, init.2 = some contest →
        ((contest.winner = c ∧ contest.loser ∈ laterInPi) ∨
         (contest.winner ∉ laterInPi ∧ contest.winner ≠ c ∧ contest.loser = c))) →
      ∀ contest,
        (l.foldl (fun (best : Difficulty × Option NotEliminatedBefore) altC =>
          if altC = c then best else
          if nebCacheDifficulty vs audit
              (if altC ∈ laterInPi then ⟨c, altC⟩ else ⟨altC, c⟩) < best.1 then
            (nebCacheDifficulty vs audit
              (if altC ∈ laterInPi then ⟨c, altC⟩ else ⟨altC, c⟩),
             some (if altC ∈ laterInPi then ⟨c, altC⟩ else ⟨altC, c⟩))
          else best) init).2 = some contest →
        ((contest.winner = c ∧ contest.loser ∈ laterInPi) ∨
         (contest.winner ∉ laterInPi ∧ contest.winner ≠ c ∧ contest.loser = c)) := by
    intro l
    induction l with
    | nil => intro init hinit contest hc; exact hinit contest hc
    | cons altC rest ih =>
      intro init hinit contest
      rw [List.foldl_cons]
      apply ih
      intro contest2 hc2
      split at hc2
      · exact hinit contest2 hc2
      · rename_i hne
        split at hc2
        · split at hc2
          · rename_i hmem hlt
            have := Option.some.inj hc2
            rw [← this]
            exact Or.inl ⟨rfl, hmem⟩
          · exact hinit contest2 hc2
        · split at hc2
          · rename_i hmem hlt
            have := Option.some.inj hc2
            rw [← this]
            exact Or.inr ⟨hmem, hne, rfl⟩
          · exact hinit contest2 hc2
  split at h
  · rename_i contest heq
    have h2 := Option.some.inj h
    refine ⟨contest, ?_, ?_⟩
    · rw [← h2]
    · exact hP _ _ (by intro contest hc; simp at hc) contest heq
  · simp at h

/-- Any NEN returned by `find_best_difficulty` has the given winner and the
sorted continuing list. -/
theorem findBestDifficulty_shape (vs : Votes)
    (audit : Nat → Nat → Nat → Difficulty) (continuing : List Nat) (winner : Nat)
    (ad : AssertionAndDifficulty)
    (h : NotEliminatedNext.findBestDifficulty vs audit continuing winner
      = some ad) :
    ∃ loser, ad.assertion
      = .NEN ⟨winner, loser, continuing.insertionSort (· ≤ ·)⟩ := by
  simp only [NotEliminatedNext.findBestDifficulty] at h
  split at h
  · rename_i loser tallyLoser _ _
    have h2 := Option.some.inj h
    exact ⟨loser, by rw [← h2]⟩
  · simp at h

/-- A duplicate-free list sorted weakly ascending is sorted strictly. -/
theorem insertionSort_sorted_lt (l : List Nat) (hnd : l.Nodup) :
    (l.insertionSort (· ≤ ·)).Sorted (· < ·) := by
  have hs : (l.insertionSort (· ≤ ·)).Sorted (· ≤ ·) :=
    List.sorted_insertionSort _ l
  have hnd2 : (l.insertionSort (· ≤ ·)).Nodup :=
    (List.perm_insertionSort _ l).nodup_iff.mpr hnd
  exact hs.lt_of_le hnd2

/-- The centre of the soundness proof: whenever `find_best_audit` on a
duplicate-free suffix π returns a finite difficulty, the returned assertion
contradicts every elimination order extending π. -/
theorem findBestAudit_contradicts (vs : Votes)
    (audit : Nat → Nat → Nat → Difficulty) (pi : List Nat)
    (hnd : pi.Nodup) (hpi : pi ≠ [])
    (hne : (findBestAudit pi vs audit).difficulty ≠ ⊤) :
    ∀ τ : List Nat, pi <:+ τ →
      (findBestAudit pi vs audit).assertion.okEliminationOrderSuffix τ
        = .Contradiction := by
  intro τ hsuf
  match pi, hpi with
  | c :: rest, _ =>
  have hnen : ∀ ad : AssertionAndDifficulty,
      NotEliminatedNext.findBestDifficulty vs audit (c :: rest) c = some ad →
      ad.assertion.okEliminationOrderSuffix τ = .Contradiction := by
    intro ad had
    obtain ⟨loser, hshape⟩ := findBestDifficulty_shape _ _ _ _ _ had
    rw [hshape]
    exact nen_of_suffix_contradicts
      ⟨c, loser, (c :: rest).insertionSort (· ≤ ·)⟩ (c :: rest)
      (insertionSort_sorted_lt _ hnd)
      (List.perm_insertionSort _ _) rfl τ hsuf
  have hneb : ∀ ad : AssertionAndDifficulty,
      NotEliminatedBefore.findBestAssertionUsingCache c rest vs audit
        = some ad →
      ad.assertion.okEliminationOrderSuffix τ = .Contradiction := by
    intro ad had
    obtain ⟨contest, hshape, hcase⟩ := findBestAssertionUsingCache_shape _ _ _ _ _ had
    rw [hshape]
    rcases hcase with ⟨hw, hl⟩ | ⟨hw1, hw2, hl⟩
    · have hco : contest = ⟨c, contest.loser⟩ := by
        cases contest; simp_all
      rw [hco]
      exact neb_laterInPi_contradicts c contest.loser rest hnd hl τ hsuf
    · have hco : contest = ⟨contest.winner, c⟩ := by
        cases contest; simp_all
      rw [hco]
      refine neb_outsidePi_contradicts contest.winner (c :: rest) c ?_
        (List.mem_cons_self c rest) τ hsuf
      intro hmem
      rcases List.mem_cons.mp hmem with h | h
      · exact hw2 h
      · exact hw1 h
  rcases hNn : NotEliminatedNext.findBestDifficulty vs audit (c :: rest) c
    with _ | adNEN
  · rcases hB : NotEliminatedBefore.findBestAssertionUsingCache c rest vs audit
      with _ | adNEB
    · have hval : findBestAudit (c :: rest) vs audit
          = ⟨.NEB ⟨c, c⟩, ⊤⟩ := by
        simp only [findBestAudit, hNn, hB]
      rw [hval] at hne
      exact absurd rfl hne
    · have hval : findBestAudit (c :: rest) vs audit
          = if adNEB.difficulty < ⊤ then adNEB else ⟨.NEB ⟨c, c⟩, ⊤⟩ := by
        simp only [findBestAudit, hNn, hB]
      rw [hval] at hne ⊢
      split at hne
      · rename_i hlt
        rw [if_pos hlt]
        exact hneb _ hB
      · exact absurd rfl hne
  · rcases hB : NotEliminatedBefore.findBestAssertionUsingCache c rest vs audit
      with _ | adNEB
    · have hval : findBestAudit (c :: rest) vs audit
          = if adNEN.difficulty < (⊤ : Difficulty) then adNEN
            else ⟨.NEB ⟨c, c⟩, ⊤⟩ := by
        simp only [findBestAudit, hNn, hB]
      rw [hval] at hne ⊢
      split at hne
      · rename_i hlt
        rw [if_pos hlt]
        exact hnen _ hNn
      · exact absurd rfl hne
    · have hval : findBestAudit (c :: rest) vs audit
          = if adNEN.difficulty
              < (if adNEB.difficulty < ⊤ then adNEB
                 else ⟨.NEB ⟨c, c⟩, ⊤⟩).difficulty then adNEN
            else (if adNEB.difficulty < ⊤ then adNEB
                  else ⟨.NEB ⟨c, c⟩, ⊤⟩) := by
        simp only [findBestAudit, hNn, hB]
      by_cases hlt2 : adNEB.difficulty < ⊤
      · rw [hval] at hne ⊢
        rw [if_pos hlt2] at hne ⊢
        split at hne
        · rename_i hlt
          rw [if_pos hlt]
          exact hnen _ hNn
        · rename_i hge
          rw [if_neg hge]
          exact hneb _ hB
      · rw [hval] at hne ⊢
        rw [if_neg hlt2] at hne ⊢
        split at hne
        · rename_i hlt
          rw [if_pos hlt]
          exact hnen _ hNn
        · exact absurd rfl hne


/-! ### The frontier-entry invariant -/

/-- The best ancestor of a well-formed entry is a nonempty duplicate-free
suffix of its π. -/
theorem bestAncestor_facts (vs : Votes) (audit : Nat → Nat → Nat → Difficulty)
    (winner : Nat) (e : SequenceAndEffort) (he : e.EntryOK vs audit winner) :
    e.bestAncestor ≠ [] ∧ e.bestAncestor.Nodup ∧ e.bestAncestor <:+ e.pi := by
  obtain ⟨h1, h2, h3, h4, h5, h6, h7, h8⟩ := he
  refine ⟨?_, ?_, ?_⟩
  · rw [SequenceAndEffort.bestAncestor, ← List.length_pos, List.length_drop]
    omega
  · exact h2.sublist (List.drop_suffix _ _).sublist
  · exact List.drop_suffix _ _

/-- A well-formed entry of finite difficulty commits an assertion that
contradicts every elimination order extending its best ancestor. -/
theorem entry_commit_contradicts (vs : Votes)
    (audit : Nat → Nat → Nat → Difficulty) (winner : Nat)
    (e : SequenceAndEffort) (he : e.EntryOK vs audit winner)
    (hne : e.difficulty ≠ ⊤) :
    ∀ τ : List Nat, e.bestAncestor <:+ τ →
      e.bestAssertionForAncestor.assertion.okEliminationOrderSuffix τ
        = .Contradiction := by
  intro τ hsuf
  obtain ⟨hba1, hba2, hba3⟩ := bestAncestor_facts vs audit winner e he
  obtain ⟨h1, h2, h3, h4, h5, h6, h7, h8⟩ := he
  rw [h6]
  apply findBestAudit_contradicts vs audit e.bestAncestor hba2 hba1 _ τ hsuf
  rw [SequenceAndEffort.difficulty, h6] at hne
  exact hne

/-- The extension of an entry by a fresh candidate has π grown at the
front. -/
theorem extendByCandidate_pi (e : SequenceAndEffort) (c : Nat) (vs : Votes)
    (audit : Nat → Nat → Nat → Difficulty) :
    (e.extendByCandidate c vs audit).pi = c :: e.pi := by
  rw [SequenceAndEffort.extendByCandidate]
  split
  · rfl
  · rfl

/-- The extension of an entry starts with no dive direction. -/
theorem extendByCandidate_diveDone (e : SequenceAndEffort) (c : Nat)
    (vs : Votes) (audit : Nat → Nat → Nat → Difficulty) :
    (e.extendByCandidate c vs audit).diveDone = none := by
  rw [SequenceAndEffort.extendByCandidate]
  split
  · rfl
  · rfl

/-- Extending a well-formed entry by a fresh candidate keeps it
well-formed. -/
theorem extendByCandidate_entryOK (vs : Votes)
    (audit : Nat → Nat → Nat → Difficulty) (winner : Nat)
    (e : SequenceAndEffort) (c : Nat) (he : e.EntryOK vs audit winner)
    (hc : c ∉ e.pi) (hcN : c < vs.numCandidates) :
    (e.extendByCandidate c vs audit).EntryOK vs audit winner := by
  obtain ⟨h1, h2, h3, h4, h5, h6, h7, h8⟩ := he
  have hlast : (c :: e.pi).getLast? = e.pi.getLast? := by
    match e.pi, h1 with
    | x :: xs, _ => rw [List.getLast?_cons_cons]
  rw [SequenceAndEffort.extendByCandidate]
  split
  · rename_i hlt
    refine ⟨by simp, by simp [h2, hc], ?_, by simp, by simp, ?_, ?_, ?_⟩
    · intro x hx
      rcases List.mem_cons.mp hx with h | h
      · omega
      · exact h3 x h
    · rw [SequenceAndEffort.bestAncestor]
      simp
    · intro σ hσ hσsuf
      rcases List.suffix_cons_iff.mp hσsuf with h | h
      · rw [SequenceAndEffort.difficulty, h]
      · calc (⟨c :: e.pi, findBestAudit (c :: e.pi) vs audit,
              (c :: e.pi).length, none⟩ : SequenceAndEffort).difficulty
            = (findBestAudit (c :: e.pi) vs audit).difficulty := rfl
          _ ≤ e.difficulty := le_of_lt hlt
          _ ≤ (findBestAudit σ vs audit).difficulty := h7 σ hσ h
    · rw [hlast]; exact h8
  · rename_i hge
    refine ⟨by simp, by simp [h2, hc], ?_, h4, ?_, ?_, ?_, ?_⟩
    · intro x hx
      rcases List.mem_cons.mp hx with h | h
      · omega
      · exact h3 x h
    · simp; omega
    · rw [SequenceAndEffort.bestAncestor] at h6 ⊢
      simp only [List.length_cons]
      rw [show e.pi.length + 1 - e.bestAncestorLength
          = (e.pi.length - e.bestAncestorLength) + 1 from by omega,
        List.drop_succ_cons]
      exact h6
    · intro σ hσ hσsuf
      rcases List.suffix_cons_iff.mp hσsuf with h | h
      · rw [h]
        exact not_lt.mp hge
      · exact h7 σ hσ h
    · rw [hlast]; exact h8

/-- A commit through `just_take_assertion` of a well-formed finite-difficulty
entry rules out every elimination order extending the entry's best
ancestor. -/
theorem justTakeAssertion_rulesOut (vs : Votes)
    (audit : Nat → Nat → Nat → Difficulty) (winner : Nat)
    (s : SequenceAndEffort) (he : s.EntryOK vs audit winner)
    (hne : s.difficulty ≠ ⊤)
    (A : List AssertionAndDifficulty) (F : List SequenceAndEffort) :
    ∀ τ : List Nat, s.bestAncestor <:+ τ →
      RulesOut (s.justTakeAssertion A F).1 τ := by
  intro τ hsuf
  have hcontr := entry_commit_contradicts vs audit winner s he hne τ hsuf
  rw [SequenceAndEffort.justTakeAssertion]
  split
  · rename_i hany
    obtain ⟨a, ha, haeq⟩ := by
      simpa only [List.any_eq_true, decide_eq_true_eq] using hany
    exact ⟨a, ha, by rw [haeq]; exact hcontr⟩
  · exact ⟨s.bestAssertionForAncestor, by simp, hcontr⟩

/-- Committed assertions persist through `just_take_assertion`. -/
theorem justTakeAssertion_A_mono (s : SequenceAndEffort)
    (A : List AssertionAndDifficulty) (F : List SequenceAndEffort) :
    ∀ ad ∈ A, ad ∈ (s.justTakeAssertion A F).1 := by
  intro ad had
  rw [SequenceAndEffort.justTakeAssertion]
  split
  · exact had
  · exact List.mem_append_left _ had

/-- `just_take_assertion` by a well-formed finite-difficulty entry preserves
the coverage invariant: a frontier witness it purges is replaced by the
committed (or already-present) assertion. -/
theorem justTakeAssertion_covered (vs : Votes)
    (audit : Nat → Nat → Nat → Difficulty) (winner : Nat)
    (s : SequenceAndEffort) (he : s.EntryOK vs audit winner)
    (hne : s.difficulty ≠ ⊤)
    (A : List AssertionAndDifficulty) (F : List SequenceAndEffort)
    (τ : List Nat) (hc : Covered A F τ) :
    Covered (s.justTakeAssertion A F).1 (s.justTakeAssertion A F).2 τ := by
  rcases hc with ⟨ad, had, hcontr⟩ | ⟨e, heF, hsuf, hlen⟩
  · exact Or.inl ⟨ad, justTakeAssertion_A_mono s A F ad had, hcontr⟩
  · by_cases hkeep : (s.bestAncestor.isSuffixOf e.pi) = true
    · -- the witness is purged (or kept if the assertion was present);
      -- in either case the committed assertion covers τ
      have hsub : s.bestAncestor <:+ τ :=
        (List.isSuffixOf_iff_suffix.mp hkeep).trans hsuf
      exact Or.inl (justTakeAssertion_rulesOut vs audit winner s he hne A F τ hsub)
    · refine Or.inr ⟨e, ?_, hsuf, hlen⟩
      rw [SequenceAndEffort.justTakeAssertion]
      split
      · exact heF
      · exact List.mem_filter.mpr ⟨heF, by simp [hkeep]⟩

/-! ### The IRV elimination order is a permutation of the candidates -/

/-- Once the elimination order is full, the winner-finding loop leaves it
unchanged (the length guard on every push fails). -/
theorem findAllPossibleWinnersLoop_elim_stable (vs : Votes)
    (recurse : List Nat → IRVWork → TimeOut →
      Option (Except RaireError (List Nat × IRVWork × TimeOut)))
    (continuing : List Nat) (tallies : List Nat) (minTally : Nat)
    (hrec : ∀ c w t r w2 t2,
      w.eliminationOrder.length = vs.numCandidates → 1 ≤ c.length →
      recurse c w t = some (.ok (r, w2, t2)) →
      w2.eliminationOrder = w.eliminationOrder)
    (hcont : 2 ≤ continuing.length) :
    ∀ (idxs : List Nat) (winners : List Nat) (ato atb : Bool)
      (work : IRVWork) (timeout : TimeOut)
      (res : List Nat) (work' : IRVWork) (t2 : TimeOut),
      work.eliminationOrder.length = vs.numCandidates →
      findAllPossibleWinnersLoop vs recurse continuing tallies minTally idxs
        winners ato atb work timeout = some (.ok (res, work', t2)) →
      work'.eliminationOrder = work.eliminationOrder := by
  intro idxs
  induction idxs with
  | nil =>
    intro winners ato atb work timeout res work' t2 hfull h
    rw [findAllPossibleWinnersLoop] at h
    have h2 := Except.ok.inj (Option.some.inj h)
    have h3 : work = work' := congrArg (fun p => p.2.1) h2
    rw [← h3]
  | cons i rest ih =>
    intro winners ato atb work timeout res work' t2 hfull h
    rw [findAllPossibleWinnersLoop] at h
    split at h
    · split at h
      · have h2 := Except.ok.inj (Option.some.inj h)
        have h3 : work = work' := congrArg (fun p => p.2.1) h2
        rw [← h3]
      · rw [if_neg (by omega)] at h
        simp only [] at h
        split at h
        · simp at h
        · simp at h
        · rename_i res2 work3 t3 hrec2
          have h4 := hrec _ _ _ _ _ _ hfull
            (by rw [List.length_append, List.length_take, List.length_drop]
                omega) hrec2
          have h5 := ih _ _ _ _ _ _ _ _ (by rw [h4]; exact hfull) h
          rw [h5, h4]
    · exact ih _ _ _ _ _ _ _ _ hfull h

/-- Once the elimination order is full, the winner finder leaves it
unchanged. -/
theorem findAllPossibleWinners_elim_stable (vs : Votes) :
    ∀ (fuel : Nat) (continuing : List Nat) (work : IRVWork) (timeout : TimeOut)
      (winners : List Nat) (work' : IRVWork) (t' : TimeOut),
      work.eliminationOrder.length = vs.numCandidates →
      1 ≤ continuing.length →
      findAllPossibleWinners vs fuel continuing work timeout
        = some (.ok (winners, work', t')) →
      work'.eliminationOrder = work.eliminationOrder := by
  intro fuel
  induction fuel with
  | zero =>
    intro continuing work timeout winners work' t' hfull hlen h
    rw [findAllPossibleWinners] at h
    simp at h
  | succ fuel ih =>
    intro continuing work timeout winners work' t' hfull hlen h
    rw [findAllPossibleWinners] at h
    split at h
    · simp at h
    · split at h
      · rw [if_neg (by omega)] at h
        have h2 := Except.ok.inj (Option.some.inj h)
        have h3 : work = work' := congrArg (fun p => p.2.1) h2
        rw [← h3]
      · split at h
        · have h2 := Except.ok.inj (Option.some.inj h)
          have h3 : work = work' := congrArg (fun p => p.2.1) h2
          rw [← h3]
        · simp only [] at h
          split at h
          · have h2 := Except.ok.inj (Option.some.inj h)
            have h3 : work = work' := congrArg (fun p => p.2.1) h2
            rw [← h3]
          · split at h
            · simp at h
            · simp at h
            · rename_i winners2 work2 t2 hloop
              have h2 := Except.ok.inj (Option.some.inj h)
              have h4 := findAllPossibleWinnersLoop_elim_stable vs _
                continuing _ _ (fun c w t r w2 t2 hw hc hr => ih c w t r w2 t2 hw hc hr)
                (by omega) _ _ _ _ _ _ _ _ _ hfull hloop
              have h5 : { work2 with winnerGivenContinuingCandidates :=
                  (continuing, winners2) :: work2.winnerGivenContinuingCandidates }
                  = work' := congrArg (fun p => p.2.1) h2
              rw [← h5]
              exact h4

/-- The first-descent loop: with a fresh memo, an untried-options flag and a
full-complement length budget, the loop appends a permutation of the
continuing candidates to the elimination order. -/
theorem findAllPossibleWinnersLoop_elim_perm (vs : Votes)
    (recurse : List Nat → IRVWork → TimeOut →
      Option (Except RaireError (List Nat × IRVWork × TimeOut)))
    (continuing : List Nat) (tallies : List Nat) (minTally : Nat)
    (hrecM : ∀ c w t r w2 t2,
      w.winnerGivenContinuingCandidates = [] →
      w.eliminationOrder.length + c.length = vs.numCandidates →
      recurse c w t = some (.ok (r, w2, t2)) →
      ∃ l, w2.eliminationOrder = w.eliminationOrder ++ l ∧ l.Perm c)
    (hrecA : ∀ c w t r w2 t2,
      w.eliminationOrder.length = vs.numCandidates → 1 ≤ c.length →
      recurse c w t = some (.ok (r, w2, t2)) →
      w2.eliminationOrder = w.eliminationOrder)
    (hcont : 2 ≤ continuing.length) :
    ∀ (idxs : List Nat) (winners : List Nat) (atb : Bool)
      (work : IRVWork) (timeout : TimeOut)
      (res : List Nat) (work' : IRVWork) (t2 : TimeOut),
      work.winnerGivenContinuingCandidates = [] →
      work.eliminationOrder.length + continuing.length = vs.numCandidates →
      (∀ i ∈ idxs, i < continuing.length) →
      (∃ i ∈ idxs, (tallies.get? i).getD 0 = minTally) →
      findAllPossibleWinnersLoop vs recurse continuing tallies minTally idxs
        winners false atb work timeout = some (.ok (res, work', t2)) →
      ∃ l, work'.eliminationOrder = work.eliminationOrder ++ l
        ∧ l.Perm continuing := by
  intro idxs
  induction idxs with
  | nil =>
    intro winners atb work timeout res work' t2 hmemo hsum hrange hwit h
    obtain ⟨i, hi, _⟩ := hwit
    simp at hi
  | cons i rest ih =>
    intro winners atb work timeout res work' t2 hmemo hsum hrange hwit h
    rw [findAllPossibleWinnersLoop] at h
    split at h
    · rename_i hmin
      split at h
      · rename_i hbreak
        simp at hbreak
      · simp only [] at h
        split at h
        · simp at h
        · simp at h
        · rename_i res2 work3 t3 hrec2
          have hilt : i < continuing.length := hrange i (List.mem_cons_self i rest)
          have hnclen : (continuing.take i ++ continuing.drop (i + 1)).length
              = continuing.length - 1 := by
            rw [List.length_append, List.length_take, List.length_drop]
            omega
          obtain ⟨l2, hl2eq, hl2perm⟩ := hrecM
            (continuing.take i ++ continuing.drop (i + 1))
            ⟨work.winnerGivenContinuingCandidates,
              work.eliminationOrder ++ [(continuing.get? i).getD 0]⟩
            timeout res2 work3 t3 hmemo
            (by rw [hnclen]
                simp
                omega) hrec2
          have hfull3 : work3.eliminationOrder.length = vs.numCandidates := by
            rw [hl2eq, List.length_append, hl2perm.length_eq, hnclen]
            simp
            omega
          have hstable := findAllPossibleWinnersLoop_elim_stable vs recurse
            continuing tallies minTally hrecA hcont _ _ _ _ _ _ _ _ _ hfull3 h
          refine ⟨(continuing.get? i).getD 0 :: l2, ?_, ?_⟩
          · rw [hstable, hl2eq]
            simp
          · have hget : (continuing.get? i).getD 0 = continuing[i] := by
              rw [List.get?_eq_get hilt]
              rfl
            have hdecomp : continuing
                = continuing.take i
                  ++ continuing[i] :: continuing.drop (i + 1) := by
              rw [← List.drop_eq_getElem_cons hilt, List.take_append_drop]
            have hp : (continuing[i]
                :: (continuing.take i ++ continuing.drop (i + 1))).Perm
                continuing := by
              conv_rhs => rw [hdecomp]
              exact List.perm_middle.symm
            rw [hget]
            exact (List.Perm.cons _ hl2perm).trans hp
    · refine ih _ _ _ _ _ _ _ hmemo hsum
        (fun j hj => hrange j (List.mem_cons_of_mem i hj)) ?_ h
      rcases hwit with ⟨j, hj, hjtal⟩
      rcases List.mem_cons.mp hj with rfl | hjr
      · rename_i hne
        exact absurd hjtal hne
      · exact ⟨j, hjr, hjtal⟩

/-- The winner finder started with a fresh memo and a full-complement length
budget appends a permutation of the continuing candidates to the
elimination order (the first-descent path fills it). -/
theorem findAllPossibleWinners_elim_perm (vs : Votes) :
    ∀ (fuel : Nat) (continuing : List Nat) (work : IRVWork) (timeout : TimeOut)
      (winners : List Nat) (work' : IRVWork) (t' : TimeOut),
      work.winnerGivenContinuingCandidates = [] →
      work.eliminationOrder.length + continuing.length = vs.numCandidates →
      findAllPossibleWinners vs fuel continuing work timeout
        = some (.ok (winners, work', t')) →
      ∃ l, work'.eliminationOrder = work.eliminationOrder ++ l
        ∧ l.Perm continuing := by
  intro fuel
  induction fuel with
  | zero =>
    intro continuing work timeout winners work' t' hmemo hsum h
    rw [findAllPossibleWinners] at h
    simp at h
  | succ fuel ih =>
    intro continuing work timeout winners work' t' hmemo hsum h
    rw [findAllPossibleWinners] at h
    split at h
    · simp at h
    · split at h
      · rename_i hone
        simp only [] at h
        have h2 := Except.ok.inj (Option.some.inj h)
        have h3 : ({ work with eliminationOrder :=
            work.eliminationOrder ++ continuing } : IRVWork) = work' :=
          congrArg (fun p => p.2.1) h2
        exact ⟨continuing, by rw [← h3], List.Perm.refl _⟩
      · rw [show work.winnerGivenContinuingCandidates.lookup continuing
            = none from by rw [hmemo]; rfl] at h
        simp only [] at h
        split at h
        · -- no tallies: continuing is empty
          rename_i hmin
          have hcont : continuing = [] := by
            by_contra hc
            match continuing, hc with
            | c :: cs, _ =>
              rw [Votes.restrictedTallies] at hmin
              simp at hmin
          have h2 := Except.ok.inj (Option.some.inj h)
          have h3 : work = work' := congrArg (fun p => p.2.1) h2
          exact ⟨[], by rw [← h3]; simp, by rw [hcont]⟩
        · rename_i minTally hmin
          split at h
          · simp at h
          · simp at h
          · rename_i winners2 work2 t2 hloop
            have hcont2 : 2 ≤ continuing.length := by
              rename_i htmo hlen1 hx1 hx2
              match continuing, hmin, hlen1 with
              | [], hmin, _ =>
                rw [Votes.restrictedTallies] at hmin
                simp at hmin
              | [c], _, hlen1 => exact absurd rfl hlen1
              | c :: c2 :: cs, _, _ => simp
            obtain ⟨j, hjlt, hjtal⟩ : ∃ j, j < continuing.length ∧
                ((vs.restrictedTallies continuing).get? j).getD 0 = minTally := by
              have hmem := List.min?_mem (fun a b => min_choice a b) hmin
              obtain ⟨⟨j, hjl⟩, hget⟩ := List.mem_iff_get.mp hmem
              refine ⟨j, ?_, ?_⟩
              · rw [Votes.restrictedTallies, List.length_map] at hjl
                exact hjl
              · rw [List.get?_eq_get hjl, hget]
                rfl
            obtain ⟨l, hleq, hlperm⟩ := findAllPossibleWinnersLoop_elim_perm
              vs _ continuing _ _
              (fun c w t r w2 t2 hm hs hr => ih c w t r w2 t2 hm hs hr)
              (fun c w t r w2 t2 hf hc hr =>
                findAllPossibleWinners_elim_stable vs fuel c w t r w2 t2 hf hc hr)
              hcont2 _ _ _ _ _ _ _ _ hmemo hsum
              (fun i hi => by
                rw [List.mem_range] at hi
                exact hi)
              ⟨j, by rw [List.mem_range]; exact hjlt, hjtal⟩ hloop
            have h2 := Except.ok.inj (Option.some.inj h)
            have h3 : ({ work2 with winnerGivenContinuingCandidates :=
                (continuing, winners2) :: work2.winnerGivenContinuingCandidates }
                : IRVWork) = work' := congrArg (fun p => p.2.1) h2
            exact ⟨l, by rw [← h3]; exact hleq, hlperm⟩

/-- A completed election's elimination order is a permutation of all the
candidates (first eliminated first, winner last). -/
theorem runElection_eliminationOrder_perm (vs : Votes) (ho : HashOrder)
    (timeout : TimeOut) (irvResult : IRVResult) (t' : TimeOut)
    (h : vs.runElection ho timeout = .ok (irvResult, t')) :
    irvResult.eliminationOrder.Perm (List.range vs.numCandidates) := by
  rw [Votes.runElection] at h
  split at h
  · simp at h
  · simp at h
  · rename_i winners work t2 hfind
    obtain ⟨l, hleq, hlperm⟩ := findAllPossibleWinners_elim_perm vs _ _ _ _
      _ _ _ rfl (by simp) hfind
    have h2 := Except.ok.inj h
    have h3 : (⟨ho.listing winners, work.eliminationOrder⟩ : IRVResult)
        = irvResult := congrArg (fun p => p.1) h2
    rw [← h3]
    show work.eliminationOrder.Perm (List.range vs.numCandidates)
    rw [hleq]
    simpa using hlperm

/-- Membership after a sorted-set insertion. -/
theorem mem_insertSortedSet (x c : Nat) :
    ∀ l : List Nat, x ∈ insertSortedSet c l → x = c ∨ x ∈ l := by
  intro l
  induction l with
  | nil =>
    intro h
    rw [insertSortedSet] at h
    exact Or.inl (by simpa using h)
  | cons y ys ih =>
    intro h
    rw [insertSortedSet] at h
    split at h
    · simpa using h
    · split at h
      · exact Or.inr h
      · rcases List.mem_cons.mp h with h | h
        · exact Or.inr (h ▸ List.mem_cons_self y ys)
        · rcases ih h with h | h
          · exact Or.inl h
          · exact Or.inr (List.mem_cons_of_mem y h)

/-- Accumulating a bounded result set into a bounded winner set stays
bounded. -/
theorem foldl_insertSortedSet_lt (N : Nat) :
    ∀ (res winners : List Nat),
      (∀ x ∈ winners, x < N) → (∀ x ∈ res, x < N) →
      ∀ x ∈ res.foldl (fun w c => insertSortedSet c w) winners, x < N := by
  intro res
  induction res with
  | nil => intro winners hw _ x hx; exact hw x hx
  | cons c cs ih =>
    intro winners hw hr x hx
    rw [List.foldl_cons] at hx
    refine ih _ ?_ (fun y hy => hr y (List.mem_cons_of_mem c hy)) x hx
    intro y hy
    rcases mem_insertSortedSet y c winners hy with rfl | hy2
    · exact hr _ (List.mem_cons_self _ _)
    · exact hw y hy2

/-- A successful association-list lookup finds a listed pair. -/
theorem lookup_mem {α β : Type} [BEq α] [LawfulBEq α] (k : α) (v : β) :
    ∀ l : List (α × β), l.lookup k = some v → (k, v) ∈ l := by
  intro l
  induction l with
  | nil => intro h; simp [List.lookup] at h
  | cons p rest ih =>
    obtain ⟨a, b⟩ := p
    intro h
    rw [List.lookup] at h
    split at h
    · rename_i heq
      have hv := Option.some.inj h
      have hk : k = a := eq_of_beq heq
      have : (k, v) = (a, b) := by rw [hk, ← hv]
      exact this ▸ List.mem_cons_self _ _
    · exact List.mem_cons_of_mem _ (ih h)

/-- The winner-finding loop returns only candidate indices, and preserves
the memo's candidates-only invariant. -/
theorem findAllPossibleWinnersLoop_winners_lt (vs : Votes)
    (recurse : List Nat → IRVWork → TimeOut →
      Option (Except RaireError (List Nat × IRVWork × TimeOut)))
    (continuing : List Nat) (tallies : List Nat) (minTally : Nat)
    (hrec : ∀ c w t r w2 t2,
      (∀ x ∈ c, x < vs.numCandidates) →
      (∀ kv ∈ w.winnerGivenContinuingCandidates, ∀ x ∈ kv.2, x < vs.numCandidates) →
      recurse c w t = some (.ok (r, w2, t2)) →
      (∀ x ∈ r, x < vs.numCandidates) ∧
      (∀ kv ∈ w2.winnerGivenContinuingCandidates, ∀ x ∈ kv.2, x < vs.numCandidates))
    (hcont : ∀ x ∈ continuing, x < vs.numCandidates) :
    ∀ (idxs : List Nat) (winners : List Nat) (ato atb : Bool)
      (work : IRVWork) (timeout : TimeOut)
      (res : List Nat) (work' : IRVWork) (t2 : TimeOut),
      (∀ x ∈ winners, x < vs.numCandidates) →
      (∀ kv ∈ work.winnerGivenContinuingCandidates, ∀ x ∈ kv.2, x < vs.numCandidates) →
      findAllPossibleWinnersLoop vs recurse continuing tallies minTally idxs
        winners ato atb work timeout = some (.ok (res, work', t2)) →
      (∀ x ∈ res, x < vs.numCandidates) ∧
      (∀ kv ∈ work'.winnerGivenContinuingCandidates, ∀ x ∈ kv.2, x < vs.numCandidates) := by
  intro idxs
  induction idxs with
  | nil =>
    intro winners ato atb work timeout res work' t2 hw hk h
    rw [findAllPossibleWinnersLoop] at h
    have h2 := Except.ok.inj (Option.some.inj h)
    have h3 : winners = res := congrArg (fun p => p.1) h2
    have h4 : work = work' := congrArg (fun p => p.2.1) h2
    exact ⟨h3 ▸ hw, h4 ▸ hk⟩
  | cons i rest ih =>
    intro winners ato atb work timeout res work' t2 hw hk h
    rw [findAllPossibleWinnersLoop] at h
    split at h
    · split at h
      · have h2 := Except.ok.inj (Option.some.inj h)
        have h3 : winners = res := congrArg (fun p => p.1) h2
        have h4 : work = work' := congrArg (fun p => p.2.1) h2
        exact ⟨h3 ▸ hw, h4 ▸ hk⟩
      · simp only [] at h
        split at h
        · simp at h
        · simp at h
        · rename_i res2 work3 t3 hrec2
          have hnc : ∀ x ∈ continuing.take i ++ continuing.drop (i + 1),
              x < vs.numCandidates := by
            intro x hx
            rcases List.mem_append.mp hx with hx | hx
            · exact hcont x (List.mem_of_mem_take hx)
            · exact hcont x (List.mem_of_mem_drop hx)
          have hrec3 := hrec _ _ _ _ _ _ hnc (by
            intro kv hkv
            exact hk kv (by
              split at hkv
              · exact hkv
              · exact hkv)) hrec2
          exact ih _ _ _ _ _ _ _ _
            (foldl_insertSortedSet_lt _ _ _ hw hrec3.1) hrec3.2 h
    · exact ih _ _ _ _ _ _ _ _ hw hk h

/-- The winner finder returns only candidate indices. -/
theorem findAllPossibleWinners_winners_lt (vs : Votes) :
    ∀ (fuel : Nat) (continuing : List Nat) (work : IRVWork) (timeout : TimeOut)
      (winners : List Nat) (work' : IRVWork) (t' : TimeOut),
      (∀ x ∈ continuing, x < vs.numCandidates) →
      (∀ kv ∈ work.winnerGivenContinuingCandidates, ∀ x ∈ kv.2, x < vs.numCandidates) →
      findAllPossibleWinners vs fuel continuing work timeout
        = some (.ok (winners, work', t')) →
      (∀ x ∈ winners, x < vs.numCandidates) ∧
      (∀ kv ∈ work'.winnerGivenContinuingCandidates, ∀ x ∈ kv.2, x < vs.numCandidates) := by
  intro fuel
  induction fuel with
  | zero =>
    intro continuing work timeout winners work' t' hc hk h
    rw [findAllPossibleWinners] at h
    simp at h
  | succ fuel ih =>
    intro continuing work timeout winners work' t' hc hk h
    rw [findAllPossibleWinners] at h
    split at h
    · simp at h
    · split at h
      · simp only [] at h
        have h2 := Except.ok.inj (Option.some.inj h)
        have h3 : continuing = winners := congrArg (fun p => p.1) h2
        have h4 : (if work.eliminationOrder.length + continuing.length
              = vs.numCandidates then
            { work with eliminationOrder := work.eliminationOrder ++ continuing }
            else work) = work' := congrArg (fun p => p.2.1) h2
        refine ⟨h3 ▸ hc, ?_⟩
        intro kv hkv
        refine hk kv ?_
        rw [← h4] at hkv
        split at hkv
        · exact hkv
        · exact hkv
      · split at h
        · rename_i alreadyComputed hlook
          have h2 := Except.ok.inj (Option.some.inj h)
          have h3 : alreadyComputed = winners := congrArg (fun p => p.1) h2
          have h4 : work = work' := congrArg (fun p => p.2.1) h2
          have hmem : (continuing, alreadyComputed)
              ∈ work.winnerGivenContinuingCandidates :=
            lookup_mem _ _ _ hlook
          exact ⟨h3 ▸ hk _ hmem, h4 ▸ hk⟩
        · simp only [] at h
          split at h
          · have h2 := Except.ok.inj (Option.some.inj h)
            have h3 : ([] : List Nat) = winners := congrArg (fun p => p.1) h2
            have h4 : work = work' := congrArg (fun p => p.2.1) h2
            exact ⟨h3 ▸ (by intro x hx; simp at hx), h4 ▸ hk⟩
          · split at h
            · simp at h
            · simp at h
            · rename_i winners2 work2 t2 hloop
              have hl := findAllPossibleWinnersLoop_winners_lt vs _
                continuing _ _
                (fun c w t r w2 t2 hcx hkx hr => ih c w t r w2 t2 hcx hkx hr)
                hc _ _ _ _ _ _ _ _ _ (by intro x hx; simp at hx) hk hloop
              have h2 := Except.ok.inj (Option.some.inj h)
              have h3 : winners2 = winners := congrArg (fun p => p.1) h2
              have h4 : ({ work2 with winnerGivenContinuingCandidates :=
                  (continuing, winners2) :: work2.winnerGivenContinuingCandidates }
                  : IRVWork) = work' := congrArg (fun p => p.2.1) h2
              refine ⟨h3 ▸ hl.1, ?_⟩
              intro kv hkv
              rw [← h4] at hkv
              rcases List.mem_cons.mp hkv with rfl | hkv2
              · exact hl.1
              · exact hl.2 kv hkv2

/-- A completed election's possible winners are candidate indices. -/
theorem runElection_possibleWinners_lt (vs : Votes) (ho : HashOrder)
    (timeout : TimeOut) (irvResult : IRVResult) (t' : TimeOut)
    (h : vs.runElection ho timeout = .ok (irvResult, t')) :
    ∀ x ∈ irvResult.possibleWinners, x < vs.numCandidates := by
  rw [Votes.runElection] at h
  split at h
  · simp at h
  · simp at h
  · rename_i winners work t2 hfind
    have hl := findAllPossibleWinners_winners_lt vs _ _ _ _ _ _ _
      (by intro x hx; simpa using List.mem_range.mp hx)
      (by intro kv hkv; simp at hkv) hfind
    have h2 := Except.ok.inj h
    have h3 : (⟨ho.listing winners, work.eliminationOrder⟩ : IRVResult)
        = irvResult := congrArg (fun p => p.1) h2
    rw [← h3]
    intro x hx
    exact hl.1 x ((ho.listing_perm winners).mem_iff.mp hx)

/-! ### Coverage through the search loop -/

/-- The frontier after `just_take_assertion` is a subset of the one
before. -/
theorem justTakeAssertion_F_sub (s : SequenceAndEffort)
    (A : List AssertionAndDifficulty) (F : List SequenceAndEffort) :
    ∀ e ∈ (s.justTakeAssertion A F).2, e ∈ F := by
  intro e he
  rw [SequenceAndEffort.justTakeAssertion] at he
  split at he
  · exact he
  · exact (List.mem_filter.mp he).1

/-- What `contains_all_candidates` guarantees on success: assertions
persist, coverage is preserved, every order extending the best ancestor is
ruled out, the bound stays finite, and the frontier only shrinks. -/
theorem containsAllCandidates_spec (vs : Votes)
    (audit : Nat → Nat → Nat → Difficulty) (winner : Nat)
    (s : SequenceAndEffort) (he : s.EntryOK vs audit winner)
    (A : List AssertionAndDifficulty) (F : List SequenceAndEffort)
    (bound : Difficulty) (A' : List AssertionAndDifficulty)
    (F' : List SequenceAndEffort) (bound' : Difficulty)
    (h : s.containsAllCandidates A F bound = .ok (A', F', bound')) :
    (∀ ad ∈ A, ad ∈ A') ∧
    (∀ τ, Covered A F τ → Covered A' F' τ) ∧
    (∀ τ, s.bestAncestor <:+ τ → RulesOut A' τ) ∧
    (bound ≠ ⊤ → bound' ≠ ⊤) ∧
    (∀ e ∈ F', e ∈ F) := by
  rw [SequenceAndEffort.containsAllCandidates] at h
  split at h
  · simp at h
  · rename_i hne
    have h2 := Except.ok.inj h
    have hA : (s.justTakeAssertion A F).1 = A' := congrArg (fun p => p.1) h2
    have hF : (s.justTakeAssertion A F).2 = F' := congrArg (fun p => p.2.1) h2
    have hb : (if bound < s.difficulty then s.difficulty else bound) = bound' :=
      congrArg (fun p => p.2.2) h2
    refine ⟨?_, ?_, ?_, ?_, ?_⟩
    · intro ad had
      rw [← hA]
      exact justTakeAssertion_A_mono s A F ad had
    · intro τ hc
      rw [← hA, ← hF]
      exact justTakeAssertion_covered vs audit winner s he hne A F τ hc
    · intro τ hsuf
      rw [← hA]
      exact justTakeAssertion_rulesOut vs audit winner s he hne A F τ hsuf
    · intro hbne
      rw [← hb]
      split
      · exact hne
      · exact hbne
    · intro e hef
      rw [← hF] at hef
      exact justTakeAssertion_F_sub s A F e hef

/-- A full order of an `N`-candidate contest contains exactly the candidate
indices. -/
theorem GoodOrder.mem_iff {N : Nat} {τ : List Nat} (h : GoodOrder N τ)
    (c : Nat) : c ∈ τ ↔ c < N := by
  rw [List.Perm.mem_iff h, List.mem_range]

/-- A suffix that is not the whole list is strictly shorter. -/
theorem suffix_proper_length {σ τ : List Nat} (h : σ <:+ τ) (hne : σ ≠ τ) :
    σ.length < τ.length := by
  rcases Nat.lt_or_ge σ.length τ.length with hl | hl
  · exact hl
  · exact absurd (List.IsSuffix.eq_of_length h (by
      have := h.length_le
      omega)) hne

/-- Setting the dive marker does not change well-formedness. -/
theorem entryOK_diveDone (vs : Votes) (audit : Nat → Nat → Nat → Difficulty)
    (winner : Nat) (e : SequenceAndEffort) (d : Option Nat)
    (he : e.EntryOK vs audit winner) :
    SequenceAndEffort.EntryOK vs audit winner
      ⟨e.pi, e.bestAssertionForAncestor, e.bestAncestorLength, d⟩ := he

/-- Once a chain head exists, the dive returns the considered entry
unchanged. -/
theorem diveLoop_someLast_x0 (vs : Votes)
    (audit : Nat → Nat → Nat → Difficulty) (bound : Difficulty) :
    ∀ (l : List Nat) (x0 le : SequenceAndEffort)
      (A : List AssertionAndDifficulty) (F : List SequenceAndEffort),
      (diveLoop vs audit bound l x0 (some le) A F).1 = x0 := by
  intro l
  induction l with
  | nil => intro x0 le A F; rfl
  | cons c rest ih =>
    intro x0 le A F
    simp only [diveLoop]
    split
    · exact ih x0 le A F
    · split
      · rfl
      · exact ih x0 _ A _

/-- What the diving phase guarantees: assertions persist, the frontier stays
well-formed, the chain head is well-formed, π of the considered entry is
unchanged, coverage is preserved, and an order the chain is responsible for
is either already covered, handed to the final `contains_all_candidates`,
or left for the expansion phase (no pending dive direction into it). -/
theorem diveLoop_spec (vs : Votes) (audit : Nat → Nat → Nat → Difficulty)
    (winner : Nat) (bound : Difficulty) (hbound : bound ≠ ⊤) :
    ∀ (l : List Nat),
      l.Nodup → (∀ x ∈ l, x < vs.numCandidates) →
    ∀ (x0 : SequenceAndEffort) (last : Option SequenceAndEffort)
      (A : List AssertionAndDifficulty) (F : List SequenceAndEffort),
      x0.EntryOK vs audit winner →
      (∀ e, last = some e → e.EntryOK vs audit winner
        ∧ x0.pi <:+ e.pi ∧ (∀ x ∈ l, x ∈ e.pi → x ∈ x0.pi)) →
      (∀ e ∈ F, e.EntryOK vs audit winner) →
      (∀ τ, GoodOrder vs.numCandidates τ → ∀ c2, x0.diveDone = some c2 →
        (c2 :: x0.pi) <:+ τ →
        (∃ le, last = some le ∧ le.pi <:+ τ) ∨ Covered A F τ) →
      ((diveLoop vs audit bound l x0 last A F).1.pi = x0.pi ∧
       (diveLoop vs audit bound l x0 last A F).1.EntryOK vs audit winner) ∧
      (∀ ad ∈ A, ad ∈ (diveLoop vs audit bound l x0 last A F).2.2.1) ∧
      (∀ e ∈ (diveLoop vs audit bound l x0 last A F).2.2.2,
        e.EntryOK vs audit winner) ∧
      (∀ e, (diveLoop vs audit bound l x0 last A F).2.1 = some e →
        e.EntryOK vs audit winner) ∧
      (∀ τ, Covered A F τ →
        Covered (diveLoop vs audit bound l x0 last A F).2.2.1
          (diveLoop vs audit bound l x0 last A F).2.2.2 τ) ∧
      (∀ τ, GoodOrder vs.numCandidates τ →
        (last.getD x0).pi <:+ τ →
        Covered (diveLoop vs audit bound l x0 last A F).2.2.1
          (diveLoop vs audit bound l x0 last A F).2.2.2 τ ∨
        (∃ le, (diveLoop vs audit bound l x0 last A F).2.1 = some le
          ∧ le.pi <:+ τ) ∨
        (∀ c2, (diveLoop vs audit bound l x0 last A F).1.diveDone = some c2 →
          ¬((c2 :: x0.pi) <:+ τ))) := by
  intro l
  induction l with
  | nil =>
    intro _ _ x0 last A F hx0 hlast hF hpend
    refine ⟨⟨rfl, hx0⟩, fun ad had => had, hF,
      fun e he => (hlast e he).1, fun τ hc => hc, ?_⟩
    intro τ hgood hsuf
    match last, hsuf, hpend with
    | some le, hsuf, _ => exact Or.inr (Or.inl ⟨le, rfl, hsuf⟩)
    | none, hsuf, hpend =>
      by_cases hdd : ∃ c2, x0.diveDone = some c2 ∧ (c2 :: x0.pi) <:+ τ
      · obtain ⟨c2, hc2, hc2suf⟩ := hdd
        rcases hpend τ hgood c2 hc2 hc2suf with ⟨le, hle, _⟩ | hcov
        · simp at hle
        · exact Or.inl hcov
      · push_neg at hdd
        exact Or.inr (Or.inr (fun c2 hc2 => hdd c2 hc2))
  | cons c rest ih =>
    intro hnd hlt x0 last A F hx0 hlast hF hpend
    have hndrest : rest.Nodup := (List.nodup_cons.mp hnd).2
    have hcrest : c ∉ rest := (List.nodup_cons.mp hnd).1
    have hltrest : ∀ x ∈ rest, x < vs.numCandidates :=
      fun x hx => hlt x (List.mem_cons_of_mem c hx)
    have hcN : c < vs.numCandidates := hlt c (List.mem_cons_self c rest)
    simp only [diveLoop]
    split
    · -- c already in π: skip
      rename_i hcpi
      exact ih hndrest hltrest x0 last A F hx0
        (fun e he => ⟨(hlast e he).1, (hlast e he).2.1,
          fun x hx => (hlast e he).2.2 x (List.mem_cons_of_mem c hx)⟩)
        hF hpend
    · rename_i hcpi
      split
      · -- a chain head exists
        rename_i l_ 
        have hl_ := hlast l_ rfl
        have hcl_ : c ∉ l_.pi := by
          intro hmem
          exact hcpi (hl_.2.2 c (List.mem_cons_self c rest) hmem)
        have hlpine : ∀ τ, GoodOrder vs.numCandidates τ → l_.pi ≠ τ := by
          intro τ hgood heq
          exact hcl_ (by rw [heq]; exact (hgood.mem_iff c).mpr hcN)
        have hl'OK : SequenceAndEffort.EntryOK vs audit winner
            { l_ with diveDone := some c } := hl_.1
        have hnsOK := extendByCandidate_entryOK vs audit winner
          { l_ with diveDone := some c } c hl'OK hcl_ hcN
        have hnspi : (({ l_ with diveDone := some c
            } : SequenceAndEffort).extendByCandidate c vs audit).pi
            = c :: l_.pi := extendByCandidate_pi _ _ _ _
        split
        · -- commit and break
          rename_i hle
          have hne : (({ l_ with diveDone := some c
              } : SequenceAndEffort).extendByCandidate c vs audit).difficulty
              ≠ ⊤ := ne_top_of_le_ne_top hbound hle
          refine ⟨⟨rfl, hx0⟩, ?_, ?_, by intro e he; simp at he, ?_, ?_⟩
          · intro ad had
            exact justTakeAssertion_A_mono _ _ _ ad had
          · intro e he
            have hin := justTakeAssertion_F_sub _ _ _ e he
            rcases List.mem_cons.mp hin with rfl | hmem
            · exact hl'OK
            · exact hF e hmem
          · intro τ hc
            refine justTakeAssertion_covered vs audit winner _ hnsOK hne _ _ τ ?_
            rcases hc with h | ⟨e, heF, hsuf2, hlen2⟩
            · exact Or.inl h
            · exact Or.inr ⟨e, List.mem_cons_of_mem _ heF, hsuf2, hlen2⟩
          · intro τ hgood hsuf
            by_cases hcc : (c :: l_.pi) <:+ τ
            · left
              refine Or.inl (justTakeAssertion_rulesOut vs audit winner _
                hnsOK hne _ _ τ ?_)
              have hba := bestAncestor_facts vs audit winner _ hnsOK
              refine hba.2.2.trans ?_
              rw [hnspi]
              exact hcc
            · left
              refine justTakeAssertion_covered vs audit winner _ hnsOK hne _ _ τ
                (Or.inr ⟨{ l_ with diveDone := some c },
                  List.mem_cons_self _ _, hsuf, ?_, ?_⟩)
              · exact suffix_proper_length hsuf (hlpine τ hgood)
              · intro c2 hc2
                have hc2e : c = c2 := Option.some.inj hc2
                rw [← hc2e]
                exact hcc
        · -- extend the chain and recurse
          rename_i hgt
          have hrec := ih hndrest hltrest x0
            (some (({ l_ with diveDone := some c
              } : SequenceAndEffort).extendByCandidate c vs audit))
            A ({ l_ with diveDone := some c } :: F) hx0
            (by
              intro e he
              have he2 := Option.some.inj he
              refine ⟨he2 ▸ hnsOK, ?_, ?_⟩
              · rw [← he2, hnspi]
                exact hl_.2.1.trans (List.suffix_cons _ _)
              · intro x hx hxe
                rw [← he2, hnspi] at hxe
                rcases List.mem_cons.mp hxe with rfl | hxl
                · exact absurd hx hcrest
                · exact hl_.2.2 x (List.mem_cons_of_mem c hx) hxl)
            (by
              intro e he
              rcases List.mem_cons.mp he with rfl | hmem
              · exact hl'OK
              · exact hF e hmem)
            (by
              intro τ hgood c2 hc2 hc2suf
              rcases hpend τ hgood c2 hc2 hc2suf with ⟨le, hle, hlesuf⟩ | hcov
              · have hle2 := Option.some.inj hle
                rw [← hle2] at hlesuf
                by_cases hcc : (c :: l_.pi) <:+ τ
                · exact Or.inl ⟨_, rfl, by rw [hnspi]; exact hcc⟩
                · refine Or.inr (Or.inr ⟨{ l_ with diveDone := some c },
                    List.mem_cons_self _ _, hlesuf, ?_, ?_⟩)
                  · exact suffix_proper_length hlesuf (hlpine τ hgood)
                  · intro c2 hc2
                    have hc2e : c = c2 := Option.some.inj hc2
                    rw [← hc2e]
                    exact hcc
              · rcases hcov with h | ⟨e, heF, hs, hl2⟩
                · exact Or.inr (Or.inl h)
                · exact Or.inr (Or.inr ⟨e, List.mem_cons_of_mem _ heF, hs, hl2⟩))
          refine ⟨hrec.1, hrec.2.1, hrec.2.2.1, hrec.2.2.2.1, ?_, ?_⟩
          · intro τ hc
            refine hrec.2.2.2.2.1 τ ?_
            rcases hc with h | ⟨e, heF, hs, hl2⟩
            · exact Or.inl h
            · exact Or.inr ⟨e, List.mem_cons_of_mem _ heF, hs, hl2⟩
          · intro τ hgood hsuf
            by_cases hcc : (c :: l_.pi) <:+ τ
            · refine hrec.2.2.2.2.2 τ hgood ?_
              show (({ l_ with diveDone := some c
                } : SequenceAndEffort).extendByCandidate c vs audit).pi <:+ τ
              rw [hnspi]
              exact hcc
            · left
              refine hrec.2.2.2.2.1 τ
                (Or.inr ⟨{ l_ with diveDone := some c },
                  List.mem_cons_self _ _, hsuf, ?_, ?_⟩)
              · exact suffix_proper_length hsuf (hlpine τ hgood)
              · intro c2 hc2
                have hc2e : c = c2 := Option.some.inj hc2
                rw [← hc2e]
                exact hcc
      · -- no chain head yet: x0 becomes the head
        have hx0pine : ∀ τ, GoodOrder vs.numCandidates τ → x0.pi ≠ τ := by
          intro τ hgood heq
          exact hcpi (by rw [heq]; exact (hgood.mem_iff c).mpr hcN)
        have hx0'OK : SequenceAndEffort.EntryOK vs audit winner
            { x0 with diveDone := some c } := hx0
        have hnsOK := extendByCandidate_entryOK vs audit winner
          { x0 with diveDone := some c } c hx0'OK hcpi hcN
        have hnspi : (({ x0 with diveDone := some c
            } : SequenceAndEffort).extendByCandidate c vs audit).pi
            = c :: x0.pi := extendByCandidate_pi _ _ _ _
        split
        · -- commit and break
          rename_i hle
          have hne : (({ x0 with diveDone := some c
              } : SequenceAndEffort).extendByCandidate c vs audit).difficulty
              ≠ ⊤ := ne_top_of_le_ne_top hbound hle
          refine ⟨⟨rfl, hx0⟩, ?_, ?_, by intro e he; simp at he, ?_, ?_⟩
          · intro ad had
            exact justTakeAssertion_A_mono _ _ _ ad had
          · intro e he
            exact hF e (justTakeAssertion_F_sub _ _ _ e he)
          · intro τ hc
            exact justTakeAssertion_covered vs audit winner _ hnsOK hne _ _ τ hc
          · intro τ hgood hsuf
            by_cases hold : ∃ c2, x0.diveDone = some c2 ∧ (c2 :: x0.pi) <:+ τ
            · obtain ⟨c2, hc2, hc2suf⟩ := hold
              rcases hpend τ hgood c2 hc2 hc2suf with ⟨le, hle2, _⟩ | hcov
              · simp at hle2
              · exact Or.inl
                  (justTakeAssertion_covered vs audit winner _ hnsOK hne _ _ τ hcov)
            · by_cases hcc : (c :: x0.pi) <:+ τ
              · left
                refine Or.inl (justTakeAssertion_rulesOut vs audit winner _
                  hnsOK hne _ _ τ ?_)
                have hba := bestAncestor_facts vs audit winner _ hnsOK
                refine hba.2.2.trans ?_
                rw [hnspi]
                exact hcc
              · refine Or.inr (Or.inr ?_)
                intro c2 hc2
                have hc2e : c = c2 := Option.some.inj hc2
                rw [← hc2e]
                exact hcc
        · -- extend the chain and recurse
          rename_i hgt
          have hrec := ih hndrest hltrest { x0 with diveDone := some c }
            (some (({ x0 with diveDone := some c
              } : SequenceAndEffort).extendByCandidate c vs audit))
            A F hx0'OK
            (by
              intro e he
              have he2 := Option.some.inj he
              refine ⟨he2 ▸ hnsOK, ?_, ?_⟩
              · rw [← he2, hnspi]
                exact List.suffix_cons _ _
              · intro x hx hxe
                rw [← he2, hnspi] at hxe
                rcases List.mem_cons.mp hxe with rfl | hxl
                · exact absurd hx hcrest
                · exact hxl)
            hF
            (by
              intro τ hgood c2 hc2 hc2suf
              have hc2e : c = c2 := Option.some.inj hc2
              refine Or.inl ⟨_, rfl, ?_⟩
              rw [hnspi, hc2e]
              exact hc2suf)
          refine ⟨⟨hrec.1.1, hrec.1.2⟩, hrec.2.1, hrec.2.2.1,
            hrec.2.2.2.1, hrec.2.2.2.2.1, ?_⟩
          intro τ hgood hsuf
          by_cases hold : ∃ c2, x0.diveDone = some c2 ∧ (c2 :: x0.pi) <:+ τ
          · obtain ⟨c2, hc2, hc2suf⟩ := hold
            rcases hpend τ hgood c2 hc2 hc2suf with ⟨le, hle2, _⟩ | hcov
            · simp at hle2
            · exact Or.inl (hrec.2.2.2.2.1 τ hcov)
          · by_cases hcc : (c :: x0.pi) <:+ τ
            · have := hrec.2.2.2.2.2 τ hgood (by
                show (({ x0 with diveDone := some c
                  } : SequenceAndEffort).extendByCandidate c vs audit).pi <:+ τ
                rw [hnspi]
                exact hcc)
              exact this
            · refine Or.inr (Or.inr ?_)
              intro c2 hc2
              have hx0out := diveLoop_someLast_x0 vs audit bound rest
                { x0 with diveDone := some c }
                (({ x0 with diveDone := some c
                  } : SequenceAndEffort).extendByCandidate c vs audit) A F
              rw [hx0out] at hc2
              have hc2e : c = c2 := Option.some.inj hc2
              rw [← hc2e]
              exact hcc

/-- A full order of an `N`-candidate contest has length `N` and no
duplicates. -/
theorem GoodOrder.facts {N : Nat} {τ : List Nat} (h : GoodOrder N τ) :
    τ.length = N ∧ τ.Nodup := by
  constructor
  · rw [List.Perm.length_eq h, List.length_range]
  · exact (List.Perm.nodup_iff h).mpr (List.nodup_range N)

/-- What the expansion loop guarantees: assertions persist, the frontier
stays well-formed, the bound stays finite, coverage is preserved, and every
order one loop candidate deeper than the considered entry ends covered
(unless that candidate was the dive direction). -/
theorem expandLoop_spec (vs : Votes) (audit : Nat → Nat → Nat → Difficulty)
    (winner : Nat) (e : SequenceAndEffort)
    (he : e.EntryOK vs audit winner) :
    ∀ (l : List Nat), (∀ x ∈ l, x < vs.numCandidates) →
    ∀ (A : List AssertionAndDifficulty) (F : List SequenceAndEffort)
      (bound : Difficulty) (A' : List AssertionAndDifficulty)
      (F' : List SequenceAndEffort) (bound' : Difficulty),
      bound ≠ ⊤ →
      (∀ e2 ∈ F, e2.EntryOK vs audit winner) →
      expandLoop vs audit e l A F bound = .ok (A', F', bound') →
      (∀ ad ∈ A, ad ∈ A') ∧
      (∀ e2 ∈ F', e2.EntryOK vs audit winner) ∧
      bound' ≠ ⊤ ∧
      (∀ τ, Covered A F τ → Covered A' F' τ) ∧
      (∀ τ c, GoodOrder vs.numCandidates τ → (c :: e.pi) <:+ τ → c ∈ l →
        e.diveDone ≠ some c → Covered A' F' τ) := by
  intro l
  induction l with
  | nil =>
    intro _ A F bound A' F' bound' hb hF h
    rw [expandLoop] at h
    have h2 := Except.ok.inj h
    have hA : A = A' := congrArg (fun p => p.1) h2
    have hFe : F = F' := congrArg (fun p => p.2.1) h2
    have hbe : bound = bound' := congrArg (fun p => p.2.2) h2
    exact ⟨fun ad had => hA ▸ had, hFe ▸ hF, hbe ▸ hb,
      fun τ hc => hA ▸ hFe ▸ hc, fun τ c _ _ hmem => by simp at hmem⟩
  | cons c0 rest ih =>
    intro hlt A F bound A' F' bound' hb hF h
    have hltrest : ∀ x ∈ rest, x < vs.numCandidates :=
      fun x hx => hlt x (List.mem_cons_of_mem c0 hx)
    simp only [expandLoop] at h
    split at h
    · -- c0 skipped
      rename_i hskip
      have hrec := ih hltrest A F bound A' F' bound' hb hF h
      refine ⟨hrec.1, hrec.2.1, hrec.2.2.1, hrec.2.2.2.1, ?_⟩
      intro τ c hgood hsuf hmem hdd
      rcases List.mem_cons.mp hmem with rfl | hmemr
      · -- the skipped candidate cannot be τ's next step
        exfalso
        have hnd : (c :: e.pi).Nodup :=
          (hgood.facts.2).sublist hsuf.sublist
        rcases hskip with hskip | hskip
        · exact (List.nodup_cons.mp hnd).1 hskip
        · exact hdd hskip
      · exact hrec.2.2.2.2 τ c hgood hsuf hmemr hdd
    · rename_i hskip
      push_neg at hskip
      have hc0pi : c0 ∉ e.pi := hskip.1
      have hc0N : c0 < vs.numCandidates := hlt c0 (List.mem_cons_self c0 rest)
      have hnsOK := extendByCandidate_entryOK vs audit winner e c0 he hc0pi hc0N
      have hnspi : (e.extendByCandidate c0 vs audit).pi = c0 :: e.pi :=
        extendByCandidate_pi _ _ _ _
      split at h
      · -- full length: commit through contains_all_candidates
        split at h
        · simp at h
        · rename_i a f b hcac
          have hspec := containsAllCandidates_spec vs audit winner _ hnsOK
            A F bound a f b hcac
          have hrec := ih hltrest a f b A' F' bound' (hspec.2.2.2.1 hb)
            (fun e2 he2 => hF e2 (hspec.2.2.2.2 e2 he2)) h
          refine ⟨?_, hrec.2.1, hrec.2.2.1, ?_, ?_⟩
          · intro ad had
            exact hrec.1 ad (hspec.1 ad had)
          · intro τ hc
            exact hrec.2.2.2.1 τ (hspec.2.1 τ hc)
          · intro τ c hgood hsuf hmem hdd
            rcases List.mem_cons.mp hmem with rfl | hmemr
            · refine hrec.2.2.2.1 τ (Or.inl (hspec.2.2.1 τ ?_))
              have hba := bestAncestor_facts vs audit winner _ hnsOK
              refine hba.2.2.trans ?_
              rw [hnspi]
              exact hsuf
            · exact hrec.2.2.2.2 τ c hgood hsuf hmemr hdd
      · -- push the extension on the frontier
        rename_i hnful
        have hrec := ih hltrest A (e.extendByCandidate c0 vs audit :: F)
          bound A' F' bound' hb
          (fun e2 he2 => by
            rcases List.mem_cons.mp he2 with rfl | hmem
            · exact hnsOK
            · exact hF e2 hmem) h
        refine ⟨hrec.1, hrec.2.1, hrec.2.2.1, ?_, ?_⟩
        · intro τ hc
          refine hrec.2.2.2.1 τ ?_
          rcases hc with hc | ⟨e2, he2, hs, hl2⟩
          · exact Or.inl hc
          · exact Or.inr ⟨e2, List.mem_cons_of_mem _ he2, hs, hl2⟩
        · intro τ c hgood hsuf hmem hdd
          rcases List.mem_cons.mp hmem with rfl | hmemr
          · refine hrec.2.2.2.1 τ
              (Or.inr ⟨e.extendByCandidate c vs audit,
                List.mem_cons_self _ _, by rw [hnspi]; exact hsuf, ?_, ?_⟩)
            · have hlen : (e.extendByCandidate c vs audit).pi.length
                  ≤ τ.length := (by rw [hnspi]; exact hsuf.sublist.length_le)
              have hne2 : (e.extendByCandidate c vs audit).pi.length
                  ≠ τ.length := by
                rw [hgood.facts.1]
                exact hnful
              omega
            · intro c2 hc2
              rw [extendByCandidate_diveDone] at hc2
              simp at hc2
          · exact hrec.2.2.2.2 τ c hgood hsuf hmemr hdd

/-- An empty pop means an empty frontier. -/
theorem popMax_eq_none : ∀ F : List SequenceAndEffort, popMax F = none → F = [] := by
  intro F h
  match F with
  | [] => rfl
  | e :: rest =>
    rw [popMax] at h
    split at h
    · simp at h
    · split at h
      · simp at h
      · simp at h

/-- The popped entry comes from the frontier, and the remainder is the
frontier minus that entry. -/
theorem popMax_spec : ∀ (F : List SequenceAndEffort)
    (m : SequenceAndEffort) (others : List SequenceAndEffort),
    popMax F = some (m, others) →
    m ∈ F ∧ (∀ x ∈ F, x = m ∨ x ∈ others) ∧ (∀ x ∈ others, x ∈ F) := by
  intro F
  induction F with
  | nil => intro m others h; simp [popMax] at h
  | cons e rest ih =>
    intro m others h
    rw [popMax] at h
    split at h
    · rename_i heq
      have hrest := popMax_eq_none rest heq
      have h2 := Option.some.inj h
      have hm : e = m := congrArg (fun p => p.1) h2
      have ho : ([] : List SequenceAndEffort) = others :=
        congrArg (fun p => p.2) h2
      subst hrest
      refine ⟨hm ▸ List.mem_cons_self e [], ?_, ?_⟩
      · intro x hx
        rcases List.mem_cons.mp hx with rfl | hx2
        · exact Or.inl hm
        · simp at hx2
      · intro x hx
        rw [← ho] at hx
        simp at hx
    · rename_i m0 others0 heq
      have hih := ih m0 others0 heq
      split at h
      · have h2 := Option.some.inj h
        have hm : m0 = m := congrArg (fun p => p.1) h2
        have ho : e :: others0 = others := congrArg (fun p => p.2) h2
        refine ⟨hm ▸ List.mem_cons_of_mem e hih.1, ?_, ?_⟩
        · intro x hx
          rcases List.mem_cons.mp hx with rfl | hx2
          · exact Or.inr (ho ▸ List.mem_cons_self x others0)
          · rcases hih.2.1 x hx2 with rfl | hx3
            · exact Or.inl hm
            · exact Or.inr (ho ▸ List.mem_cons_of_mem e hx3)
        · intro x hx
          rw [← ho] at hx
          rcases List.mem_cons.mp hx with rfl | hx2
          · exact List.mem_cons_self x rest
          · exact List.mem_cons_of_mem e (hih.2.2 x hx2)
      · have h2 := Option.some.inj h
        have hm : e = m := congrArg (fun p => p.1) h2
        have ho : rest = others := congrArg (fun p => p.2) h2
        refine ⟨hm ▸ List.mem_cons_self e rest, ?_, ?_⟩
        · intro x hx
          rcases List.mem_cons.mp hx with rfl | hx2
          · exact Or.inl hm
          · exact Or.inr (ho ▸ hx2)
        · intro x hx
          exact List.mem_cons_of_mem e (ho ▸ hx)

/-- A proper suffix extends by one more candidate. -/
theorem suffix_extend {σ τ : List Nat} (h : σ <:+ τ)
    (hlen : σ.length < τ.length) : ∃ c, (c :: σ) <:+ τ := by
  obtain ⟨ρ, hρ⟩ := h
  match ρ, hρ with
  | [], hρ => rw [← hρ] at hlen; simp at hlen
  | ρ, hρ =>
    rcases List.eq_nil_or_concat ρ with rfl | ⟨ρ2, c, rfl⟩
    · rw [← hρ] at hlen; simp at hlen
    · exact ⟨c, ρ2, by rw [← hρ]; simp⟩

/-- The search loop turns full coverage of an elimination order (committed
contradiction or frontier-pending witness) into a committed contradiction by
the time it terminates. -/
theorem raireLoop_covers (vs : Votes) (audit : Nat → Nat → Nat → Difficulty)
    (winner : Nat) (irvOrder : List Nat)
    (hirvND : irvOrder.Nodup) (hirvN : ∀ x ∈ irvOrder, x < vs.numCandidates) :
    ∀ (fuel : Nat) (A : List AssertionAndDifficulty) (bound : Difficulty)
      (F : List SequenceAndEffort) (out : List AssertionAndDifficulty)
      (d : Difficulty),
      bound ≠ ⊤ →
      (∀ e ∈ F, e.EntryOK vs audit winner) →
      raireLoop vs audit irvOrder fuel A bound F = some (.ok (out, d)) →
      ∀ τ, GoodOrder vs.numCandidates τ → Covered A F τ → RulesOut out τ := by
  intro fuel
  induction fuel with
  | zero =>
    intro A bound F out d hb hF heq
    simp only [raireLoop] at heq
    simp at heq
  | succ fuel ih =>
    intro A bound F out d hb hF heq τ hgood hc
    simp only [raireLoop] at heq
    split at heq
    · -- empty frontier: the loop returns the committed assertions
      rename_i hpop
      have hFe := popMax_eq_none F hpop
      have h2 := Except.ok.inj (Option.some.inj heq)
      have h3 : A = out := congrArg (fun p => p.1) h2
      rcases hc with h | ⟨e, heF, _⟩
      · exact h3 ▸ h
      · rw [hFe] at heF
        simp at heF
    · rename_i s rest2 hpop
      have hps := popMax_spec F s rest2 hpop
      have hsOK := hF s hps.1
      have hrestOK : ∀ e ∈ rest2, e.EntryOK vs audit winner :=
        fun e he => hF e (hps.2.2 e he)
      split at heq
      · -- cheap enough: commit the popped entry outright
        rename_i hle
        have hne : s.difficulty ≠ ⊤ := ne_top_of_le_ne_top hb hle
        refine ih _ _ _ _ _ hb
          (fun e2 he2 => hrestOK e2 (justTakeAssertion_F_sub _ _ _ e2 he2))
          heq τ hgood ?_
        rcases hc with h | ⟨e, heF, hs2, hl2, hp2⟩
        · exact justTakeAssertion_covered vs audit winner s hsOK hne A rest2 τ
            (Or.inl h)
        · rcases hps.2.1 e heF with rfl | hrest
          · exact Or.inl (justTakeAssertion_rulesOut vs audit winner e hsOK hne
              A rest2 τ
              ((bestAncestor_facts vs audit winner e hsOK).2.2.trans hs2))
          · exact justTakeAssertion_covered vs audit winner s hsOK hne A rest2 τ
              (Or.inr ⟨e, hrest, hs2, hl2, hp2⟩)
      · -- too hard: dive, then expand
        split at heq
        · simp at heq
        · rename_i e2 A2 F2 b2 heqad
          -- the state handed to the expansion phase keeps all invariants,
          -- and τ is either already covered or waiting on the expansion
          have key : b2 ≠ ⊤ ∧ (∀ e3 ∈ F2, e3.EntryOK vs audit winner) ∧
              e2.EntryOK vs audit winner ∧ e2.pi = s.pi ∧
              (Covered A2 F2 τ ∨
                (s.pi <:+ τ ∧ s.pi.length < τ.length ∧
                  ∀ c2, e2.diveDone = some c2 → ¬((c2 :: s.pi) <:+ τ))) := by
            split at heqad
            · rename_i hdd
              have hsdd : s.diveDone = none := by
                have h2 := hdd
                simp only [Bool.and_eq_true] at h2
                exact Option.isNone_iff_eq_none.mp h2.2
              have hdspec := diveLoop_spec vs audit winner bound hb
                irvOrder.reverse (List.nodup_reverse.mpr hirvND)
                (fun x hx => hirvN x (List.mem_reverse.mp hx))
                s none A rest2 hsOK
                (by intro e he; simp at he)
                hrestOK
                (by intro τ2 _ c2 hc2 _; rw [hsdd] at hc2; simp at hc2)
              split at heqad
              · -- the dive ended with a chain head, committed by
                -- `contains_all_candidates`
                rename_i x1 last A3 F3 heqdive
                rw [heqdive] at hdspec
                split at heqad
                · simp at heqad
                · rename_i a3 f3 b3 hcac
                  have h4 := Except.ok.inj heqad
                  have he2 : x1 = e2 := congrArg (fun p => p.1) h4
                  have hA2e : a3 = A2 := congrArg (fun p => p.2.1) h4
                  have hF2e : f3 = F2 := congrArg (fun p => p.2.2.1) h4
                  have hb2e : b3 = b2 := congrArg (fun p => p.2.2.2) h4
                  subst he2 hA2e hF2e hb2e
                  have hlastOK : last.EntryOK vs audit winner :=
                    hdspec.2.2.2.1 last rfl
                  have hcacspec := containsAllCandidates_spec vs audit winner
                    last hlastOK A3 F3 bound a3 f3 b3 hcac
                  refine ⟨hcacspec.2.2.2.1 hb,
                    fun e3 he3 => hdspec.2.2.1 e3 (hcacspec.2.2.2.2 e3 he3),
                    hdspec.1.2, hdspec.1.1, ?_⟩
                  rcases hc with h | ⟨e, heF, hs2, hl2, hp2⟩
                  · exact Or.inl (hcacspec.2.1 τ (hdspec.2.2.2.2.1 τ (Or.inl h)))
                  · rcases hps.2.1 e heF with rfl | hrest
                    · rcases hdspec.2.2.2.2.2 τ hgood hs2 with
                        h | ⟨le, hle, hlesuf⟩ | hpend
                      · exact Or.inl (hcacspec.2.1 τ h)
                      · have hle2 : last = le := Option.some.inj hle
                        refine Or.inl (Or.inl (hcacspec.2.2.1 τ ?_))
                        exact ((bestAncestor_facts vs audit winner last
                          hlastOK).2.2).trans (hle2 ▸ hlesuf)
                      · exact Or.inr ⟨hs2, hl2, hpend⟩
                    · exact Or.inl (hcacspec.2.1 τ (hdspec.2.2.2.2.1 τ
                        (Or.inr ⟨e, hrest, hs2, hl2, hp2⟩)))
              · -- the dive ended without a chain head (a commit broke it)
                rename_i x1 A3 F3 heqdive
                rw [heqdive] at hdspec
                have h4 := Except.ok.inj heqad
                have he2 : x1 = e2 := congrArg (fun p => p.1) h4
                have hA2e : A3 = A2 := congrArg (fun p => p.2.1) h4
                have hF2e : F3 = F2 := congrArg (fun p => p.2.2.1) h4
                have hb2e : bound = b2 := congrArg (fun p => p.2.2.2) h4
                subst he2 hA2e hF2e
                refine ⟨hb2e ▸ hb, hdspec.2.2.1, hdspec.1.2, hdspec.1.1, ?_⟩
                rcases hc with h | ⟨e, heF, hs2, hl2, hp2⟩
                · exact Or.inl (hdspec.2.2.2.2.1 τ (Or.inl h))
                · rcases hps.2.1 e heF with rfl | hrest
                  · rcases hdspec.2.2.2.2.2 τ hgood hs2 with
                      h | ⟨le, hle, _⟩ | hpend
                    · exact Or.inl h
                    · simp at hle
                    · exact Or.inr ⟨hs2, hl2, hpend⟩
                  · exact Or.inl (hdspec.2.2.2.2.1 τ
                      (Or.inr ⟨e, hrest, hs2, hl2, hp2⟩))
            · -- no dive: the popped entry goes straight to the expansion
              have h4 := Except.ok.inj heqad
              have he2 : s = e2 := congrArg (fun p => p.1) h4
              have hA2e : A = A2 := congrArg (fun p => p.2.1) h4
              have hF2e : rest2 = F2 := congrArg (fun p => p.2.2.1) h4
              have hb2e : bound = b2 := congrArg (fun p => p.2.2.2) h4
              subst he2 hA2e hF2e
              refine ⟨hb2e ▸ hb, hrestOK, hsOK, rfl, ?_⟩
              rcases hc with h | ⟨e, heF, hs2, hl2, hp2⟩
              · exact Or.inl (Or.inl h)
              · rcases hps.2.1 e heF with rfl | hrest
                · exact Or.inr ⟨hs2, hl2, hp2⟩
                · exact Or.inl (Or.inr ⟨e, hrest, hs2, hl2, hp2⟩)
          split at heq
          · simp at heq
          · rename_i A3f F3f b3f hexp
            have hespec := expandLoop_spec vs audit winner e2 key.2.2.1
              (List.range vs.numCandidates)
              (fun x hx => List.mem_range.mp hx)
              A2 F2 b2 A3f F3f b3f key.1 key.2.1 hexp
            refine ih _ _ _ _ _ hespec.2.2.1 hespec.2.1 heq τ hgood ?_
            rcases key.2.2.2.2 with hcov | ⟨hsuf, hlen, hpend⟩
            · exact hespec.2.2.2.1 τ hcov
            · obtain ⟨c, hcsuf⟩ := suffix_extend hsuf hlen
              have hcN : c < vs.numCandidates :=
                (hgood.mem_iff c).mp (hcsuf.sublist.subset
                  (List.mem_cons_self c s.pi))
              refine hespec.2.2.2.2 τ c hgood ?_ (List.mem_range.mpr hcN) ?_
              · rw [key.2.2.2.1]
                exact hcsuf
              · intro hdd
                exact hpend c hdd hcsuf

/-! ### Structural sanity (`AOK`) of the assertions committed by the search -/

/-- Any NEB selected by the cached search pairs two candidate indices. -/
theorem findBestAssertionUsingCache_lt (c : Nat) (laterInPi : List Nat)
    (vs : Votes) (audit : Nat → Nat → Nat → Difficulty)
    (hc : c < vs.numCandidates) (ad : AssertionAndDifficulty)
    (h : NotEliminatedBefore.findBestAssertionUsingCache c laterInPi vs audit
      = some ad) :
    ∃ contest : NotEliminatedBefore, ad.assertion = .NEB contest ∧
      contest.winner < vs.numCandidates ∧ contest.loser < vs.numCandidates := by
  simp only [NotEliminatedBefore.findBestAssertionUsingCache] at h
  have hP : ∀ (l : List Nat) (init : Difficulty × Option NotEliminatedBefore),
      (∀ x ∈ l, x < vs.numCandidates) →
      (∀ contest, init.2 = some contest →
        contest.winner < vs.numCandidates ∧ contest.loser < vs.numCandidates) →
      ∀ contest,
        (l.foldl (fun (best : Difficulty × Option NotEliminatedBefore) altC =>
          if altC = c then best else
          if nebCacheDifficulty vs audit
              (if altC ∈ laterInPi then ⟨c, altC⟩ else ⟨altC, c⟩) < best.1 then
            (nebCacheDifficulty vs audit
              (if altC ∈ laterInPi then ⟨c, altC⟩ else ⟨altC, c⟩),
             some (if altC ∈ laterInPi then ⟨c, altC⟩ else ⟨altC, c⟩))
          else best) init).2 = some contest →
        contest.winner < vs.numCandidates ∧ contest.loser < vs.numCandidates := by
    intro l
    induction l with
    | nil => intro init _ hinit contest hco; exact hinit contest hco
    | cons altC rest ih =>
      intro init hl hinit contest
      have haltC : altC < vs.numCandidates := hl altC (List.mem_cons_self _ _)
      rw [List.foldl_cons]
      apply ih _ (fun x hx => hl x (List.mem_cons_of_mem _ hx))
      intro contest2 hc2
      split at hc2
      · exact hinit contest2 hc2
      · split at hc2
        · split at hc2
          · have := Option.some.inj hc2
            rw [← this]
            exact ⟨hc, haltC⟩
          · exact hinit contest2 hc2
        · split at hc2
          · have := Option.some.inj hc2
            rw [← this]
            exact ⟨haltC, hc⟩
          · exact hinit contest2 hc2
  split at h
  · rename_i contest heq
    have h2 := Option.some.inj h
    refine ⟨contest, by rw [← h2], ?_⟩
    exact hP _ _ (fun x hx => List.mem_range.mp hx)
      (by intro contest hco; simp at hco) contest heq
  · simp at h

/-- The best audit of a well-formed suffix is structurally sane. -/
theorem findBestAudit_AOK (vs : Votes) (audit : Nat → Nat → Nat → Difficulty)
    (pi : List Nat) (hnd : pi.Nodup) (hpi : pi ≠ [])
    (hb : ∀ x ∈ pi, x < vs.numCandidates) :
    (findBestAudit pi vs audit).assertion.AOK vs.numCandidates := by
  match pi, hpi with
  | c :: rest, _ =>
  have hcN : c < vs.numCandidates := hb c (List.mem_cons_self _ _)
  have hnen : ∀ ad : AssertionAndDifficulty,
      NotEliminatedNext.findBestDifficulty vs audit (c :: rest) c = some ad →
      ad.assertion.AOK vs.numCandidates := by
    intro ad had
    obtain ⟨loser, hshape⟩ := findBestDifficulty_shape _ _ _ _ _ had
    rw [hshape]
    refine ⟨insertionSort_sorted_lt _ hnd, ?_⟩
    intro x hx
    exact hb x ((List.perm_insertionSort _ _).mem_iff.mp hx)
  have hneb : ∀ ad : AssertionAndDifficulty,
      NotEliminatedBefore.findBestAssertionUsingCache c rest vs audit
        = some ad →
      ad.assertion.AOK vs.numCandidates := by
    intro ad had
    obtain ⟨contest, hshape, hw, _⟩ :=
      findBestAssertionUsingCache_lt c rest vs audit hcN ad had
    rw [hshape]
    exact hw
  have hdef : (Assertion.NEB ⟨c, c⟩).AOK vs.numCandidates := hcN
  rcases hNn : NotEliminatedNext.findBestDifficulty vs audit (c :: rest) c
    with _ | adNEN
  · rcases hB : NotEliminatedBefore.findBestAssertionUsingCache c rest vs audit
      with _ | adNEB
    · simp only [findBestAudit, hNn, hB]
      exact hdef
    · simp only [findBestAudit, hNn, hB]
      split
      · exact hneb _ hB
      · exact hdef
  · rcases hB : NotEliminatedBefore.findBestAssertionUsingCache c rest vs audit
      with _ | adNEB
    · simp only [findBestAudit, hNn, hB]
      split
      · exact hnen _ hNn
      · exact hdef
    · simp only [findBestAudit, hNn, hB]
      split
      · split
        · exact hnen _ hNn
        · exact hneb _ hB
      · split
        · exact hnen _ hNn
        · exact hdef

/-- Assertions committed through `just_take_assertion` by a well-formed
entry are structurally sane. -/
theorem justTakeAssertion_AOK (vs : Votes)
    (audit : Nat → Nat → Nat → Difficulty) (winner : Nat)
    (s : SequenceAndEffort) (hs : s.EntryOK vs audit winner)
    (A : List AssertionAndDifficulty) (F : List SequenceAndEffort)
    (hA : ∀ ad ∈ A, ad.assertion.AOK vs.numCandidates) :
    ∀ ad ∈ (s.justTakeAssertion A F).1, ad.assertion.AOK vs.numCandidates := by
  intro ad had
  rw [SequenceAndEffort.justTakeAssertion] at had
  split at had
  · exact hA ad had
  · rcases List.mem_append.mp had with h | h
    · exact hA ad h
    · have hba := bestAncestor_facts vs audit winner s hs
      have heq : ad = s.bestAssertionForAncestor := by simpa using h
      rw [heq, hs.2.2.2.2.2.1]
      exact findBestAudit_AOK vs audit s.bestAncestor hba.2.1 hba.1
        (fun x hx => hs.2.2.1 x (hba.2.2.sublist.mem hx))

/-- Assertions committed through `contains_all_candidates` by a well-formed
entry are structurally sane. -/
theorem containsAllCandidates_AOK (vs : Votes)
    (audit : Nat → Nat → Nat → Difficulty) (winner : Nat)
    (s : SequenceAndEffort) (hs : s.EntryOK vs audit winner)
    (A : List AssertionAndDifficulty) (F : List SequenceAndEffort)
    (bound : Difficulty) (A' : List AssertionAndDifficulty)
    (F' : List SequenceAndEffort) (bound' : Difficulty)
    (h : s.containsAllCandidates A F bound = .ok (A', F', bound'))
    (hA : ∀ ad ∈ A, ad.assertion.AOK vs.numCandidates) :
    ∀ ad ∈ A', ad.assertion.AOK vs.numCandidates := by
  rw [SequenceAndEffort.containsAllCandidates] at h
  split at h
  · simp at h
  · have h2 := Except.ok.inj h
    have hAe : (s.justTakeAssertion A F).1 = A' := congrArg (fun p => p.1) h2
    rw [← hAe]
    exact justTakeAssertion_AOK vs audit winner s hs A F hA

/-- Assertions committed during the diving phase are structurally sane. -/
theorem diveLoop_AOK (vs : Votes) (audit : Nat → Nat → Nat → Difficulty)
    (winner : Nat) (bound : Difficulty) :
    ∀ (l : List Nat), l.Nodup → (∀ x ∈ l, x < vs.numCandidates) →
    ∀ (x0 : SequenceAndEffort) (last : Option SequenceAndEffort)
      (A : List AssertionAndDifficulty) (F : List SequenceAndEffort),
      x0.EntryOK vs audit winner →
      (∀ e, last = some e → e.EntryOK vs audit winner
        ∧ x0.pi <:+ e.pi ∧ (∀ x ∈ l, x ∈ e.pi → x ∈ x0.pi)) →
      (∀ ad ∈ A, ad.assertion.AOK vs.numCandidates) →
      ∀ ad ∈ (diveLoop vs audit bound l x0 last A F).2.2.1,
        ad.assertion.AOK vs.numCandidates := by
  intro l
  induction l with
  | nil => intro _ _ x0 last A F _ _ hA; exact hA
  | cons c rest ih =>
    intro hnd hlt x0 last A F hx0 hlast hA
    have hndrest : rest.Nodup := (List.nodup_cons.mp hnd).2
    have hcrest : c ∉ rest := (List.nodup_cons.mp hnd).1
    have hltrest : ∀ x ∈ rest, x < vs.numCandidates :=
      fun x hx => hlt x (List.mem_cons_of_mem c hx)
    have hcN : c < vs.numCandidates := hlt c (List.mem_cons_self c rest)
    simp only [diveLoop]
    split
    · exact ih hndrest hltrest x0 last A F hx0
        (fun e he => ⟨(hlast e he).1, (hlast e he).2.1,
          fun x hx => (hlast e he).2.2 x (List.mem_cons_of_mem c hx)⟩) hA
    · rename_i hcpi
      split
      · rename_i l_ 
        have hl_ := hlast l_ rfl
        have hcl_ : c ∉ l_.pi := by
          intro hmem
          exact hcpi (hl_.2.2 c (List.mem_cons_self c rest) hmem)
        have hl'OK : SequenceAndEffort.EntryOK vs audit winner
            { l_ with diveDone := some c } := hl_.1
        have hnsOK := extendByCandidate_entryOK vs audit winner
          { l_ with diveDone := some c } c hl'OK hcl_ hcN
        have hnspi : (({ l_ with diveDone := some c
            } : SequenceAndEffort).extendByCandidate c vs audit).pi
            = c :: l_.pi := extendByCandidate_pi _ _ _ _
        split
        · exact justTakeAssertion_AOK vs audit winner _ hnsOK A _ hA
        · refine ih hndrest hltrest x0 (some _) A _ hx0 ?_ hA
          intro e he
          have heq := Option.some.inj he
          rw [← heq]
          refine ⟨hnsOK, ?_, ?_⟩
          · rw [hnspi]
            exact hl_.2.1.trans (List.suffix_cons c l_.pi)
          · intro x hx hxpi
            rw [hnspi] at hxpi
            rcases List.mem_cons.mp hxpi with rfl | hxpi2
            · exact absurd hx hcrest
            · exact hl_.2.2 x (List.mem_cons_of_mem c hx) hxpi2
      · have hx0'OK : SequenceAndEffort.EntryOK vs audit winner
            { x0 with diveDone := some c } := hx0
        have hnsOK := extendByCandidate_entryOK vs audit winner
          { x0 with diveDone := some c } c hx0'OK hcpi hcN
        have hnspi : (({ x0 with diveDone := some c
            } : SequenceAndEffort).extendByCandidate c vs audit).pi
            = c :: x0.pi := extendByCandidate_pi _ _ _ _
        split
        · exact justTakeAssertion_AOK vs audit winner _ hnsOK A _ hA
        · refine ih hndrest hltrest _ (some _) A F hx0'OK ?_ hA
          intro e he
          have heq := Option.some.inj he
          rw [← heq]
          refine ⟨hnsOK, ?_, ?_⟩
          · rw [hnspi]
            exact List.suffix_cons c x0.pi
          · intro x hx hxpi
            rw [hnspi] at hxpi
            rcases List.mem_cons.mp hxpi with rfl | hxpi2
            · exact absurd hx hcrest
            · exact hxpi2

/-- Assertions committed during the expansion phase are structurally
sane. -/
theorem expandLoop_AOK (vs : Votes) (audit : Nat → Nat → Nat → Difficulty)
    (winner : Nat) (e : SequenceAndEffort)
    (he : e.EntryOK vs audit winner) :
    ∀ (l : List Nat), (∀ x ∈ l, x < vs.numCandidates) →
    ∀ (A : List AssertionAndDifficulty) (F : List SequenceAndEffort)
      (bound : Difficulty) (A' : List AssertionAndDifficulty)
      (F' : List SequenceAndEffort) (bound' : Difficulty),
      (∀ ad ∈ A, ad.assertion.AOK vs.numCandidates) →
      expandLoop vs audit e l A F bound = .ok (A', F', bound') →
      ∀ ad ∈ A', ad.assertion.AOK vs.numCandidates := by
  intro l
  induction l with
  | nil =>
    intro _ A F bound A' F' bound' hA h
    rw [expandLoop] at h
    have h2 := Except.ok.inj h
    have hAe : A = A' := congrArg (fun p => p.1) h2
    exact hAe ▸ hA
  | cons c0 rest ih =>
    intro hlt A F bound A' F' bound' hA h
    have hltrest : ∀ x ∈ rest, x < vs.numCandidates :=
      fun x hx => hlt x (List.mem_cons_of_mem c0 hx)
    simp only [expandLoop] at h
    split at h
    · exact ih hltrest A F bound A' F' bound' hA h
    · rename_i hskip
      push_neg at hskip
      have hnsOK := extendByCandidate_entryOK vs audit winner e c0 he
        hskip.1 (hlt c0 (List.mem_cons_self c0 rest))
      split at h
      · split at h
        · simp at h
        · rename_i a f b hcac
          exact ih hltrest a f b A' F' bound'
            (containsAllCandidates_AOK vs audit winner _ hnsOK
              A F bound a f b hcac hA) h
      · exact ih hltrest A _ bound A' F' bound' hA h

/-- Every assertion in the search loop result is structurally sane. -/
theorem raireLoop_AOK (vs : Votes) (audit : Nat → Nat → Nat → Difficulty)
    (winner : Nat) (irvOrder : List Nat)
    (hirvND : irvOrder.Nodup) (hirvN : ∀ x ∈ irvOrder, x < vs.numCandidates) :
    ∀ (fuel : Nat) (A : List AssertionAndDifficulty) (bound : Difficulty)
      (F : List SequenceAndEffort) (out : List AssertionAndDifficulty)
      (d : Difficulty),
      bound ≠ ⊤ →
      (∀ ad ∈ A, ad.assertion.AOK vs.numCandidates) →
      (∀ e ∈ F, e.EntryOK vs audit winner) →
      raireLoop vs audit irvOrder fuel A bound F = some (.ok (out, d)) →
      ∀ ad ∈ out, ad.assertion.AOK vs.numCandidates := by
  intro fuel
  induction fuel with
  | zero =>
    intro A bound F out d hb hA hF heq
    simp only [raireLoop] at heq
    simp at heq
  | succ fuel ih =>
    intro A bound F out d hb hA hF heq
    simp only [raireLoop] at heq
    split at heq
    · have h2 := Except.ok.inj (Option.some.inj heq)
      have h3 : A = out := congrArg (fun p => p.1) h2
      exact h3 ▸ hA
    · rename_i s rest2 hpop
      have hps := popMax_spec F s rest2 hpop
      have hsOK := hF s hps.1
      have hrestOK : ∀ e ∈ rest2, e.EntryOK vs audit winner :=
        fun e he => hF e (hps.2.2 e he)
      split at heq
      · exact ih _ _ _ _ _ hb
          (justTakeAssertion_AOK vs audit winner s hsOK A rest2 hA)
          (fun e2 he2 => hrestOK e2 (justTakeAssertion_F_sub _ _ _ e2 he2))
          heq
      · split at heq
        · simp at heq
        · rename_i e2 A2 F2 b2 heqad
          have key : b2 ≠ ⊤ ∧ (∀ ad ∈ A2, ad.assertion.AOK vs.numCandidates) ∧
              (∀ e3 ∈ F2, e3.EntryOK vs audit winner) ∧
              e2.EntryOK vs audit winner := by
            split at heqad
            · rename_i hdd
              have hsdd : s.diveDone = none := by
                have h2 := hdd
                simp only [Bool.and_eq_true] at h2
                exact Option.isNone_iff_eq_none.mp h2.2
              have hdspec := diveLoop_spec vs audit winner bound hb
                irvOrder.reverse (List.nodup_reverse.mpr hirvND)
                (fun x hx => hirvN x (List.mem_reverse.mp hx))
                s none A rest2 hsOK
                (by intro e he; simp at he)
                hrestOK
                (by intro τ2 _ c2 hc2 _; rw [hsdd] at hc2; simp at hc2)
              have hdAOK := diveLoop_AOK vs audit winner bound
                irvOrder.reverse (List.nodup_reverse.mpr hirvND)
                (fun x hx => hirvN x (List.mem_reverse.mp hx))
                s none A rest2 hsOK
                (by intro e he; simp at he) hA
              split at heqad
              · rename_i x1 last A3 F3 heqdive
                rw [heqdive] at hdspec hdAOK
                split at heqad
                · simp at heqad
                · rename_i a3 f3 b3 hcac
                  have h4 := Except.ok.inj heqad
                  have he2 : x1 = e2 := congrArg (fun p => p.1) h4
                  have hA2e : a3 = A2 := congrArg (fun p => p.2.1) h4
                  have hF2e : f3 = F2 := congrArg (fun p => p.2.2.1) h4
                  have hb2e : b3 = b2 := congrArg (fun p => p.2.2.2) h4
                  subst he2 hA2e hF2e hb2e
                  have hlastOK : last.EntryOK vs audit winner :=
                    hdspec.2.2.2.1 last rfl
                  have hcacspec := containsAllCandidates_spec vs audit winner
                    last hlastOK A3 F3 bound a3 f3 b3 hcac
                  exact ⟨hcacspec.2.2.2.1 hb,
                    containsAllCandidates_AOK vs audit winner last hlastOK
                      A3 F3 bound a3 f3 b3 hcac hdAOK,
                    fun e3 he3 => hdspec.2.2.1 e3 (hcacspec.2.2.2.2 e3 he3),
                    hdspec.1.2⟩
              · rename_i x1 A3 F3 heqdive
                rw [heqdive] at hdspec hdAOK
                have h4 := Except.ok.inj heqad
                have he2 : x1 = e2 := congrArg (fun p => p.1) h4
                have hA2e : A3 = A2 := congrArg (fun p => p.2.1) h4
                have hF2e : F3 = F2 := congrArg (fun p => p.2.2.1) h4
                have hb2e : bound = b2 := congrArg (fun p => p.2.2.2) h4
                subst he2 hA2e hF2e
                exact ⟨hb2e ▸ hb, hdAOK, hdspec.2.2.1, hdspec.1.2⟩
            · have h4 := Except.ok.inj heqad
              have he2 : s = e2 := congrArg (fun p => p.1) h4
              have hA2e : A = A2 := congrArg (fun p => p.2.1) h4
              have hF2e : rest2 = F2 := congrArg (fun p => p.2.2.1) h4
              have hb2e : bound = b2 := congrArg (fun p => p.2.2.2) h4
              subst he2 hA2e hF2e
              exact ⟨hb2e ▸ hb, hA, hrestOK, hsOK⟩
          split at heq
          · simp at heq
          · rename_i A3f F3f b3f hexp
            have hespec := expandLoop_spec vs audit winner e2 key.2.2.2
              (List.range vs.numCandidates)
              (fun x hx => List.mem_range.mp hx)
              A2 F2 b2 A3f F3f b3f key.1 key.2.2.1 hexp
            exact ih _ _ _ _ _ hespec.2.2.1
              (expandLoop_AOK vs audit winner e2 key.2.2.2
                (List.range vs.numCandidates)
                (fun x hx => List.mem_range.mp hx)
                A2 F2 b2 A3f F3f b3f key.2.1 hexp)
              hespec.2.1 heq

/-! ### The initial frontier -/

/-- The frontier-population fold only prepends entries. -/
theorem initialFrontier_foldl_mono (vs : Votes)
    (audit : Nat → Nat → Nat → Difficulty) (winner : Nat) :
    ∀ (l : List Nat) (init : List SequenceAndEffort) (x : SequenceAndEffort),
      x ∈ init →
      x ∈ l.foldl (fun frontier c =>
        if c ≠ winner then
          ({ pi := [c], bestAncestorLength := [c].length,
             bestAssertionForAncestor := findBestAudit [c] vs audit,
             diveDone := none } : SequenceAndEffort) :: frontier
        else frontier) init := by
  intro l
  induction l with
  | nil => intro init x hx; exact hx
  | cons c rest ih =>
    intro init x hx
    rw [List.foldl_cons]
    apply ih
    split
    · exact List.mem_cons_of_mem _ hx
    · exact hx

/-- Everything in the populated frontier came from the initial accumulator
or is a fresh one-candidate entry. -/
theorem initialFrontier_foldl_shape (vs : Votes)
    (audit : Nat → Nat → Nat → Difficulty) (winner : Nat) :
    ∀ (l : List Nat) (init : List SequenceAndEffort) (x : SequenceAndEffort),
      x ∈ l.foldl (fun frontier c =>
        if c ≠ winner then
          ({ pi := [c], bestAncestorLength := [c].length,
             bestAssertionForAncestor := findBestAudit [c] vs audit,
             diveDone := none } : SequenceAndEffort) :: frontier
        else frontier) init →
      x ∈ init ∨ ∃ c ∈ l, c ≠ winner ∧
        x = { pi := [c], bestAncestorLength := [c].length,
              bestAssertionForAncestor := findBestAudit [c] vs audit,
              diveDone := none } := by
  intro l
  induction l with
  | nil => intro init x hx; exact Or.inl hx
  | cons c rest ih =>
    intro init x hx
    rw [List.foldl_cons] at hx
    rcases ih _ x hx with hin | ⟨c2, hc2, hcw, hx2⟩
    · by_cases hcw : c ≠ winner
      · rw [if_pos hcw] at hin
        rcases List.mem_cons.mp hin with rfl | hin2
        · exact Or.inr ⟨c, List.mem_cons_self _ _, hcw, rfl⟩
        · exact Or.inl hin2
      · rw [if_neg hcw] at hin
        exact Or.inl hin
    · exact Or.inr ⟨c2, List.mem_cons_of_mem _ hc2, hcw, hx2⟩

/-- The fresh single-candidate entry for a non-winning candidate is
well-formed. -/
theorem singletonEntry_entryOK (vs : Votes)
    (audit : Nat → Nat → Nat → Difficulty) (winner : Nat) (c : Nat)
    (hc : c < vs.numCandidates) (hcw : c ≠ winner) :
    SequenceAndEffort.EntryOK vs audit winner
      { pi := [c], bestAncestorLength := [c].length,
        bestAssertionForAncestor := findBestAudit [c] vs audit,
        diveDone := none } := by
  refine ⟨by simp, by simp, ?_, by simp, by simp, ?_, ?_, ?_⟩
  · intro x hx
    rcases List.mem_singleton.mp hx with rfl
    exact hc
  · show findBestAudit [c] vs audit
      = findBestAudit (List.drop ([c].length - [c].length) [c]) vs audit
    simp
  · intro σ hσ hσsuf
    have hσe : σ = [c] := by
      rcases List.suffix_cons_iff.mp hσsuf with h | h
      · exact h
      · rcases List.suffix_nil.mp h with rfl
        exact absurd rfl hσ
    rw [hσe]
    exact le_refl _
  · simp
    exact hcw

/-- Every entry of the initial frontier is well-formed. -/
theorem initialFrontier_entryOK (vs : Votes)
    (audit : Nat → Nat → Nat → Difficulty) (winner : Nat) :
    ∀ e ∈ initialFrontier vs audit winner, e.EntryOK vs audit winner := by
  intro e he
  rw [initialFrontier] at he
  rcases initialFrontier_foldl_shape vs audit winner _ _ e he with h | ⟨c, hc, hcw, rfl⟩
  · simp at h
  · exact singletonEntry_entryOK vs audit winner c (List.mem_range.mp hc) hcw

/-- The initial frontier holds the one-candidate entry of every non-winning
candidate. -/
theorem initialFrontier_mem (vs : Votes)
    (audit : Nat → Nat → Nat → Difficulty) (winner : Nat) (c : Nat)
    (hc : c < vs.numCandidates) (hcw : c ≠ winner) :
    ({ pi := [c], bestAncestorLength := [c].length,
       bestAssertionForAncestor := findBestAudit [c] vs audit,
       diveDone := none } : SequenceAndEffort)
      ∈ initialFrontier vs audit winner := by
  rw [initialFrontier]
  have hgen : ∀ (l : List Nat) (init : List SequenceAndEffort), c ∈ l →
      ({ pi := [c], bestAncestorLength := [c].length,
         bestAssertionForAncestor := findBestAudit [c] vs audit,
         diveDone := none } : SequenceAndEffort)
        ∈ l.foldl (fun frontier c2 =>
          if c2 ≠ winner then
            ({ pi := [c2], bestAncestorLength := [c2].length,
               bestAssertionForAncestor := findBestAudit [c2] vs audit,
               diveDone := none } : SequenceAndEffort) :: frontier
          else frontier) init := by
    intro l
    induction l with
    | nil => intro init hx; simp at hx
    | cons c2 rest ih =>
      intro init hx
      rw [List.foldl_cons]
      rcases List.mem_cons.mp hx with rfl | hx2
      · rw [if_pos hcw]
        exact initialFrontier_foldl_mono vs audit winner rest _ _
          (List.mem_cons_self _ _)
      · exact ih _ hx2
  exact hgen _ _ (List.mem_range.mpr hc)

/-- The last element of a list heads a singleton suffix. -/
theorem getLast_singleton_suffix {c : Nat} :
    ∀ {τ : List Nat}, τ.getLast? = some c → [c] <:+ τ := by
  intro τ
  induction τ with
  | nil => intro h; simp at h
  | cons x rest ih =>
    intro h
    match rest, h with
    | [], h =>
      have : x = c := by simpa using h
      rw [this]
    | y :: t, h =>
      rw [List.getLast?_cons_cons] at h
      exact (ih h).trans (List.suffix_cons x (y :: t))

/-- Every full elimination order ending at a non-winning candidate starts
covered by the initial frontier. -/
theorem initialFrontier_covers (vs : Votes)
    (audit : Nat → Nat → Nat → Difficulty) (winner : Nat) (τ : List Nat)
    (hgood : GoodOrder vs.numCandidates τ) (c : Nat)
    (hlast : τ.getLast? = some c) (hcw : c ≠ winner)
    (hwN : winner < vs.numCandidates) :
    Covered [] (initialFrontier vs audit winner) τ := by
  have hsuf : [c] <:+ τ := getLast_singleton_suffix hlast
  have hcN : c < vs.numCandidates :=
    (hgood.mem_iff c).mp (hsuf.sublist.mem (List.mem_singleton_self c))
  have hlen : τ.length = vs.numCandidates := hgood.facts.1
  refine Or.inr ⟨_, initialFrontier_mem vs audit winner c hcN hcw, hsuf, ?_, ?_⟩
  · show ([c] : List Nat).length < τ.length
    simp only [List.length_singleton, hlen]
    omega
  · intro c2 hc2
    simp at hc2

/-! ### The two-pass used-assertion heuristic eliminates every tree -/

theorem treeSize_pos (n : TreeNodeShowingWhatAssertionsPrunedIt) :
    1 ≤ treeSize n := by
  match n with
  | .mk c p ch v =>
    rw [treeSize]
    omega

theorem treeListSize_cons (n : TreeNodeShowingWhatAssertionsPrunedIt)
    (rest : List TreeNodeShowingWhatAssertionsPrunedIt) :
    treeListSize (n :: rest) = treeSize n + treeListSize rest := rfl

theorem insertSortedSet_mem_self (c : Nat) :
    ∀ l : List Nat, c ∈ insertSortedSet c l := by
  intro l
  induction l with
  | nil => rw [insertSortedSet]; exact List.mem_singleton_self c
  | cons y ys ih =>
    rw [insertSortedSet]
    split
    · exact List.mem_cons_self _ _
    · split
      · rename_i hlt heq
        rw [heq]
        exact List.mem_cons_self _ _
      · exact List.mem_cons_of_mem y ih

theorem insertSortedSet_mem_of_mem (c x : Nat) :
    ∀ l : List Nat, x ∈ l → x ∈ insertSortedSet c l := by
  intro l
  induction l with
  | nil => intro h; simp at h
  | cons y ys ih =>
    intro h
    rw [insertSortedSet]
    split
    · exact List.mem_cons_of_mem c h
    · split
      · exact h
      · rcases List.mem_cons.mp h with rfl | h2
        · exact List.mem_cons_self _ _
        · exact List.mem_cons_of_mem y (ih h2)

theorem uses_iff (h : HeuristicWorkOutWhichAssertionsAreUsed) (i : Nat) :
    h.uses i = true ↔ i ∈ h.assertionsUsed := by
  rw [HeuristicWorkOutWhichAssertionsAreUsed.uses]
  exact decide_eq_true_iff

/-- A contradiction recorded against a node suffix persists on every longer
order. -/
theorem assertionEffect_contradiction_stable (allA : List Assertion)
    (i : Nat) (σ τ : List Nat) (hsuf : σ <:+ τ)
    (h : assertionEffect allA i σ = some .Contradiction) :
    assertionEffect allA i τ = some .Contradiction := by
  rw [assertionEffect] at h ⊢
  obtain ⟨a, hg, hfa⟩ := Option.map_eq_some'.mp h
  rw [hg, Option.map_some']
  exact congrArg some (Assertion.contradictionStable a σ τ hsuf hfa)

theorem nodeAlreadyEliminatedList_all (h : HeuristicWorkOutWhichAssertionsAreUsed) :
    ∀ l : List TreeNodeShowingWhatAssertionsPrunedIt,
      nodeAlreadyEliminatedList h l = true ↔
        ∀ n ∈ l, nodeAlreadyEliminated h n = true := by
  intro l
  induction l with
  | nil =>
    constructor
    · intro _ n hn; simp at hn
    · intro _; rw [nodeAlreadyEliminatedList]
  | cons n rest ih =>
    rw [nodeAlreadyEliminatedList, Bool.and_eq_true, ih]
    constructor
    · intro ⟨h1, h2⟩ m hm
      rcases List.mem_cons.mp hm with rfl | hm2
      · exact h1
      · exact h2 m hm2
    · intro hall
      exact ⟨hall n (List.mem_cons_self _ _),
        fun m hm => hall m (List.mem_cons_of_mem n hm)⟩

/-- Growing the used set preserves elimination. -/
theorem nodeAlreadyEliminated_mono :
    ∀ k : Nat,
      (∀ (n : TreeNodeShowingWhatAssertionsPrunedIt)
        (h1 h2 : HeuristicWorkOutWhichAssertionsAreUsed), treeSize n ≤ k →
        (∀ x ∈ h1.assertionsUsed, x ∈ h2.assertionsUsed) →
        nodeAlreadyEliminated h1 n = true →
        nodeAlreadyEliminated h2 n = true) ∧
      (∀ (ns : List TreeNodeShowingWhatAssertionsPrunedIt)
        (h1 h2 : HeuristicWorkOutWhichAssertionsAreUsed), treeListSize ns ≤ k →
        (∀ x ∈ h1.assertionsUsed, x ∈ h2.assertionsUsed) →
        nodeAlreadyEliminatedList h1 ns = true →
        nodeAlreadyEliminatedList h2 ns = true) := by
  intro k
  induction k with
  | zero =>
    constructor
    · intro n h1 h2 hk
      exact absurd hk (by have := treeSize_pos n; omega)
    · intro ns h1 h2 hk hsub hel
      match ns with
      | [] => rw [nodeAlreadyEliminatedList]
      | n :: rest =>
        rw [treeListSize_cons] at hk
        exact absurd hk (by have := treeSize_pos n; omega)
  | succ k ih =>
    have hnode : ∀ (n : TreeNodeShowingWhatAssertionsPrunedIt)
        (h1 h2 : HeuristicWorkOutWhichAssertionsAreUsed), treeSize n ≤ k + 1 →
        (∀ x ∈ h1.assertionsUsed, x ∈ h2.assertionsUsed) →
        nodeAlreadyEliminated h1 n = true →
        nodeAlreadyEliminated h2 n = true := by
      intro n h1 h2 hk hsub hel
      match n with
      | .mk cand pruning children valid =>
        rw [treeSize] at hk
        simp only [nodeAlreadyEliminated, Bool.or_eq_true, Bool.and_eq_true]
          at hel ⊢
        rcases hel with hel | ⟨hne, hel⟩
        · left
          obtain ⟨i, hi, huse⟩ := List.any_eq_true.mp hel
          exact List.any_eq_true.mpr
            ⟨i, hi, (uses_iff h2 i).mpr (hsub i ((uses_iff h1 i).mp huse))⟩
        · exact Or.inr ⟨hne, ih.2 children h1 h2 (by omega) hsub hel⟩
    refine ⟨hnode, ?_⟩
    intro ns h1 h2 hk hsub hel
    match ns with
    | [] => rw [nodeAlreadyEliminatedList]
    | n :: rest =>
      rw [treeListSize_cons] at hk
      have hp := treeSize_pos n
      rw [nodeAlreadyEliminatedList, Bool.and_eq_true] at hel ⊢
      exact ⟨hnode n h1 h2 (by omega) hsub hel.1,
        ih.2 rest h1 h2 (by omega) hsub hel.2⟩

/-- The second pass only grows the used set. -/
theorem addTreeSecondPass_subset :
    ∀ k : Nat,
      (∀ (n : TreeNodeShowingWhatAssertionsPrunedIt)
        (h : HeuristicWorkOutWhichAssertionsAreUsed) (t : TimeOut)
        (h' : HeuristicWorkOutWhichAssertionsAreUsed) (t' : TimeOut),
        treeSize n ≤ k →
        addTreeSecondPass h n t = .ok (h', t') →
        ∀ x ∈ h.assertionsUsed, x ∈ h'.assertionsUsed) ∧
      (∀ (ns : List TreeNodeShowingWhatAssertionsPrunedIt)
        (h : HeuristicWorkOutWhichAssertionsAreUsed) (t : TimeOut)
        (h' : HeuristicWorkOutWhichAssertionsAreUsed) (t' : TimeOut),
        treeListSize ns ≤ k →
        addTreeSecondPassList h ns t = .ok (h', t') →
        ∀ x ∈ h.assertionsUsed, x ∈ h'.assertionsUsed) := by
  intro k
  induction k with
  | zero =>
    constructor
    · intro n h t h' t' hk
      exact absurd hk (by have := treeSize_pos n; omega)
    · intro ns h t h' t' hk heq
      match ns with
      | [] =>
        rw [addTreeSecondPassList] at heq
        have h2 := Except.ok.inj heq
        have h3 : h = h' := congrArg (fun p => p.1) h2
        exact fun x hx => h3 ▸ hx
      | n :: rest =>
        rw [treeListSize_cons] at hk
        exact absurd hk (by have := treeSize_pos n; omega)
  | succ k ih =>
    have hnode : ∀ (n : TreeNodeShowingWhatAssertionsPrunedIt)
        (h : HeuristicWorkOutWhichAssertionsAreUsed) (t : TimeOut)
        (h' : HeuristicWorkOutWhichAssertionsAreUsed) (t' : TimeOut),
        treeSize n ≤ k + 1 →
        addTreeSecondPass h n t = .ok (h', t') →
        ∀ x ∈ h.assertionsUsed, x ∈ h'.assertionsUsed := by
      intro n h t h' t' hk heq
      match n with
      | .mk cand pruning children valid =>
        rw [treeSize] at hk
        simp only [addTreeSecondPass] at heq
        split at heq
        · simp at heq
        · split at heq
          · split at heq
            · have h2 := Except.ok.inj heq
              have h3 : h = h' := congrArg (fun p => p.1) h2
              exact fun x hx => h3 ▸ hx
            · have h2 := Except.ok.inj heq
              have h3 : (⟨insertSortedSet (pruning.head?.getD 0)
                  h.assertionsUsed⟩ : HeuristicWorkOutWhichAssertionsAreUsed)
                  = h' := congrArg (fun p => p.1) h2
              intro x hx
              rw [← h3]
              exact insertSortedSet_mem_of_mem _ x _ hx
          · exact ih.2 children h _ h' t' (by omega) heq
    refine ⟨hnode, ?_⟩
    intro ns h t h' t' hk heq
    match ns with
    | [] =>
      rw [addTreeSecondPassList] at heq
      have h2 := Except.ok.inj heq
      have h3 : h = h' := congrArg (fun p => p.1) h2
      exact fun x hx => h3 ▸ hx
    | n :: rest =>
      rw [treeListSize_cons] at hk
      have hp := treeSize_pos n
      rw [addTreeSecondPassList] at heq
      split at heq
      · simp at heq
      · rename_i h1 t1 heq1
        intro x hx
        exact ih.2 rest h1 t1 h' t' (by omega) heq
          x (hnode n h t h1 t1 (by omega) heq1 x hx)

/-- After a successful second pass, every well-formed invalid tree it
visited is eliminated by the used set. -/
theorem addTreeSecondPass_kills (allA : List Assertion) (N : Nat) :
    ∀ k : Nat,
      (∀ (n : TreeNodeShowingWhatAssertionsPrunedIt) (σ : List Nat)
        (h : HeuristicWorkOutWhichAssertionsAreUsed) (t : TimeOut)
        (h' : HeuristicWorkOutWhichAssertionsAreUsed) (t' : TimeOut),
        treeSize n ≤ k →
        TreeNodeOK allA N n σ → n.valid = false →
        addTreeSecondPass h n t = .ok (h', t') →
        nodeAlreadyEliminated h' n = true) ∧
      (∀ (ns : List TreeNodeShowingWhatAssertionsPrunedIt)
        (h : HeuristicWorkOutWhichAssertionsAreUsed) (t : TimeOut)
        (h' : HeuristicWorkOutWhichAssertionsAreUsed) (t' : TimeOut),
        treeListSize ns ≤ k →
        (∀ n ∈ ns, (∃ σ, TreeNodeOK allA N n σ) ∧ n.valid = false) →
        addTreeSecondPassList h ns t = .ok (h', t') →
        ∀ n ∈ ns, nodeAlreadyEliminated h' n = true) := by
  intro k
  induction k with
  | zero =>
    constructor
    · intro n σ h t h' t' hk
      exact absurd hk (by have := treeSize_pos n; omega)
    · intro ns h t h' t' hk _ _ n hn
      match ns, hn with
      | n :: rest, hn =>
        rw [treeListSize_cons] at hk
        exact absurd hk (by have := treeSize_pos n; omega)
  | succ k ih =>
    have hnode : ∀ (n : TreeNodeShowingWhatAssertionsPrunedIt) (σ : List Nat)
        (h : HeuristicWorkOutWhichAssertionsAreUsed) (t : TimeOut)
        (h' : HeuristicWorkOutWhichAssertionsAreUsed) (t' : TimeOut),
        treeSize n ≤ k + 1 →
        TreeNodeOK allA N n σ → n.valid = false →
        addTreeSecondPass h n t = .ok (h', t') →
        nodeAlreadyEliminated h' n = true := by
      intro n σ h t h' t' hk hOK hval heq
      match n with
      | .mk cand pruning children valid =>
        rw [treeSize] at hk
        have hval2 : valid = false := hval
        cases hOK
        rename_i hcv hleaf hpr hcomp hch hlen
        simp only [addTreeSecondPass] at heq
        split at heq
        · simp at heq
        · split at heq
          · rename_i hpl
            split at heq
            · rename_i helim
              have h2 := Except.ok.inj heq
              have h3 : h = h' := congrArg (fun p => p.1) h2
              exact h3 ▸ helim
            · have h2 := Except.ok.inj heq
              have h3 : (⟨insertSortedSet (pruning.head?.getD 0)
                  h.assertionsUsed⟩ : HeuristicWorkOutWhichAssertionsAreUsed)
                  = h' := congrArg (fun p => p.1) h2
              match pruning, hpl with
              | hd :: tl, _ =>
                simp only [nodeAlreadyEliminated, Bool.or_eq_true]
                left
                refine List.any_eq_true.mpr ⟨hd, List.mem_cons_self _ _, ?_⟩
                rw [uses_iff, ← h3]
                exact insertSortedSet_mem_self hd _
          · rename_i hpl
            have hpe : pruning = [] := by
              rcases pruning with _ | ⟨hd, tl⟩
              · rfl
              · exact absurd (by simp) hpl
            have hchne : children ≠ [] := by
              intro hch0
              exact hleaf hval2 hch0 hpe
            have hall := ih.2 children h _ h' t' (by omega)
              (fun m hm => ⟨⟨cand :: σ, hch m hm⟩, hcv hval2 m hm⟩) heq
            simp only [nodeAlreadyEliminated, Bool.or_eq_true, Bool.and_eq_true]
            right
            refine ⟨by simp [hchne], ?_⟩
            exact (nodeAlreadyEliminatedList_all h' children).mpr hall
    refine ⟨hnode, ?_⟩
    intro ns h t h' t' hk hOKs heq m hm
    match ns, hm with
    | n :: rest, hm =>
      rw [treeListSize_cons] at hk
      have hp := treeSize_pos n
      rw [addTreeSecondPassList] at heq
      split at heq
      · simp at heq
      · rename_i h1 t1 heq1
        have hsub := addTreeSecondPass_subset (treeListSize rest)
        rcases List.mem_cons.mp hm with rfl | hm2
        · obtain ⟨⟨σ, hOK⟩, hval⟩ := hOKs m (List.mem_cons_self _ _)
          have hel1 := hnode m σ h t h1 t1 (by omega) hOK hval heq1
          exact (nodeAlreadyEliminated_mono (treeSize m)).1 m h1 h'
            (le_refl _) (hsub.2 rest h1 t1 h' t' (le_refl _) heq) hel1
        · exact ih.2 rest h1 t1 h' t' (by omega)
            (fun m2 hm3 => hOKs m2 (List.mem_cons_of_mem n hm3)) heq m hm2

/-- An eliminated invalid well-formed tree node yields, on every full order
extending its suffix, a contradiction from a used assertion. -/
theorem treeNodeOK_kill_cover (allA : List Assertion) (N : Nat)
    (h : HeuristicWorkOutWhichAssertionsAreUsed) :
    ∀ (node : TreeNodeShowingWhatAssertionsPrunedIt) (σ : List Nat),
      TreeNodeOK allA N node σ →
      node.valid = false → nodeAlreadyEliminated h node = true →
      ∀ τ, GoodOrder N τ →
        (node.candidateBeingEliminatedAtThisNode :: σ) <:+ τ →
        ∃ i, h.uses i = true
          ∧ assertionEffect allA i τ = some .Contradiction := by
  intro node σ hOK
  induction hOK with
  | intro cand pruning children valid σ hpr hleaf hcv hcomp hch hlen ih =>
    intro hval helim τ hgood hsuf
    have hval2 : valid = false := hval
    have hsuf2 : (cand :: σ) <:+ τ := hsuf
    simp only [nodeAlreadyEliminated, Bool.or_eq_true, Bool.and_eq_true]
      at helim
    rcases helim with hany | ⟨hne, hall⟩
    · obtain ⟨i, hi, huse⟩ := List.any_eq_true.mp hany
      exact ⟨i, huse,
        assertionEffect_contradiction_stable allA i _ τ hsuf2 (hpr i hi)⟩
    · have hchne : children ≠ [] := by
        intro hch0
        rw [hch0] at hne
        simp at hne
      have hlen2 : (cand :: σ).length < N := hlen hchne
      have hlen3 : (cand :: σ).length < τ.length := by
        rw [hgood.facts.1]
        exact hlen2
      obtain ⟨c2, hc2suf⟩ := suffix_extend hsuf2 hlen3
      have hc2N : c2 < N :=
        (hgood.mem_iff c2).mp (hc2suf.sublist.mem (List.mem_cons_self _ _))
      have hc2nin : c2 ∉ (cand :: σ) :=
        (List.nodup_cons.mp (hgood.facts.2.sublist hc2suf.sublist)).1
      obtain ⟨child, hchild, hcand⟩ := hcomp hchne c2 hc2N hc2nin
      have hchval : child.valid = false := hcv hval2 child hchild
      have hchel : nodeAlreadyEliminated h child = true :=
        (nodeAlreadyEliminatedList_all h children).mp hall child hchild
      refine ih child hchild hchval hchel τ hgood ?_
      rw [hcand]
      exact hc2suf

/-- A duplicate-free list of candidates missing one candidate is not yet
full. -/
theorem short_of_fresh (N : Nat) (σ : List Nat) (hnd : σ.Nodup)
    (hb : ∀ x ∈ σ, x < N) (c : Nat) (hc : c < N) (hcnin : c ∉ σ) :
    σ.length < N := by
  have hsp : List.Subperm σ (List.range N) :=
    hnd.subperm (fun x hx => List.mem_range.mpr (hb x hx))
  have hle := hsp.length_le
  rw [List.length_range] at hle
  rcases Nat.lt_or_ge σ.length N with h | h
  · exact h
  · exfalso
    have hperm : σ.Perm (List.range N) := hsp.perm_of_length_le (by
      rw [List.length_range]; omega)
    exact hcnin (hperm.mem_iff.mpr (List.mem_range.mpr hc))

/-- What the children-building loop guarantees when it completes: the
accumulator survives (unless the `children.clear()` break fired), every
fresh candidate got a child, every new child is well-formed, an invalid
result means an invalid start and all-new-invalid children, and with no
pruning assertion the result is nonempty once anything was or could be
added. -/
theorem treeChildrenLoop_spec (N : Nat) (allA : List Assertion)
    (recurse : List Nat → Nat → List Nat → TimeOut →
      Option (Except RaireError (TreeNodeShowingWhatAssertionsPrunedIt × TimeOut)))
    (elimSuffix stillRel : List Nat) (pIsEmpty : Bool)
    (hrec : ∀ (c : Nat) (t : TimeOut)
      (res : TreeNodeShowingWhatAssertionsPrunedIt) (t2 : TimeOut),
      c < N → c ∉ elimSuffix →
      recurse elimSuffix c stillRel t = some (.ok (res, t2)) →
      TreeNodeOK allA N res elimSuffix
        ∧ res.candidateBeingEliminatedAtThisNode = c) :
    ∀ (l : List Nat) (acc : List TreeNodeShowingWhatAssertionsPrunedIt)
      (valid : Bool) (t : TimeOut)
      (ch : List TreeNodeShowingWhatAssertionsPrunedIt) (v : Bool)
      (t' : TimeOut),
      (∀ x ∈ l, x < N) →
      treeChildrenLoop recurse elimSuffix stillRel pIsEmpty l acc valid t
        = some (.ok (ch, v, t')) →
      ((∀ x ∈ acc, x ∈ ch) ∨ ch = []) ∧
      (ch ≠ [] → ∀ c ∈ l, c ∉ elimSuffix →
        ∃ child ∈ ch, child.candidateBeingEliminatedAtThisNode = c) ∧
      (∀ x ∈ ch, x ∈ acc ∨ TreeNodeOK allA N x elimSuffix) ∧
      (v = false → valid = false ∧ ∀ x ∈ ch, x ∈ acc ∨ x.valid = false) ∧
      (pIsEmpty = true → (acc ≠ [] ∨ ∃ c ∈ l, c ∉ elimSuffix) → ch ≠ []) := by
  intro l
  induction l with
  | nil =>
    intro acc valid t ch v t' _ heq
    rw [treeChildrenLoop] at heq
    have h2 := Except.ok.inj (Option.some.inj heq)
    have hch : acc = ch := congrArg (fun p => p.1) h2
    have hv : valid = v := congrArg (fun p => p.2.1) h2
    subst hch hv
    refine ⟨Or.inl (fun x hx => hx), ?_, fun x hx => Or.inl hx,
      fun hv2 => ⟨hv2, fun x hx => Or.inl hx⟩, ?_⟩
    · intro _ c hc
      simp at hc
    · intro _ hd
      rcases hd with hne | ⟨c, hc, _⟩
      · exact hne
      · simp at hc
  | cons c0 rest ih =>
    intro acc valid t ch v t' hlt heq
    have hltrest : ∀ x ∈ rest, x < N :=
      fun x hx => hlt x (List.mem_cons_of_mem c0 hx)
    simp only [treeChildrenLoop] at heq
    split at heq
    · -- candidate already in the suffix
      rename_i hc0in
      have hrec2 := ih acc valid t ch v t' hltrest heq
      refine ⟨hrec2.1, ?_, hrec2.2.2.1, hrec2.2.2.2.1, ?_⟩
      · intro hne c hc hcnin
        rcases List.mem_cons.mp hc with rfl | hc2
        · exact absurd hc0in hcnin
        · exact hrec2.2.1 hne c hc2 hcnin
      · intro hp hd
        refine hrec2.2.2.2.2 hp ?_
        rcases hd with hne | ⟨c, hc, hcnin⟩
        · exact Or.inl hne
        · rcases List.mem_cons.mp hc with rfl | hc2
          · exact absurd hc0in hcnin
          · exact Or.inr ⟨c, hc2, hcnin⟩
    · rename_i hc0nin
      split at heq
      · simp at heq
      · simp at heq
      · rename_i child t2 hrq
        have hch := hrec c0 t child t2 (hlt c0 (List.mem_cons_self _ _))
          hc0nin hrq
        split at heq
        · rename_i hchv
          split at heq
          · -- valid child appended, accumulator valid set
            rename_i hpie
            have hrec2 := ih (acc ++ [child]) true t2 ch v t' hltrest heq
            have hsubacc : (∀ x ∈ acc ++ [child], x ∈ ch) ∨ ch = [] := hrec2.1
            refine ⟨?_, ?_, ?_, ?_, ?_⟩
            · rcases hsubacc with hsub | hemp
              · exact Or.inl (fun x hx => hsub x (List.mem_append_left _ hx))
              · exact Or.inr hemp
            · intro hne c hc hcnin
              rcases List.mem_cons.mp hc with rfl | hc2
              · rcases hsubacc with hsub | hemp
                · exact ⟨child, hsub child (List.mem_append_right _
                    (List.mem_singleton_self _)), hch.2⟩
                · exact absurd hemp hne
              · exact hrec2.2.1 hne c hc2 hcnin
            · intro x hx
              rcases hrec2.2.2.1 x hx with hin | hOK
              · rcases List.mem_append.mp hin with h | h
                · exact Or.inl h
                · rcases List.mem_singleton.mp h with rfl
                  exact Or.inr hch.1
              · exact Or.inr hOK
            · intro hv
              exact absurd (hrec2.2.2.2.1 hv).1 (by simp)
            · intro hp _
              exact hrec2.2.2.2.2 hp (Or.inl (by simp))
          · -- pruned node with a valid child: clear and break
            rename_i hpie
            have h2 := Except.ok.inj (Option.some.inj heq)
            have hche : ([] : List TreeNodeShowingWhatAssertionsPrunedIt)
              = ch := congrArg (fun p => p.1) h2
            have hve : valid = v := congrArg (fun p => p.2.1) h2
            subst hve
            refine ⟨Or.inr hche.symm, ?_, ?_, ?_, ?_⟩
            · intro hne
              exact absurd hche.symm hne
            · intro x hx
              rw [← hche] at hx
              simp at hx
            · intro hv2
              refine ⟨hv2, ?_⟩
              intro x hx
              rw [← hche] at hx
              simp at hx
            · intro hp
              exact absurd hp hpie
        · -- invalid child appended
          rename_i hchv
          have hchvf : child.valid = false := by
            rcases hb : child.valid with _ | _
            · rfl
            · exact absurd hb hchv
          have hrec2 := ih (acc ++ [child]) valid t2 ch v t' hltrest heq
          have hsubacc : (∀ x ∈ acc ++ [child], x ∈ ch) ∨ ch = [] := hrec2.1
          refine ⟨?_, ?_, ?_, ?_, ?_⟩
          · rcases hsubacc with hsub | hemp
            · exact Or.inl (fun x hx => hsub x (List.mem_append_left _ hx))
            · exact Or.inr hemp
          · intro hne c hc hcnin
            rcases List.mem_cons.mp hc with rfl | hc2
            · rcases hsubacc with hsub | hemp
              · exact ⟨child, hsub child (List.mem_append_right _
                  (List.mem_singleton_self _)), hch.2⟩
              · exact absurd hemp hne
            · exact hrec2.2.1 hne c hc2 hcnin
          · intro x hx
            rcases hrec2.2.2.1 x hx with hin | hOK
            · rcases List.mem_append.mp hin with h | h
              · exact Or.inl h
              · rcases List.mem_singleton.mp h with rfl
                exact Or.inr hch.1
            · exact Or.inr hOK
          · intro hv
            obtain ⟨hv0, hall⟩ := hrec2.2.2.2.1 hv
            refine ⟨hv0, ?_⟩
            intro x hx
            rcases hall x hx with hin | hxv
            · rcases List.mem_append.mp hin with h | h
              · exact Or.inl h
              · rcases List.mem_singleton.mp h with rfl
                exact Or.inr hchvf
            · exact Or.inr hxv
          · intro hp _
            exact hrec2.2.2.2.2 hp (Or.inl (by simp))

/-- A tree built by `treeNew` is well-formed, for its given parent suffix
and candidate. -/
theorem treeNew_OK (allA : List Assertion) (N : Nat)
    (hA : ∀ a ∈ allA, a.AOK N) :
    ∀ (fuel : Nat) (parentSuffix : List Nat) (cand : Nat)
      (relevant : List Nat)
      (policy : HowFarToContinueSearchTreeWhenPruningAssertionFound)
      (t : TimeOut) (tree : TreeNodeShowingWhatAssertionsPrunedIt)
      (t' : TimeOut),
      parentSuffix.Nodup → (∀ x ∈ parentSuffix, x < N) →
      cand < N → cand ∉ parentSuffix →
      treeNew allA N fuel parentSuffix cand relevant policy t
        = some (.ok (tree, t')) →
      TreeNodeOK allA N tree parentSuffix
        ∧ tree.candidateBeingEliminatedAtThisNode = cand := by
  intro fuel
  induction fuel with
  | zero =>
    intro parentSuffix cand relevant policy t tree t' _ _ _ _ heq
    rw [treeNew] at heq
    simp at heq
  | succ fuel ih =>
    intro parentSuffix cand relevant policy t tree t' hnd hb hcand hcnin heq
    have hσnd : (cand :: parentSuffix).Nodup := List.nodup_cons.mpr ⟨hcnin, hnd⟩
    have hσb : ∀ x ∈ cand :: parentSuffix, x < N := by
      intro x hx
      rcases List.mem_cons.mp hx with rfl | hx2
      · exact hcand
      · exact hb x hx2
    simp only [treeNew] at heq
    split at heq
    · simp at heq
    · split at heq
      · -- children are built
        rename_i hguard
        have hg := hguard
        simp only [Bool.and_eq_true] at hg
        obtain ⟨_, hg2⟩ := hg
        have hstill : relevant.filter (fun i =>
            assertionEffect allA i (cand :: parentSuffix)
              = some .NeedsMoreDetail) ≠ [] := by
          intro h0
          rw [h0] at hg2
          simp at hg2
        obtain ⟨i0, hi0⟩ := List.exists_mem_of_ne_nil _ hstill
        have hi0e : assertionEffect allA i0 (cand :: parentSuffix)
            = some .NeedsMoreDetail := by
          have := (List.mem_filter.mp hi0).2
          exact of_decide_eq_true this
        obtain ⟨a0, hget0, heff0⟩ := Option.map_eq_some'.mp (by
          rw [assertionEffect] at hi0e
          exact hi0e)
        obtain ⟨cf, hcfN, hcfnin⟩ := Assertion.needsMoreDetail_fresh N a0
          (hA a0 (List.get?_mem hget0)) (cand :: parentSuffix) hσnd heff0
        have hlenlt : (cand :: parentSuffix).length < N :=
          short_of_fresh N _ hσnd hσb cf hcfN hcfnin
        split at heq
        · simp at heq
        · simp at heq
        · rename_i children valid2 t2 hloop
          have hrec : ∀ (c : Nat) (t3 : TimeOut)
              (res : TreeNodeShowingWhatAssertionsPrunedIt) (t4 : TimeOut),
              c < N → c ∉ (cand :: parentSuffix) →
              treeNew allA N fuel (cand :: parentSuffix) c
                  (relevant.filter (fun i =>
                    assertionEffect allA i (cand :: parentSuffix)
                      = some .NeedsMoreDetail))
                  (if (relevant.filter (fun i =>
                        assertionEffect allA i (cand :: parentSuffix)
                          = some .Contradiction)).isEmpty
                    then policy
                    else policy.nextLevelIfPruningAssertionFound) t3
                = some (.ok (res, t4)) →
              TreeNodeOK allA N res (cand :: parentSuffix)
                ∧ res.candidateBeingEliminatedAtThisNode = c := by
            intro c t3 res t4 hcN hcn heq2
            exact ih (cand :: parentSuffix) c _ _ t3 res t4 hσnd hσb hcN
              hcn heq2
          have hloopspec := treeChildrenLoop_spec N allA _
            (cand :: parentSuffix) _ _ hrec (List.range N) [] _ _
            children valid2 t2 (fun x hx => List.mem_range.mp hx) hloop
          have h2 := Except.ok.inj (Option.some.inj heq)
          have htree : (⟨cand, relevant.filter (fun i =>
              assertionEffect allA i (cand :: parentSuffix)
                = some .Contradiction), children, valid2⟩
              : TreeNodeShowingWhatAssertionsPrunedIt) = tree :=
            congrArg (fun p => p.1) h2
          rw [← htree]
          refine ⟨?_, rfl⟩
          refine TreeNodeOK.intro cand _ children valid2 parentSuffix
            ?_ ?_ ?_ ?_ ?_ ?_
          · intro i hi
            exact of_decide_eq_true (List.mem_filter.mp hi).2
          · intro hval2 hch0 hpe
            have hpie : (relevant.filter (fun i =>
                assertionEffect allA i (cand :: parentSuffix)
                  = some .Contradiction)).isEmpty = true := by
              rw [hpe]
              rfl
            refine absurd hch0 (hloopspec.2.2.2.2 ?_
              (Or.inr ⟨cf, List.mem_range.mpr hcfN, hcfnin⟩))
            simpa using hpie
          · intro hval2 child hchild
            rcases (hloopspec.2.2.2.1 hval2).2 child hchild with h | h
            · simp at h
            · exact h
          · intro hchne c hcN hcn
            exact hloopspec.2.1 hchne c (List.mem_range.mpr hcN) hcn
          · intro child hchild
            rcases hloopspec.2.2.1 child hchild with h | h
            · simp at h
            · exact h
          · intro _
            exact hlenlt
      · -- leaf node
        rename_i hguard
        have h2 := Except.ok.inj (Option.some.inj heq)
        have htree : (⟨cand, relevant.filter (fun i =>
            assertionEffect allA i (cand :: parentSuffix)
              = some .Contradiction), [],
            (relevant.filter (fun i =>
              assertionEffect allA i (cand :: parentSuffix)
                = some .Contradiction)).isEmpty
            && (relevant.filter (fun i =>
              assertionEffect allA i (cand :: parentSuffix)
                = some .NeedsMoreDetail)).isEmpty⟩
            : TreeNodeShowingWhatAssertionsPrunedIt) = tree :=
          congrArg (fun p => p.1) h2
        rw [← htree]
        refine ⟨?_, rfl⟩
        refine TreeNodeOK.intro cand _ [] _ parentSuffix ?_ ?_ ?_ ?_ ?_ ?_
        · intro i hi
          exact of_decide_eq_true (List.mem_filter.mp hi).2
        · intro hval0 _ hpe
          rw [hpe] at hval0
          simp only [List.isEmpty_nil, Bool.true_and] at hval0
          rw [hpe] at hguard
          simp only [List.isEmpty_nil, Bool.true_or, Bool.true_and] at hguard
          have : (relevant.filter (fun i =>
              assertionEffect allA i (cand :: parentSuffix)
                = some .NeedsMoreDetail)).isEmpty = true := by
            rcases hb2 : (relevant.filter (fun i =>
                assertionEffect allA i (cand :: parentSuffix)
                  = some .NeedsMoreDetail)).isEmpty with _ | _
            · exact absurd (by rw [hb2]; rfl) hguard
            · rfl
          rw [this] at hval0
          simp at hval0
        · intro _ child hchild
          simp at hchild
        · intro hne
          exact absurd rfl hne
        · intro child hchild
          simp at hchild
        · intro hne
          exact absurd rfl hne

/-- Every tree the building loop appends is well-formed, invalid (it rules
its loser out), and each processed non-winning candidate got a tree. -/
theorem buildTreesLoop_spec (allA : List Assertion) (N winner : Nat)
    (policy : HowFarToContinueSearchTreeWhenPruningAssertionFound)
    (hA : ∀ a ∈ allA, a.AOK N) :
    ∀ (l : List Nat) (fu : HeuristicWorkOutWhichAssertionsAreUsed)
      (trees : List TreeNodeShowingWhatAssertionsPrunedIt) (t : TimeOut)
      (fu' : HeuristicWorkOutWhichAssertionsAreUsed)
      (trees' : List TreeNodeShowingWhatAssertionsPrunedIt) (t' : TimeOut),
      (∀ x ∈ l, x < N) →
      buildTreesLoop allA N winner policy l fu trees t
        = some (.ok (fu', trees', t')) →
      (∀ tr ∈ trees, tr ∈ trees') ∧
      (∀ tr ∈ trees', tr ∈ trees
        ∨ (TreeNodeOK allA N tr [] ∧ tr.valid = false)) ∧
      (∀ c ∈ l, c ≠ winner → ∃ tr ∈ trees',
        tr.candidateBeingEliminatedAtThisNode = c) := by
  intro l
  induction l with
  | nil =>
    intro fu trees t fu' trees' t' _ heq
    rw [buildTreesLoop] at heq
    have h2 := Except.ok.inj (Option.some.inj heq)
    have h3 : trees = trees' := congrArg (fun p => p.2.1) h2
    subst h3
    refine ⟨fun tr htr => htr, fun tr htr => Or.inl htr, ?_⟩
    intro c hc
    simp at hc
  | cons c0 rest ih =>
    intro fu trees t fu' trees' t' hlt heq
    have hltrest : ∀ x ∈ rest, x < N :=
      fun x hx => hlt x (List.mem_cons_of_mem c0 hx)
    simp only [buildTreesLoop] at heq
    split at heq
    · rename_i hcw
      split at heq
      · simp at heq
      · simp at heq
      · rename_i tree t2 htn
        split at heq
        · simp at heq
        · rename_i hvne
          have hveq : tree.valid = decide (c0 = winner) := not_not.mp hvne
          have hvf : tree.valid = false := by
            rw [hveq, decide_eq_false hcw]
          have hOK := treeNew_OK allA N hA (N + 1) [] c0
            (List.range allA.length) policy t tree t2
            (List.nodup_nil) (by intro x hx; simp at hx)
            (hlt c0 (List.mem_cons_self _ _)) (by simp) htn
          have hrec := ih (addTreeForced fu tree) (trees ++ [tree]) t2
            fu' trees' t' hltrest heq
          refine ⟨?_, ?_, ?_⟩
          · intro tr htr
            exact hrec.1 tr (List.mem_append_left _ htr)
          · intro tr htr
            rcases hrec.2.1 tr htr with hin | hOK2
            · rcases List.mem_append.mp hin with h | h
              · exact Or.inl h
              · rcases List.mem_singleton.mp h with rfl
                exact Or.inr ⟨hOK.1, hvf⟩
            · exact Or.inr hOK2
          · intro c hc hcne
            rcases List.mem_cons.mp hc with rfl | hc2
            · exact ⟨tree, hrec.1 tree (List.mem_append_right _
                (List.mem_singleton_self _)), hOK.2⟩
            · exact hrec.2.2 c hc2 hcne
    · rename_i hcw
      have hrec := ih fu trees t fu' trees' t' hltrest heq
      refine ⟨hrec.1, hrec.2.1, ?_⟩
      intro c hc hcne
      rcases List.mem_cons.mp hc with rfl | hc2
      · exact absurd hcne hcw
      · exact hrec.2.2 c hc2 hcne

/-- Sorting preserves ruling an order out. -/
theorem sortAssertions_rulesOut (assertions : List AssertionAndDifficulty)
    (τ : List Nat) (h : RulesOut assertions τ) :
    RulesOut (sortAssertions assertions) τ := by
  obtain ⟨ad, had, hc⟩ := h
  rw [sortAssertions]
  exact ⟨ad, (List.perm_insertionSort _ _).mem_iff.mpr had, hc⟩

/-- Sorting preserves structural sanity of every assertion. -/
theorem sortAssertions_AOK (assertions : List AssertionAndDifficulty)
    (N : Nat) (h : ∀ ad ∈ assertions, ad.assertion.AOK N) :
    ∀ ad ∈ sortAssertions assertions, ad.assertion.AOK N := by
  intro ad had
  rw [sortAssertions] at had
  exact h ad ((List.perm_insertionSort _ _).mem_iff.mp had)

/-- A successful trimming pass still rules out every full elimination order
ending at a non-winning candidate: the kept assertions eliminate that
candidate's whole pruning tree. -/
theorem orderAssertions_covers (assertions : List AssertionAndDifficulty)
    (winner N : Nat) (trim : TrimAlgorithm) (t : TimeOut)
    (trimmed : List AssertionAndDifficulty) (t' : TimeOut)
    (hA : ∀ ad ∈ assertions, ad.assertion.AOK N)
    (h : orderAssertionsAndRemoveUnnecessary assertions winner N trim t
      = some (.ok (trimmed, t')))
    (τ : List Nat) (hgood : GoodOrder N τ) (c : Nat)
    (hlast : τ.getLast? = some c) (hcw : c ≠ winner)
    (hRO : RulesOut assertions τ) :
    RulesOut trimmed τ := by
  have hROs := sortAssertions_rulesOut assertions τ hRO
  have hAs := sortAssertions_AOK assertions N hA
  have hsuf : [c] <:+ τ := getLast_singleton_suffix hlast
  have hcN : c < N :=
    (hgood.mem_iff c).mp (hsuf.sublist.mem (List.mem_singleton_self c))
  simp only [orderAssertionsAndRemoveUnnecessary] at h
  split at h
  · have h2 := Except.ok.inj (Option.some.inj h)
    have h3 : sortAssertions assertions = trimmed := congrArg (fun p => p.1) h2
    exact h3 ▸ hROs
  · rename_i policy hpol
    split at h
    · simp at h
    · simp at h
    · rename_i fu0 trees t1 hbt
      split at h
      · simp at h
      · rename_i fu t2 hsp
        have h2 := Except.ok.inj (Option.some.inj h)
        have h3 : ((sortAssertions assertions).enum.filter
            (fun p => fu.uses p.1)).map (fun q => q.2) = trimmed :=
          congrArg (fun p => p.1) h2
        have hAOKall : ∀ a ∈ (sortAssertions assertions).map (·.assertion),
            a.AOK N := by
          intro a ha
          obtain ⟨ad, had, rfl⟩ := List.mem_map.mp ha
          exact hAs ad had
        have hbspec := buildTreesLoop_spec _ N winner policy hAOKall
          (List.range N) HeuristicWorkOutWhichAssertionsAreUsed.new [] t
          fu0 trees t1 (fun x hx => List.mem_range.mp hx) hbt
        obtain ⟨tr, htr, htrc⟩ :=
          hbspec.2.2 c (List.mem_range.mpr hcN) hcw
        have htrOK : TreeNodeOK ((sortAssertions assertions).map (·.assertion))
            N tr [] ∧ tr.valid = false := by
          rcases hbspec.2.1 tr htr with hin | hOK2
          · simp at hin
          · exact hOK2
        have htrees : ∀ n ∈ trees,
            (∃ σ, TreeNodeOK ((sortAssertions assertions).map (·.assertion))
              N n σ) ∧ n.valid = false := by
          intro n hn
          rcases hbspec.2.1 n hn with hin | hOK2
          · simp at hin
          · exact ⟨⟨[], hOK2.1⟩, hOK2.2⟩
        have hkill := (addTreeSecondPass_kills _ N (treeListSize trees)).2
          trees fu0 t1 fu t2 (le_refl _) htrees hsp tr htr
        obtain ⟨i, huse, heff⟩ := treeNodeOK_kill_cover _ N fu tr []
          htrOK.1 htrOK.2 hkill τ hgood (by rw [htrc]; exact hsuf)
        rw [assertionEffect] at heff
        obtain ⟨a, hget, haeff⟩ := Option.map_eq_some'.mp heff
        rw [List.get?_map] at hget
        obtain ⟨ad, hget2, hadass⟩ := Option.map_eq_some'.mp hget
        refine ⟨ad, ?_, by rw [hadass]; exact haeff⟩
        rw [← h3]
        refine List.mem_map.mpr ⟨(i, ad), ?_, rfl⟩
        refine List.mem_filter.mpr ⟨List.mk_mem_enum_iff_get?.mpr hget2, huse⟩

/-- The finalisation step still rules out every full elimination order
ending at a non-winning candidate, in both its success cases. -/
theorem trimAndFinalize_covers (assertions : List AssertionAndDifficulty)
    (winner N : Nat) (trim : TrimAlgorithm) (t : TimeOut)
    (trimmed : List AssertionAndDifficulty) (flag : Bool)
    (hA : ∀ ad ∈ assertions, ad.assertion.AOK N)
    (h : trimAndFinalize assertions winner N trim t
      = some (.ok (trimmed, flag)))
    (τ : List Nat) (hgood : GoodOrder N τ) (c : Nat)
    (hlast : τ.getLast? = some c) (hcw : c ≠ winner)
    (hRO : RulesOut assertions τ) :
    RulesOut trimmed τ := by
  simp only [trimAndFinalize] at h
  split at h
  · simp at h
  · rename_i tr0 t0 hord
    have h2 := Except.ok.inj (Option.some.inj h)
    have h3 : tr0 = trimmed := congrArg (fun p => p.1) h2
    rw [← h3]
    exact orderAssertions_covers assertions winner N trim t tr0 t0 hA hord
      τ hgood c hlast hcw hRO
  · have h2 := Except.ok.inj (Option.some.inj h)
    have h3 : sortAssertions assertions = trimmed := congrArg (fun p => p.1) h2
    rw [← h3]
    exact sortAssertions_rulesOut assertions τ hRO
  · simp at h

/-- An `Ok` result of `raire` rules out every full elimination order ending
at a non-winning candidate. -/
theorem raire_covers (ho : HashOrder) (vs : Votes) (winner : Option Nat)
    (audit : Nat → Nat → Nat → Difficulty) (trim : TrimAlgorithm)
    (timeout : TimeOut) (res : RaireResult)
    (h : raire ho vs winner audit trim timeout = some (.ok res)) :
    ∀ τ : List Nat, GoodOrder vs.numCandidates τ →
      ∀ c, τ.getLast? = some c → c ≠ res.winner →
      RulesOut res.assertions τ := by
  intro τ hgood c hlast hcw
  simp only [raire] at h
  split at h
  · simp at h
  · rename_i irvResult t2 hrun
    split at h
    · simp at h
    · split at h
      · simp at h
      · rename_i hl1
        split at h
        · simp at h
        · simp at h
        · rename_i A bound hloop
          split at h
          · simp at h
          · simp at h
          · rename_i Atr flag htrim
            have hres := Except.ok.inj (Option.some.inj h)
            have hrA : Atr = res.assertions :=
              congrArg RaireResult.assertions hres
            have hrw : irvResult.possibleWinners.head?.getD 0 = res.winner :=
              congrArg RaireResult.winner hres
            obtain ⟨w0, hw0⟩ := List.length_eq_one.mp (of_not_not hl1)
            have hwval : irvResult.possibleWinners.head?.getD 0 = w0 := by
              rw [hw0]
              rfl
            have hwmem : w0 ∈ irvResult.possibleWinners := by
              rw [hw0]
              exact List.mem_singleton_self w0
            have hwN : w0 < vs.numCandidates :=
              runElection_possibleWinners_lt vs ho timeout irvResult t2
                hrun w0 hwmem
            have hcww0 : c ≠ w0 := by
              rw [← hwval, hrw]
              exact hcw
            have hperm := runElection_eliminationOrder_perm vs ho timeout
              irvResult t2 hrun
            have hirvND : irvResult.eliminationOrder.Nodup :=
              hperm.nodup_iff.mpr (List.nodup_range _)
            have hirvN : ∀ x ∈ irvResult.eliminationOrder,
                x < vs.numCandidates :=
              fun x hx => List.mem_range.mp (hperm.mem_iff.mp hx)
            have hb0 : (0 : Difficulty) ≠ ⊤ := by simp
            rw [hwval] at hloop htrim
            have hRO := raireLoop_covers vs audit w0
              irvResult.eliminationOrder hirvND hirvN
              (raireSearchFuel vs.numCandidates) []
              0 (initialFrontier vs audit w0) A bound hb0
              (initialFrontier_entryOK vs audit w0) hloop τ hgood
              (initialFrontier_covers vs audit w0 τ hgood c hlast
                hcww0 hwN)
            have hAOK := raireLoop_AOK vs audit w0
              irvResult.eliminationOrder hirvND hirvN
              (raireSearchFuel vs.numCandidates) []
              0 (initialFrontier vs audit w0) A bound hb0
              (by intro ad had; simp at had)
              (initialFrontier_entryOK vs audit w0) hloop
            rw [← hrA]
            exact trimAndFinalize_covers A w0 vs.numCandidates trim t2
              Atr flag hAOK htrim τ hgood c hlast hcww0 hRO

/-- C1: soundness of the emitted assertion set.  For every problem the
top-level solver answers with `Ok` and every candidate `c` other than the
returned winner, every full elimination order (a permutation of all the
candidates, first eliminated at index 0) that ends with `c` is contradicted
by at least one assertion of the returned (post-trimming) list under
`ok_elimination_order_suffix`. -/
theorem claim_C1_soundness (ho : HashOrder) (p : RaireProblem)
    (res : RaireResult)
    (h : RaireProblem.solve ho p = some (.ok res)) :
    ∀ τ : List Nat, GoodOrder p.numCandidates τ →
      ∀ c, τ.getLast? = some c → c ≠ res.winner →
      RulesOut res.assertions τ := by
  intro τ hgood c hlast hcw
  rw [RaireProblem.solve] at h
  split at h
  · simp at h
  · split at h
    · simp at h
    · split at h
      · simp at h
      · rename_i votes hnew
        have hN : votes.numCandidates = p.numCandidates := by
          rw [Votes.new] at hnew
          split at hnew
          · have := Except.ok.inj hnew
            rw [← this]
          · simp at hnew
        exact raire_covers ho votes p.winner p.audit
          (p.trimAlgorithm.getD .MinimizeTree) TimeOut.never res h
          τ (by rw [hN]; exact hgood) c hlast hcw

/-- Witness for C1: a concrete solved two-candidate contest, where the
order eliminating the winner first (so ending at the loser) is contradicted
by the returned assertion list. -/
theorem claim_C1_witness :
    RaireProblem.solve idHashOrder
        { numCandidates := 2, votes := [⟨3, [0, 1]⟩, ⟨1, [1]⟩],
          winner := none,
          audit := fun w l t =>
            (BallotComparisonOneOnDilutedMargin.mk 4).difficulty w l t,
          trimAlgorithm := some .MinimizeAssertions,
          difficultyEstimate := none, timeLimitSeconds := none }
      = some (.ok ⟨[⟨.NEB ⟨0, 1⟩, ((2 : Rat) : Difficulty)⟩],
          ((2 : Rat) : Difficulty), 0, 2, false⟩) ∧
    GoodOrder 2 [0, 1] ∧ [0, 1].getLast? = some 1 ∧ (1 : Nat) ≠ 0 ∧
    RulesOut [⟨.NEB ⟨0, 1⟩, ((2 : Rat) : Difficulty)⟩] [0, 1] := by
  refine ⟨by decide, show ([0, 1] : List Nat).Perm (List.range 2) by decide,
    rfl, by decide, ?_⟩
  exact claim_C1_soundness idHashOrder
    { numCandidates := 2, votes := [⟨3, [0, 1]⟩, ⟨1, [1]⟩],
      winner := none,
      audit := fun w l t =>
        (BallotComparisonOneOnDilutedMargin.mk 4).difficulty w l t,
      trimAlgorithm := some .MinimizeAssertions,
      difficultyEstimate := none, timeLimitSeconds := none }
    ⟨[⟨.NEB ⟨0, 1⟩, ((2 : Rat) : Difficulty)⟩],
      ((2 : Rat) : Difficulty), 0, 2, false⟩
    (by decide) [0, 1] (show ([0, 1] : List Nat).Perm (List.range 2) by decide)
    1 rfl (by decide)

/-! ### The returned difficulty is the largest kept difficulty (C2) -/

theorem find_congr {α : Type} (p q : α → Bool) (hpq : ∀ x, p x = q x) :
    ∀ l : List α, l.find? p = l.find? q := by
  intro l
  induction l with
  | nil => rfl
  | cons a l ih =>
    simp only [List.find?_cons, hpq a]
    cases q a
    · exact ih
    · rfl

/-- The top continuing preference only depends on the continuing set. -/
theorem topPreference_perm (v : Vote) (C0 C : List Nat) (h : C0.Perm C) :
    Votes.topPreference v C0 = Votes.topPreference v C := by
  rw [Votes.topPreference, Votes.topPreference]
  exact find_congr _ _ (fun x => decide_eq_decide.mpr h.mem_iff) v.prefs

/-- A candidate tally only depends on the continuing set. -/
theorem tallyOf_perm (vs : Votes) (C0 C : List Nat) (h : C0.Perm C) (c : Nat) :
    vs.tallyOf C0 c = vs.tallyOf C c := by
  rw [Votes.tallyOf, Votes.tallyOf]
  congr 1
  refine List.map_congr_left ?_
  intro v _
  rw [topPreference_perm v C0 C h]

/-- The total restricted tally only depends on the continuing set. -/
theorem restrictedTallies_sum_perm (vs : Votes) (C0 C : List Nat)
    (h : C0.Perm C) :
    (vs.restrictedTallies C0).sum = (vs.restrictedTallies C).sum := by
  rw [Votes.restrictedTallies, Votes.restrictedTallies]
  rw [List.map_congr_left (fun x _ => tallyOf_perm vs C0 C h x)]
  exact (h.map (vs.tallyOf C)).sum_eq

/-- A duplicate-free bounded list of full length is a full order. -/
theorem goodOrder_of_nodup_bounded_length (N : Nat) (σ : List Nat)
    (hnd : σ.Nodup) (hb : ∀ x ∈ σ, x < N) (hlen : σ.length = N) :
    GoodOrder N σ := by
  have hsp : List.Subperm σ (List.range N) :=
    hnd.subperm (fun x hx => List.mem_range.mpr (hb x hx))
  exact hsp.perm_of_length_le (by rw [List.length_range, hlen])

theorem le_maxDifficulty (l : List AssertionAndDifficulty)
    (ad : AssertionAndDifficulty) (h : ad ∈ l) :
    ad.difficulty ≤ maxDifficulty l := by
  induction l with
  | nil => simp at h
  | cons a rest ih =>
    rcases List.mem_cons.mp h with rfl | h2
    · exact le_max_left _ _
    · exact le_trans (ih h2) (le_max_right _ _)

theorem maxDifficulty_le (l : List AssertionAndDifficulty) (b : Difficulty)
    (hb : 0 ≤ b) (h : ∀ ad ∈ l, ad.difficulty ≤ b) :
    maxDifficulty l ≤ b := by
  induction l with
  | nil => exact hb
  | cons a rest ih =>
    exact max_le (h a (List.mem_cons_self _ _))
      (ih (fun ad had => h ad (List.mem_cons_of_mem a had)))

/-- A contradicting scan finds the loser with the winner nowhere closer to
the rear. -/
theorem checkScan_contradiction_structure (w l : Nat) :
    ∀ xs : List Nat,
      checkWinnerEliminatedAfterLoser.go w l xs = .Contradiction →
      ∃ as bs, xs = as ++ l :: bs ∧ w ∉ as ∧ l ∉ as := by
  intro xs
  induction xs with
  | nil =>
    intro h
    rw [checkWinnerEliminatedAfterLoser.go] at h
    cases h
  | cons c rest ih =>
    intro h
    rw [checkWinnerEliminatedAfterLoser.go] at h
    split at h
    · cases h
    · split at h
      · rename_i hw hc
        exact ⟨[], rest, by rw [hc]; rfl, by simp, by simp⟩
      · rename_i hw hc
        obtain ⟨as, bs, heq, hwas, hlas⟩ := ih h
        refine ⟨c :: as, bs, by rw [heq]; rfl, ?_, ?_⟩
        · intro hm
          rcases List.mem_cons.mp hm with rfl | hm2
          · exact hw rfl
          · exact hwas hm2
        · intro hm
          rcases List.mem_cons.mp hm with rfl | hm2
          · exact hc rfl
          · exact hlas hm2

/-- A contradicted NEB splits the order at the loser, with neither candidate
appearing later. -/
theorem neb_contradiction_structure (a : NotEliminatedBefore) (τ : List Nat)
    (h : a.okEliminationOrderSuffix τ = .Contradiction) :
    ∃ u v, τ = u ++ a.loser :: v ∧ a.winner ∉ v ∧ a.loser ∉ v := by
  rw [NotEliminatedBefore.okEliminationOrderSuffix,
    checkWinnerEliminatedAfterLoser] at h
  obtain ⟨as, bs, heq, hwas, hlas⟩ :=
    checkScan_contradiction_structure _ _ _ h
  refine ⟨bs.reverse, as.reverse, ?_, by simpa using hwas, by simpa using hlas⟩
  have h2 := congrArg List.reverse heq
  rw [List.reverse_reverse] at h2
  rw [h2]
  simp

/-- A contradicted NEN pins the considered segment: a suffix of the order of
exactly the continuing set's size, inside the continuing set, headed by the
winner. -/
theorem nen_contradiction_structure (a : NotEliminatedNext)
    (hs : a.continuing.Sorted (· < ·)) (τ : List Nat)
    (h : a.okEliminationOrderSuffix τ = .Contradiction) :
    ∃ σ, σ <:+ τ ∧ σ.length = a.continuing.length ∧
      (∀ c ∈ σ, c ∈ a.continuing) ∧ σ.head? = some a.winner := by
  simp only [NotEliminatedNext.okEliminationOrderSuffix] at h
  by_cases hlen : τ.length > a.continuing.length
  · rw [if_pos hlen] at h
    refine ⟨τ.drop (τ.length - a.continuing.length), List.drop_suffix _ _,
      by rw [List.length_drop]; omega, ?_, ?_⟩
    · split at h
      · rename_i hall
        intro c hc
        have := List.all_eq_true.mp hall c hc
        rw [NotEliminatedNext.isContinuing,
          binarySearchContains_iff_mem _ _ hs] at this
        exact this
      · cases h
    · split at h
      · split at h
        · split at h
          · assumption
          · cases h
        · split at h
          · cases h
          · cases h
      · cases h
  · rw [if_neg hlen] at h
    refine ⟨τ, List.suffix_refl τ, ?_, ?_, ?_⟩
    · split at h
      · split at h
        · assumption
        · split at h
          · cases h
          · cases h
      · cases h
    · split at h
      · rename_i hall
        intro c hc
        have := List.all_eq_true.mp hall c hc
        rw [NotEliminatedNext.isContinuing,
          binarySearchContains_iff_mem _ _ hs] at this
        exact this
      · cases h
    · split at h
      · split at h
        · split at h
          · assumption
          · cases h
        · split at h
          · cases h
          · cases h
      · cases h

/-- Characterisation of the winner/loser-selection fold of
`find_best_difficulty`: the winner slot records the winner tally, the loser
slot tracks a non-winner of minimal tally, and both loser slots fill
together. -/
theorem fbdFold_spec (w : Nat) (f : Nat → Nat) :
    ∀ (l : List Nat) (st : Option Nat × Option Nat × Option Nat),
      (st.1 = none ∨ st.1 = some (f w)) →
      (∀ l0, st.2.2 = some l0 → st.2.1 = some (f l0) ∧ l0 ≠ w) →
      (st.2.1 = none ↔ st.2.2 = none) →
      ((w ∈ l ∨ st.1 = some (f w)) →
        (l.foldl (fbdStep w f) st).1 = some (f w)) ∧
      (∀ c, ((∃ t, st.2.1 = some t ∧ t ≤ f c) ∨ (c ∈ l ∧ c ≠ w)) →
        ∃ t0, (l.foldl (fbdStep w f) st).2.1 = some t0 ∧ t0 ≤ f c) ∧
      (∀ l0, (l.foldl (fbdStep w f) st).2.2 = some l0 →
        (l.foldl (fbdStep w f) st).2.1 = some (f l0) ∧ l0 ≠ w ∧
          (l0 ∈ l ∨ st.2.2 = some l0)) ∧
      ((l.foldl (fbdStep w f) st).2.1 = none ↔
        (l.foldl (fbdStep w f) st).2.2 = none) := by
  intro l
  induction l with
  | nil =>
    intro st h1 hlink hiff
    refine ⟨?_, ?_, ?_, hiff⟩
    · intro h
      rcases h with h | h
      · simp at h
      · exact h
    · intro c h
      rcases h with ⟨t, ht, htle⟩ | ⟨hm, _⟩
      · exact ⟨t, ht, htle⟩
      · simp at hm
    · intro l0 h
      exact ⟨(hlink l0 h).1, (hlink l0 h).2, Or.inr h⟩
  | cons c0 rest ih =>
    intro st h1 hlink hiff
    rw [List.foldl_cons]
    by_cases hw : w = c0
    · have hst' : fbdStep w f st c0 = (some (f c0), st.2.1, st.2.2) := by
        rw [fbdStep, if_pos hw]
      rw [hst']
      have hrec := ih (some (f c0), st.2.1, st.2.2)
        (Or.inr (by rw [hw])) hlink hiff
      refine ⟨fun _ => hrec.1 (Or.inr (by rw [hw])), ?_, ?_, hrec.2.2.2⟩
      · intro c h
        refine hrec.2.1 c ?_
        rcases h with h | ⟨hm, hcw⟩
        · exact Or.inl h
        · rcases List.mem_cons.mp hm with rfl | hm2
          · exact absurd hw.symm hcw
          · exact Or.inr ⟨hm2, hcw⟩
      · intro l0 h
        obtain ⟨ha, hb, hc⟩ := hrec.2.2.1 l0 h
        refine ⟨ha, hb, ?_⟩
        rcases hc with h2 | h2
        · exact Or.inl (List.mem_cons_of_mem _ h2)
        · exact Or.inr h2
    · by_cases hall : st.2.1.all (fun tl => f c0 ≤ tl) = true
      · have hst' : fbdStep w f st c0 = (st.1, some (f c0), some c0) := by
          rw [fbdStep, if_neg hw, if_pos hall]
        rw [hst']
        have hlink' : ∀ l0,
            ((st.1, some (f c0), some c0)
              : Option Nat × Option Nat × Option Nat).2.2 = some l0 →
            ((st.1, some (f c0), some c0)
              : Option Nat × Option Nat × Option Nat).2.1 = some (f l0)
              ∧ l0 ≠ w := by
          intro l0 h0
          have h0e : c0 = l0 := Option.some.inj h0
          rw [← h0e]
          exact ⟨rfl, fun hh => hw hh.symm⟩
        have hrec := ih (st.1, some (f c0), some c0) h1 hlink' (by simp)
        refine ⟨?_, ?_, ?_, hrec.2.2.2⟩
        · intro h
          refine hrec.1 ?_
          rcases h with h | h
          · rcases List.mem_cons.mp h with h2 | h2
            · exact absurd h2 hw
            · exact Or.inl h2
          · exact Or.inr h
        · intro c h
          rcases h with ⟨t, ht, htle⟩ | ⟨hm, hcw⟩
          · have hle : f c0 ≤ t := by
              rw [ht] at hall
              simpa using hall
            exact hrec.2.1 c (Or.inl ⟨f c0, rfl, le_trans hle htle⟩)
          · rcases List.mem_cons.mp hm with rfl | hm2
            · exact hrec.2.1 c (Or.inl ⟨f c, rfl, le_refl _⟩)
            · exact hrec.2.1 c (Or.inr ⟨hm2, hcw⟩)
        · intro l0 h
          obtain ⟨ha, hb, hc⟩ := hrec.2.2.1 l0 h
          refine ⟨ha, hb, ?_⟩
          rcases hc with h2 | h2
          · exact Or.inl (List.mem_cons_of_mem _ h2)
          · refine Or.inl ?_
            have h2e : c0 = l0 := Option.some.inj h2
            rw [← h2e]
            exact List.mem_cons_self _ _
      · have hst' : fbdStep w f st c0 = st := by
          rw [fbdStep, if_neg hw, if_neg hall]
        rw [hst']
        have hrec := ih st h1 hlink hiff
        refine ⟨?_, ?_, ?_, hrec.2.2.2⟩
        · intro h
          refine hrec.1 ?_
          rcases h with h | h
          · rcases List.mem_cons.mp h with h2 | h2
            · exact absurd h2 hw
            · exact Or.inl h2
          · exact Or.inr h
        · intro c h
          rcases h with hpers | ⟨hm, hcw⟩
          · exact hrec.2.1 c (Or.inl hpers)
          · rcases List.mem_cons.mp hm with rfl | hm2
            · rcases hst21 : st.2.1 with _ | t
              · exfalso
                rw [hst21] at hall
                simp at hall
              · have hnle : ¬ (f c ≤ t) := by
                  rw [hst21] at hall
                  simpa using hall
                exact hrec.2.1 c (Or.inl ⟨t, hst21, by omega⟩)
            · exact hrec.2.1 c (Or.inr ⟨hm2, hcw⟩)
        · intro l0 h
          obtain ⟨ha, hb, hc⟩ := hrec.2.2.1 l0 h
          refine ⟨ha, hb, ?_⟩
          rcases hc with h2 | h2
          · exact Or.inl (List.mem_cons_of_mem _ h2)
          · exact Or.inr h2

/-- `find_best_difficulty` written through the tally-function fold. -/
theorem findBestDifficulty_eq (vs : Votes)
    (audit : Nat → Nat → Nat → Difficulty) (σ : List Nat) (w : Nat) :
    NotEliminatedNext.findBestDifficulty vs audit σ w
      = (match (σ.foldl (fbdStep w (vs.tallyOf σ)) (none, none, none)).2.2,
              (σ.foldl (fbdStep w (vs.tallyOf σ)) (none, none, none)).2.1 with
        | some loser, some tallyLoser =>
          some ⟨.NEN ⟨w, loser, σ.insertionSort (· ≤ ·)⟩,
            audit ((σ.foldl (fbdStep w (vs.tallyOf σ))
                (none, none, none)).1.getD 0)
              tallyLoser (vs.restrictedTallies σ).sum⟩
        | _, _ => none) := by
  simp only [NotEliminatedNext.findBestDifficulty]
  have hz : σ.zip (vs.restrictedTallies σ)
      = σ.map (fun c => (c, vs.tallyOf σ c)) := by
    rw [Votes.restrictedTallies]
    exact (List.map_prod_left_eq_zip _).symm
  rw [hz, List.foldl_map]
  rfl

/-- Everything `find_best_difficulty` returns carries its canonical
difficulty. -/
theorem findBestDifficulty_canonical (vs : Votes)
    (audit : Nat → Nat → Nat → Difficulty) (σ : List Nat) (w : Nat)
    (hw : w ∈ σ) :
    ∀ ad, NotEliminatedNext.findBestDifficulty vs audit σ w = some ad →
      adCanonical vs audit ad := by
  intro ad had
  rw [findBestDifficulty_eq] at had
  have hspec := fbdFold_spec w (vs.tallyOf σ) σ (none, none, none)
    (Or.inl rfl) (by intro l0 h0; simp at h0) (by simp)
  split at had
  · rename_i l0 t0 h22 h21
    have hl := hspec.2.2.1 l0 h22
    have hlmem : l0 ∈ σ := by
      rcases hl.2.2 with h | h
      · exact h
      · simp at h
    have ht0 : t0 = vs.tallyOf σ l0 := by
      rw [hl.1] at h21
      exact (Option.some.inj h21).symm
    have hw1 : (σ.foldl (fbdStep w (vs.tallyOf σ)) (none, none, none)).1
        = some (vs.tallyOf σ w) := hspec.1 (Or.inl hw)
    have hade := Option.some.inj had
    rw [← hade]
    have hperm : σ.Perm (σ.insertionSort (· ≤ ·)) :=
      (List.perm_insertionSort _ _).symm
    refine ⟨hperm.mem_iff.mp hlmem, hl.2.1, ?_⟩
    show audit _ t0 (vs.restrictedTallies σ).sum
      = audit (vs.tallyOf (σ.insertionSort (· ≤ ·)) w)
        (vs.tallyOf (σ.insertionSort (· ≤ ·)) l0)
        (vs.restrictedTallies (σ.insertionSort (· ≤ ·))).sum
    rw [hw1, ht0, restrictedTallies_sum_perm vs σ _ hperm,
      tallyOf_perm vs σ _ hperm w, tallyOf_perm vs σ _ hperm l0]
    rfl
  · cases had

/-- `find_best_difficulty` with the winner present and any non-winner `c`
continuing succeeds, no harder than auditing against `c` itself. -/
theorem findBestDifficulty_min (vs : Votes)
    (audit : Nat → Nat → Nat → Difficulty) (hm : AuditMono audit)
    (σ : List Nat) (w : Nat) (hw : w ∈ σ) (c : Nat) (hc : c ∈ σ)
    (hcw : c ≠ w) :
    ∃ ad, NotEliminatedNext.findBestDifficulty vs audit σ w = some ad ∧
      ad.difficulty ≤ audit (vs.tallyOf σ w) (vs.tallyOf σ c)
        (vs.restrictedTallies σ).sum := by
  have hspec := fbdFold_spec w (vs.tallyOf σ) σ (none, none, none)
    (Or.inl rfl) (by intro l0 h0; simp at h0) (by simp)
  obtain ⟨t0, h21, ht0⟩ := hspec.2.1 c (Or.inr ⟨hc, hcw⟩)
  rw [findBestDifficulty_eq]
  rcases h22 : (σ.foldl (fbdStep w (vs.tallyOf σ)) (none, none, none)).2.2
    with _ | l0
  · exfalso
    rw [hspec.2.2.2.mpr h22] at h21
    cases h21
  · rw [h21, hspec.1 (Or.inl hw)]
    refine ⟨_, rfl, ?_⟩
    show audit ((some (vs.tallyOf σ w)).getD 0) t0 _ ≤ _
    rw [Option.getD_some]
    exact hm _ _ t0 _ ht0

/-- Characterisation of the best-NEB-selection fold of
`find_best_assertion_using_cache`: the running best is the cached difficulty
of the recorded contest, never increases, and is at most the cached
difficulty of every rival considered. -/
theorem cacheFold_spec (vs : Votes) (audit : Nat → Nat → Nat → Difficulty)
    (c : Nat) (laterInPi : List Nat) :
    ∀ (l : List Nat) (init : Difficulty × Option NotEliminatedBefore),
      (init.2 = none → init.1 = ⊤) →
      (∀ ct, init.2 = some ct → init.1 = nebCacheDifficulty vs audit ct) →
      ((l.foldl (fun (best : Difficulty × Option NotEliminatedBefore) altC =>
          if altC = c then best else
          if nebCacheDifficulty vs audit
              (if altC ∈ laterInPi then ⟨c, altC⟩ else ⟨altC, c⟩) < best.1 then
            (nebCacheDifficulty vs audit
              (if altC ∈ laterInPi then ⟨c, altC⟩ else ⟨altC, c⟩),
             some (if altC ∈ laterInPi then ⟨c, altC⟩ else ⟨altC, c⟩))
          else best) init).2 = none →
        (l.foldl (fun (best : Difficulty × Option NotEliminatedBefore) altC =>
          if altC = c then best else
          if nebCacheDifficulty vs audit
              (if altC ∈ laterInPi then ⟨c, altC⟩ else ⟨altC, c⟩) < best.1 then
            (nebCacheDifficulty vs audit
              (if altC ∈ laterInPi then ⟨c, altC⟩ else ⟨altC, c⟩),
             some (if altC ∈ laterInPi then ⟨c, altC⟩ else ⟨altC, c⟩))
          else best) init).1 = ⊤) ∧
      (∀ ct, (l.foldl (fun (best : Difficulty × Option NotEliminatedBefore) altC =>
          if altC = c then best else
          if nebCacheDifficulty vs audit
              (if altC ∈ laterInPi then ⟨c, altC⟩ else ⟨altC, c⟩) < best.1 then
            (nebCacheDifficulty vs audit
              (if altC ∈ laterInPi then ⟨c, altC⟩ else ⟨altC, c⟩),
             some (if altC ∈ laterInPi then ⟨c, altC⟩ else ⟨altC, c⟩))
          else best) init).2 = some ct →
        (l.foldl (fun (best : Difficulty × Option NotEliminatedBefore) altC =>
          if altC = c then best else
          if nebCacheDifficulty vs audit
              (if altC ∈ laterInPi then ⟨c, altC⟩ else ⟨altC, c⟩) < best.1 then
            (nebCacheDifficulty vs audit
              (if altC ∈ laterInPi then ⟨c, altC⟩ else ⟨altC, c⟩),
             some (if altC ∈ laterInPi then ⟨c, altC⟩ else ⟨altC, c⟩))
          else best) init).1 = nebCacheDifficulty vs audit ct) ∧
      (l.foldl (fun (best : Difficulty × Option NotEliminatedBefore) altC =>
          if altC = c then best else
          if nebCacheDifficulty vs audit
              (if altC ∈ laterInPi then ⟨c, altC⟩ else ⟨altC, c⟩) < best.1 then
            (nebCacheDifficulty vs audit
              (if altC ∈ laterInPi then ⟨c, altC⟩ else ⟨altC, c⟩),
             some (if altC ∈ laterInPi then ⟨c, altC⟩ else ⟨altC, c⟩))
          else best) init).1 ≤ init.1 ∧
      (∀ alt ∈ l, alt ≠ c →
        (l.foldl (fun (best : Difficulty × Option NotEliminatedBefore) altC =>
          if altC = c then best else
          if nebCacheDifficulty vs audit
              (if altC ∈ laterInPi then ⟨c, altC⟩ else ⟨altC, c⟩) < best.1 then
            (nebCacheDifficulty vs audit
              (if altC ∈ laterInPi then ⟨c, altC⟩ else ⟨altC, c⟩),
             some (if altC ∈ laterInPi then ⟨c, altC⟩ else ⟨altC, c⟩))
          else best) init).1
          ≤ nebCacheDifficulty vs audit
            (if alt ∈ laterInPi then ⟨c, alt⟩ else ⟨alt, c⟩)) := by
  intro l
  induction l with
  | nil =>
    intro init h1 h2
    refine ⟨h1, h2, le_refl _, ?_⟩
    intro alt halt
    simp at halt
  | cons altC rest ih =>
    intro init h1 h2
    rw [List.foldl_cons]
    by_cases hac : altC = c
    · rw [if_pos hac]
      have hrec := ih init h1 h2
      refine ⟨hrec.1, hrec.2.1, hrec.2.2.1, ?_⟩
      intro alt halt hnc
      rcases List.mem_cons.mp halt with rfl | h3
      · exact absurd hac hnc
      · exact hrec.2.2.2 alt h3 hnc
    · rw [if_neg hac]
      by_cases hlt : nebCacheDifficulty vs audit
          (if altC ∈ laterInPi then ⟨c, altC⟩ else ⟨altC, c⟩) < init.1
      · rw [if_pos hlt]
        have hrec := ih (nebCacheDifficulty vs audit
            (if altC ∈ laterInPi then ⟨c, altC⟩ else ⟨altC, c⟩),
          some (if altC ∈ laterInPi then ⟨c, altC⟩ else ⟨altC, c⟩))
          (by intro h; simp at h)
          (by intro ct hct
              have := Option.some.inj hct
              rw [← this])
        refine ⟨hrec.1, hrec.2.1, le_trans hrec.2.2.1 (le_of_lt hlt), ?_⟩
        intro alt halt hnc
        rcases List.mem_cons.mp halt with rfl | h3
        · exact hrec.2.2.1
        · exact hrec.2.2.2 alt h3 hnc
      · rw [if_neg hlt]
        have hrec := ih init h1 h2
        refine ⟨hrec.1, hrec.2.1, hrec.2.2.1, ?_⟩
        intro alt halt hnc
        rcases List.mem_cons.mp halt with rfl | h3
        · exact le_trans hrec.2.2.1 (not_lt.mp hlt)
        · exact hrec.2.2.2 alt h3 hnc

/-- Everything the cached NEB search returns carries its canonical (cached)
difficulty. -/
theorem findBestAssertionUsingCache_canonical (c : Nat) (laterInPi : List Nat)
    (vs : Votes) (audit : Nat → Nat → Nat → Difficulty) :
    ∀ ad, NotEliminatedBefore.findBestAssertionUsingCache c laterInPi vs audit
        = some ad → adCanonical vs audit ad := by
  intro ad h
  simp only [NotEliminatedBefore.findBestAssertionUsingCache] at h
  split at h
  · rename_i contest heq
    have hspec := cacheFold_spec vs audit c laterInPi
      (List.range vs.numCandidates) (⊤, none) (fun _ => rfl)
      (by intro ct hct; simp at hct)
    have hdl := hspec.2.1 contest heq
    have h2 := Option.some.inj h
    rw [← h2]
    exact hdl
  · cases h

/-- The cached NEB search result is no harder than any considered rival
contest (and the rival is infinitely hard when the search is empty). -/
theorem findBestAssertionUsingCache_min (c : Nat) (laterInPi : List Nat)
    (vs : Votes) (audit : Nat → Nat → Nat → Difficulty) (alt : Nat)
    (haltN : alt < vs.numCandidates) (haltc : alt ≠ c) :
    (∀ ad, NotEliminatedBefore.findBestAssertionUsingCache c laterInPi vs audit
        = some ad →
      ad.difficulty ≤ nebCacheDifficulty vs audit
        (if alt ∈ laterInPi then ⟨c, alt⟩ else ⟨alt, c⟩)) ∧
    (NotEliminatedBefore.findBestAssertionUsingCache c laterInPi vs audit
        = none →
      nebCacheDifficulty vs audit
        (if alt ∈ laterInPi then ⟨c, alt⟩ else ⟨alt, c⟩) = ⊤) := by
  have hspec := cacheFold_spec vs audit c laterInPi
    (List.range vs.numCandidates) (⊤, none) (fun _ => rfl)
    (by intro ct hct; simp at hct)
  have hle := hspec.2.2.2 alt (List.mem_range.mpr haltN) haltc
  constructor
  · intro ad h
    simp only [NotEliminatedBefore.findBestAssertionUsingCache] at h
    split at h
    · rename_i contest heq
      have h2 := Option.some.inj h
      rw [← h2]
      exact hle
    · cases h
  · intro h
    simp only [NotEliminatedBefore.findBestAssertionUsingCache] at h
    split at h
    · cases h
    · rename_i heq
      have := hspec.1 heq
      rw [this] at hle
      exact top_le_iff.mp hle

/-- The best audit is no harder than the NEN candidate. -/
theorem findBestAudit_le_nen (vs : Votes)
    (audit : Nat → Nat → Nat → Difficulty) (c : Nat) (rest : List Nat)
    (ad : AssertionAndDifficulty)
    (h : NotEliminatedNext.findBestDifficulty vs audit (c :: rest) c
      = some ad) :
    (findBestAudit (c :: rest) vs audit).difficulty ≤ ad.difficulty := by
  rcases hB : NotEliminatedBefore.findBestAssertionUsingCache c rest vs audit
    with _ | adNEB
  · simp only [findBestAudit, h, hB]
    split
    · exact le_refl _
    · rename_i hnlt
      have had : ad.difficulty = ⊤ := not_not.mp
        (fun hne => hnlt (lt_top_iff_ne_top.mpr hne))
      rw [had]
  · simp only [findBestAudit, h, hB]
    split
    · split
      · exact le_refl _
      · rename_i hnlt
        exact not_lt.mp hnlt
    · split
      · exact le_refl _
      · rename_i hnlt
        have had : ad.difficulty = ⊤ := not_not.mp
          (fun hne => hnlt (lt_top_iff_ne_top.mpr hne))
        rw [had]

/-- The best audit is no harder than any cached NEB rival of the suffix
head. -/
theorem findBestAudit_le_cacheAlt (vs : Votes)
    (audit : Nat → Nat → Nat → Difficulty) (c : Nat) (rest : List Nat)
    (alt : Nat) (haltN : alt < vs.numCandidates) (haltc : alt ≠ c) :
    (findBestAudit (c :: rest) vs audit).difficulty
      ≤ nebCacheDifficulty vs audit
        (if alt ∈ rest then ⟨c, alt⟩ else ⟨alt, c⟩) := by
  have hmin := findBestAssertionUsingCache_min c rest vs audit alt haltN haltc
  rcases hB : NotEliminatedBefore.findBestAssertionUsingCache c rest vs audit
    with _ | adNEB
  · rw [hmin.2 hB]
    exact le_top
  · have hle := hmin.1 adNEB hB
    rcases hNn : NotEliminatedNext.findBestDifficulty vs audit (c :: rest) c
      with _ | adNEN
    · simp only [findBestAudit, hNn, hB]
      split
      · exact hle
      · rename_i hnlt
        have hab : adNEB.difficulty = ⊤ := not_not.mp
          (fun hne => hnlt (lt_top_iff_ne_top.mpr hne))
        rw [hab] at hle
        rw [top_le_iff.mp hle]
    · simp only [findBestAudit, hNn, hB]
      split
      · split
        · rename_i hlt2 hlt
          exact le_trans (le_of_lt hlt) hle
        · exact hle
      · rename_i hnlt
        have hab : adNEB.difficulty = ⊤ := not_not.mp
          (fun hne => hnlt (lt_top_iff_ne_top.mpr hne))
        rw [hab] at hle
        rw [top_le_iff.mp hle]
        split
        · exact le_top
        · exact le_top

/-- The best audit of a nonempty suffix carries its canonical difficulty. -/
theorem findBestAudit_canonical (vs : Votes)
    (audit : Nat → Nat → Nat → Difficulty) (pi : List Nat) (hpi : pi ≠ []) :
    adCanonical vs audit (findBestAudit pi vs audit) := by
  match pi, hpi with
  | c :: rest, _ =>
  have hdef : adCanonical vs audit ⟨.NEB ⟨c, c⟩, ⊤⟩ := by
    show (⊤ : Difficulty) = nebCacheDifficulty vs audit ⟨c, c⟩
    rw [nebCacheDifficulty, if_pos rfl]
  have hnen : ∀ ad, NotEliminatedNext.findBestDifficulty vs audit (c :: rest) c
      = some ad → adCanonical vs audit ad :=
    findBestDifficulty_canonical vs audit (c :: rest) c
      (List.mem_cons_self _ _)
  have hneb : ∀ ad,
      NotEliminatedBefore.findBestAssertionUsingCache c rest vs audit
        = some ad → adCanonical vs audit ad :=
    findBestAssertionUsingCache_canonical c rest vs audit
  rcases hNn : NotEliminatedNext.findBestDifficulty vs audit (c :: rest) c
    with _ | adNEN
  · rcases hB : NotEliminatedBefore.findBestAssertionUsingCache c rest vs audit
      with _ | adNEB
    · simp only [findBestAudit, hNn, hB]
      exact hdef
    · simp only [findBestAudit, hNn, hB]
      split
      · exact hneb _ hB
      · exact hdef
  · rcases hB : NotEliminatedBefore.findBestAssertionUsingCache c rest vs audit
      with _ | adNEB
    · simp only [findBestAudit, hNn, hB]
      split
      · exact hnen _ hNn
      · exact hdef
    · simp only [findBestAudit, hNn, hB]
      split
      · split
        · exact hnen _ hNn
        · exact hneb _ hB
      · split
        · exact hnen _ hNn
        · exact hdef

/-- The heart of C2's lower bound: a canonically priced, structurally sane
assertion that contradicts a full order is at least as hard as the best
audit of some suffix of that order. -/
theorem contradiction_dominates (vs : Votes)
    (audit : Nat → Nat → Nat → Difficulty) (hm : AuditMono audit)
    (ad : AssertionAndDifficulty) (hcan : adCanonical vs audit ad)
    (hAOK : ad.assertion.AOK vs.numCandidates)
    (τ : List Nat) (hgood : GoodOrder vs.numCandidates τ)
    (hcontr : ad.assertion.okEliminationOrderSuffix τ = .Contradiction) :
    ∃ σ, σ ≠ [] ∧ σ <:+ τ ∧
      (findBestAudit σ vs audit).difficulty ≤ ad.difficulty := by
  obtain ⟨asn, d⟩ := ad
  match asn, hcan, hAOK, hcontr with
  | .NEB neb, hcan, hAOK, hcontr =>
    have hwN : neb.winner < vs.numCandidates := hAOK
    by_cases hwl : neb.winner = neb.loser
    · refine ⟨τ, ?_, List.suffix_refl τ, ?_⟩
      · have hlen : τ.length = vs.numCandidates := hgood.facts.1
        intro h0
        rw [h0] at hlen
        simp at hlen
        omega
      · show _ ≤ d
        have hd : d = ⊤ := by
          rw [show d = nebCacheDifficulty vs audit neb from hcan,
            nebCacheDifficulty, if_pos hwl]
        rw [hd]
        exact le_top
    · obtain ⟨u, v, hτ, hwv, hlv⟩ := neb_contradiction_structure neb τ hcontr
      have hwτ : neb.winner ∈ τ := (hgood.mem_iff _).mpr hwN
      have hwu : neb.winner ∈ u := by
        rw [hτ] at hwτ
        rcases List.mem_append.mp hwτ with h | h
        · exact h
        · rcases List.mem_cons.mp h with h2 | h2
          · exact absurd h2 hwl
          · exact absurd h2 hwv
      obtain ⟨u1, u2, hu⟩ := List.append_of_mem hwu
      have hlin : neb.loser ∈ u2 ++ neb.loser :: v :=
        List.mem_append_right _ (List.mem_cons_self _ _)
      have hlN : neb.loser < vs.numCandidates := by
        refine (hgood.mem_iff _).mp ?_
        rw [hτ]
        exact List.mem_append_right _ (List.mem_cons_self _ _)
      have hle := findBestAudit_le_cacheAlt vs audit neb.winner
        (u2 ++ neb.loser :: v) neb.loser hlN (fun h => hwl h.symm)
      rw [if_pos hlin] at hle
      refine ⟨neb.winner :: (u2 ++ neb.loser :: v), by simp, ?_, ?_⟩
      · refine ⟨u1, ?_⟩
        rw [hτ, hu]
        simp
      · show _ ≤ d
        rw [show d = nebCacheDifficulty vs audit neb from hcan]
        have heta : (⟨neb.winner, neb.loser⟩ : NotEliminatedBefore) = neb := rfl
        rw [heta] at hle
        exact hle
  | .NEN nen, hcan, hAOK, hcontr =>
    obtain ⟨σ, hσsuf, hσlen, hσsub, hσhead⟩ :=
      nen_contradiction_structure nen hAOK.1 τ hcontr
    match σ, hσsuf, hσlen, hσsub, hσhead with
    | c0 :: tail, hσsuf, hσlen, hσsub, hσhead =>
    have hc0 : c0 = nen.winner := Option.some.inj hσhead
    subst hc0
    have hσnd : (nen.winner :: tail).Nodup :=
      hgood.facts.2.sublist hσsuf.sublist
    have hperm : (nen.winner :: tail).Perm nen.continuing := by
      refine (hσnd.subperm hσsub).perm_of_length_le ?_
      rw [hσlen]
    have hlmem : nen.loser ∈ nen.winner :: tail := hperm.mem_iff.mpr hcan.1
    obtain ⟨adp, hadp, hple⟩ := findBestDifficulty_min vs audit hm
      (nen.winner :: tail) nen.winner (List.mem_cons_self _ _) nen.loser
      hlmem hcan.2.1
    refine ⟨nen.winner :: tail, by simp, hσsuf, ?_⟩
    show _ ≤ d
    refine le_trans (findBestAudit_le_nen vs audit nen.winner tail adp hadp) ?_
    refine le_trans hple ?_
    rw [tallyOf_perm vs _ _ hperm nen.winner,
      tallyOf_perm vs _ _ hperm nen.loser,
      restrictedTallies_sum_perm vs _ _ hperm]
    exact le_of_eq hcan.2.2.symm

/-- A commit by `just_take_assertion` keeps every committed assertion priced
canonically and within the bound. -/
theorem justTakeAssertion_le_canon (vs : Votes)
    (audit : Nat → Nat → Nat → Difficulty) (winner : Nat)
    (s : SequenceAndEffort) (hs : s.EntryOK vs audit winner)
    (A : List AssertionAndDifficulty) (F : List SequenceAndEffort)
    (b : Difficulty) (hsd : s.difficulty ≤ b)
    (hA : ∀ ad ∈ A, ad.difficulty ≤ b ∧ adCanonical vs audit ad) :
    ∀ ad ∈ (s.justTakeAssertion A F).1,
      ad.difficulty ≤ b ∧ adCanonical vs audit ad := by
  intro ad had
  rw [SequenceAndEffort.justTakeAssertion] at had
  split at had
  · exact hA ad had
  · rcases List.mem_append.mp had with h | h
    · exact hA ad h
    · have heq : ad = s.bestAssertionForAncestor := by simpa using h
      rw [heq]
      constructor
      · exact hsd
      · rw [hs.2.2.2.2.2.1]
        exact findBestAudit_canonical vs audit s.bestAncestor
          (bestAncestor_facts vs audit winner s hs).1

/-- A full-length commit preserves the C2 invariant and can only raise the
bound. -/
theorem containsAllCandidates_boundOK (vs : Votes)
    (audit : Nat → Nat → Nat → Difficulty) (winner : Nat)
    (s : SequenceAndEffort) (hs : s.EntryOK vs audit winner)
    (hful : GoodOrder vs.numCandidates s.pi)
    (A : List AssertionAndDifficulty) (F : List SequenceAndEffort)
    (bound : Difficulty) (A' : List AssertionAndDifficulty)
    (F' : List SequenceAndEffort) (bound' : Difficulty)
    (hcac : s.containsAllCandidates A F bound = .ok (A', F', bound'))
    (hB : BoundOK vs audit winner A bound) :
    BoundOK vs audit winner A' bound' ∧ bound ≤ bound' := by
  rw [SequenceAndEffort.containsAllCandidates] at hcac
  split at hcac
  · cases hcac
  · rename_i hne
    have h2 := Except.ok.inj hcac
    have hA : (s.justTakeAssertion A F).1 = A' := congrArg (fun p => p.1) h2
    have hb : (if bound < s.difficulty then s.difficulty else bound)
        = bound' := congrArg (fun p => p.2.2) h2
    have hble : bound ≤ bound' := by
      rw [← hb]
      split
      · rename_i hlt
        exact le_of_lt hlt
      · exact le_refl _
    refine ⟨⟨le_trans hB.1 hble, ?_, ?_⟩, hble⟩
    · rw [← hA]
      refine justTakeAssertion_le_canon vs audit winner s hs A F bound' ?_
        (fun ad had => ⟨le_trans (hB.2.1 ad had).1 hble, (hB.2.1 ad had).2⟩)
      rw [← hb]
      split
      · exact le_refl _
      · rename_i hnlt
        exact not_lt.mp hnlt
    · rw [← hb]
      split
      · refine Or.inr ⟨s.pi, hful, hs.2.2.2.2.2.2.2, ?_⟩
        intro σ hσ hσsuf
        exact hs.2.2.2.2.2.2.1 σ hσ hσsuf
      · exact hB.2.2

/-- The diving phase keeps every committed assertion priced canonically and
within the (unchanged) bound. -/
theorem diveLoop_le_canon (vs : Votes) (audit : Nat → Nat → Nat → Difficulty)
    (winner : Nat) (bound : Difficulty) :
    ∀ (l : List Nat), l.Nodup → (∀ x ∈ l, x < vs.numCandidates) →
    ∀ (x0 : SequenceAndEffort) (last : Option SequenceAndEffort)
      (A : List AssertionAndDifficulty) (F : List SequenceAndEffort),
      x0.EntryOK vs audit winner →
      (∀ e, last = some e → e.EntryOK vs audit winner
        ∧ x0.pi <:+ e.pi ∧ (∀ x ∈ l, x ∈ e.pi → x ∈ x0.pi)) →
      (∀ ad ∈ A, ad.difficulty ≤ bound ∧ adCanonical vs audit ad) →
      ∀ ad ∈ (diveLoop vs audit bound l x0 last A F).2.2.1,
        ad.difficulty ≤ bound ∧ adCanonical vs audit ad := by
  intro l
  induction l with
  | nil => intro _ _ x0 last A F _ _ hA; exact hA
  | cons c rest ih =>
    intro hnd hlt x0 last A F hx0 hlast hA
    have hndrest : rest.Nodup := (List.nodup_cons.mp hnd).2
    have hcrest : c ∉ rest := (List.nodup_cons.mp hnd).1
    have hltrest : ∀ x ∈ rest, x < vs.numCandidates :=
      fun x hx => hlt x (List.mem_cons_of_mem c hx)
    have hcN : c < vs.numCandidates := hlt c (List.mem_cons_self c rest)
    simp only [diveLoop]
    split
    · exact ih hndrest hltrest x0 last A F hx0
        (fun e he => ⟨(hlast e he).1, (hlast e he).2.1,
          fun x hx => (hlast e he).2.2 x (List.mem_cons_of_mem c hx)⟩) hA
    · rename_i hcpi
      split
      · rename_i l_ 
        have hl_ := hlast l_ rfl
        have hcl_ : c ∉ l_.pi := by
          intro hmem
          exact hcpi (hl_.2.2 c (List.mem_cons_self c rest) hmem)
        have hl'OK : SequenceAndEffort.EntryOK vs audit winner
            { l_ with diveDone := some c } := hl_.1
        have hnsOK := extendByCandidate_entryOK vs audit winner
          { l_ with diveDone := some c } c hl'OK hcl_ hcN
        have hnspi : (({ l_ with diveDone := some c
            } : SequenceAndEffort).extendByCandidate c vs audit).pi
            = c :: l_.pi := extendByCandidate_pi _ _ _ _
        split
        · rename_i hle
          exact justTakeAssertion_le_canon vs audit winner _ hnsOK A _
            bound hle hA
        · refine ih hndrest hltrest x0 (some _) A _ hx0 ?_ hA
          intro e he
          have heq := Option.some.inj he
          rw [← heq]
          refine ⟨hnsOK, ?_, ?_⟩
          · rw [hnspi]
            exact hl_.2.1.trans (List.suffix_cons c l_.pi)
          · intro x hx hxpi
            rw [hnspi] at hxpi
            rcases List.mem_cons.mp hxpi with rfl | hxpi2
            · exact absurd hx hcrest
            · exact hl_.2.2 x (List.mem_cons_of_mem c hx) hxpi2
      · have hx0'OK : SequenceAndEffort.EntryOK vs audit winner
            { x0 with diveDone := some c } := hx0
        have hnsOK := extendByCandidate_entryOK vs audit winner
          { x0 with diveDone := some c } c hx0'OK hcpi hcN
        have hnspi : (({ x0 with diveDone := some c
            } : SequenceAndEffort).extendByCandidate c vs audit).pi
            = c :: x0.pi := extendByCandidate_pi _ _ _ _
        split
        · rename_i hle
          exact justTakeAssertion_le_canon vs audit winner _ hnsOK A _
            bound hle hA
        · refine ih hndrest hltrest _ (some _) A F hx0'OK ?_ hA
          intro e he
          have heq := Option.some.inj he
          rw [← heq]
          refine ⟨hnsOK, ?_, ?_⟩
          · rw [hnspi]
            exact List.suffix_cons c x0.pi
          · intro x hx hxpi
            rw [hnspi] at hxpi
            rcases List.mem_cons.mp hxpi with rfl | hxpi2
            · exact absurd hx hcrest
            · exact hxpi2

/-- The expansion phase preserves the C2 invariant and can only raise the
bound. -/
theorem expandLoop_boundOK (vs : Votes)
    (audit : Nat → Nat → Nat → Difficulty) (winner : Nat)
    (e : SequenceAndEffort) (he : e.EntryOK vs audit winner) :
    ∀ (l : List Nat), (∀ x ∈ l, x < vs.numCandidates) →
    ∀ (A : List AssertionAndDifficulty) (F : List SequenceAndEffort)
      (bound : Difficulty) (A' : List AssertionAndDifficulty)
      (F' : List SequenceAndEffort) (bound' : Difficulty),
      BoundOK vs audit winner A bound →
      expandLoop vs audit e l A F bound = .ok (A', F', bound') →
      BoundOK vs audit winner A' bound' ∧ bound ≤ bound' := by
  intro l
  induction l with
  | nil =>
    intro _ A F bound A' F' bound' hB h
    rw [expandLoop] at h
    have h2 := Except.ok.inj h
    have hA : A = A' := congrArg (fun p => p.1) h2
    have hb : bound = bound' := congrArg (fun p => p.2.2) h2
    exact ⟨hA ▸ hb ▸ hB, hb ▸ le_refl _⟩
  | cons c0 rest ih =>
    intro hlt A F bound A' F' bound' hB h
    have hltrest : ∀ x ∈ rest, x < vs.numCandidates :=
      fun x hx => hlt x (List.mem_cons_of_mem c0 hx)
    simp only [expandLoop] at h
    split at h
    · exact ih hltrest A F bound A' F' bound' hB h
    · rename_i hskip
      push_neg at hskip
      have hnsOK := extendByCandidate_entryOK vs audit winner e c0 he
        hskip.1 (hlt c0 (List.mem_cons_self c0 rest))
      split at h
      · rename_i hful
        split at h
        · cases h
        · rename_i a f b hcac
          have hgood : GoodOrder vs.numCandidates
              (e.extendByCandidate c0 vs audit).pi :=
            goodOrder_of_nodup_bounded_length _ _
              hnsOK.2.1 hnsOK.2.2.1 hful
          have hstep := containsAllCandidates_boundOK vs audit winner _
            hnsOK hgood A F bound a f b hcac hB
          have hrec := ih hltrest a f b A' F' bound' hstep.1 h
          exact ⟨hrec.1, le_trans hstep.2 hrec.2⟩
      · exact ih hltrest A _ bound A' F' bound' hB h

/-- If a dive completes with a chain head, the head's π contains every
processed candidate. -/
theorem diveLoop_last_contains (vs : Votes)
    (audit : Nat → Nat → Nat → Difficulty) (bound : Difficulty) :
    ∀ (l : List Nat) (x0 : SequenceAndEffort)
      (last : Option SequenceAndEffort)
      (A : List AssertionAndDifficulty) (F : List SequenceAndEffort),
      (∀ e0, last = some e0 → ∀ x ∈ x0.pi, x ∈ e0.pi) →
      ∀ e, (diveLoop vs audit bound l x0 last A F).2.1 = some e →
        (∀ x ∈ l, x ∈ e.pi) ∧
        (∀ e0, last = some e0 → ∀ x ∈ e0.pi, x ∈ e.pi) ∧
        (∀ x ∈ x0.pi, x ∈ e.pi) := by
  intro l
  induction l with
  | nil =>
    intro x0 last A F hlast e he
    refine ⟨by intro x hx; simp at hx, ?_, ?_⟩
    · intro e0 he0
      rw [he0] at he
      have : e0 = e := Option.some.inj he
      rw [← this]
      exact fun x hx => hx
    · match last, he with
      | some e0, he =>
        have : e0 = e := Option.some.inj he
        rw [← this]
        exact hlast e0 rfl
  | cons c rest ih =>
    intro x0 last A F hlast e he
    simp only [diveLoop] at he
    split at he
    · rename_i hcpi
      have hrec := ih x0 last A F hlast e he
      exact ⟨by
        intro x hx
        rcases List.mem_cons.mp hx with rfl | hx2
        · exact hrec.2.2 x hcpi
        · exact hrec.1 x hx2, hrec.2.1, hrec.2.2⟩
    · rename_i hcpi
      split at he
      · rename_i l_ 
        have hnspi : (({ l_ with diveDone := some c
            } : SequenceAndEffort).extendByCandidate c vs audit).pi
            = c :: l_.pi := extendByCandidate_pi _ _ _ _
        split at he
        · cases he
        · have hrec := ih x0 (some _) A _
            (by
              intro e0 he0
              have heq := Option.some.inj he0
              rw [← heq, hnspi]
              intro x hx
              exact List.mem_cons_of_mem c (hlast l_ rfl x hx)) e he
          have hnew : ∀ x ∈ (({ l_ with diveDone := some c
              } : SequenceAndEffort).extendByCandidate c vs audit).pi,
              x ∈ e.pi := hrec.2.1 _ rfl
          refine ⟨?_, ?_, hrec.2.2⟩
          · intro x hx
            rcases List.mem_cons.mp hx with rfl | hx2
            · exact hnew x (by rw [hnspi]; exact List.mem_cons_self _ _)
            · exact hrec.1 x hx2
          · intro e0 he0
            have heq := Option.some.inj he0
            rw [← heq]
            intro x hx
            exact hnew x (by rw [hnspi]; exact List.mem_cons_of_mem c hx)
      · have hnspi : (({ x0 with diveDone := some c
            } : SequenceAndEffort).extendByCandidate c vs audit).pi
            = c :: x0.pi := extendByCandidate_pi _ _ _ _
        split at he
        · cases he
        · have hrec := ih { x0 with diveDone := some c } (some _) A F
            (by
              intro e0 he0
              have heq := Option.some.inj he0
              rw [← heq, hnspi]
              intro x hx
              exact List.mem_cons_of_mem c hx) e he
          have hnew : ∀ x ∈ (({ x0 with diveDone := some c
              } : SequenceAndEffort).extendByCandidate c vs audit).pi,
              x ∈ e.pi := hrec.2.1 _ rfl
          refine ⟨?_, ?_, ?_⟩
          · intro x hx
            rcases List.mem_cons.mp hx with rfl | hx2
            · exact hnew x (by rw [hnspi]; exact List.mem_cons_self _ _)
            · exact hrec.1 x hx2
          · intro e0 he0
            cases he0
          · intro x hx
            exact hnew x (by rw [hnspi]; exact List.mem_cons_of_mem c hx)

/-- A duplicate-free bounded list containing every candidate is a full
order. -/
theorem goodOrder_of_nodup_bounded_superset (N : Nat) (σ : List Nat)
    (hnd : σ.Nodup) (hb : ∀ x ∈ σ, x < N)
    (hsup : ∀ x, x < N → x ∈ σ) :
    GoodOrder N σ := by
  have hsp : List.Subperm σ (List.range N) :=
    hnd.subperm (fun x hx => List.mem_range.mpr (hb x hx))
  have hge := ((List.nodup_range N).subperm
    (fun x hx => hsup x (List.mem_range.mp hx))).length_le
  rw [List.length_range] at hge
  exact hsp.perm_of_length_le (by rw [List.length_range]; exact hge)

/-- The C2 invariant holds at the end of the search loop. -/
theorem raireLoop_boundOK (vs : Votes)
    (audit : Nat → Nat → Nat → Difficulty) (winner : Nat)
    (irvOrder : List Nat) (hirvND : irvOrder.Nodup)
    (hirvN : ∀ x ∈ irvOrder, x < vs.numCandidates)
    (hirvFull : ∀ x, x < vs.numCandidates → x ∈ irvOrder) :
    ∀ (fuel : Nat) (A : List AssertionAndDifficulty) (bound : Difficulty)
      (F : List SequenceAndEffort) (out : List AssertionAndDifficulty)
      (d : Difficulty),
      bound ≠ ⊤ →
      BoundOK vs audit winner A bound →
      (∀ e ∈ F, e.EntryOK vs audit winner) →
      raireLoop vs audit irvOrder fuel A bound F = some (.ok (out, d)) →
      BoundOK vs audit winner out d := by
  intro fuel
  induction fuel with
  | zero =>
    intro A bound F out d hb hB hF heq
    simp only [raireLoop] at heq
    simp at heq
  | succ fuel ih =>
    intro A bound F out d hb hB hF heq
    simp only [raireLoop] at heq
    split at heq
    · have h2 := Except.ok.inj (Option.some.inj heq)
      have h3 : A = out := congrArg (fun p => p.1) h2
      have h4 : bound = d := congrArg (fun p => p.2) h2
      exact h3 ▸ h4 ▸ hB
    · rename_i s rest2 hpop
      have hps := popMax_spec F s rest2 hpop
      have hsOK := hF s hps.1
      have hrestOK : ∀ e ∈ rest2, e.EntryOK vs audit winner :=
        fun e he => hF e (hps.2.2 e he)
      split at heq
      · rename_i hle
        exact ih _ _ _ _ _ hb
          ⟨hB.1, justTakeAssertion_le_canon vs audit winner s hsOK A rest2
            bound hle hB.2.1, hB.2.2⟩
          (fun e2 he2 => hrestOK e2 (justTakeAssertion_F_sub _ _ _ e2 he2))
          heq
      · split at heq
        · simp at heq
        · rename_i e2 A2 F2 b2 heqad
          have key : b2 ≠ ⊤ ∧ BoundOK vs audit winner A2 b2 ∧
              (∀ e3 ∈ F2, e3.EntryOK vs audit winner) ∧
              e2.EntryOK vs audit winner := by
            split at heqad
            · rename_i hdd
              have hsdd : s.diveDone = none := by
                have h2 := hdd
                simp only [Bool.and_eq_true] at h2
                exact Option.isNone_iff_eq_none.mp h2.2
              have hdspec := diveLoop_spec vs audit winner bound hb
                irvOrder.reverse (List.nodup_reverse.mpr hirvND)
                (fun x hx => hirvN x (List.mem_reverse.mp hx))
                s none A rest2 hsOK
                (by intro e he; simp at he)
                hrestOK
                (by intro τ2 _ c2 hc2 _; rw [hsdd] at hc2; simp at hc2)
              have hdcanon := diveLoop_le_canon vs audit winner bound
                irvOrder.reverse (List.nodup_reverse.mpr hirvND)
                (fun x hx => hirvN x (List.mem_reverse.mp hx))
                s none A rest2 hsOK
                (by intro e he; simp at he) hB.2.1
              split at heqad
              · rename_i x1 last A3 F3 heqdive
                rw [heqdive] at hdspec hdcanon
                split at heqad
                · simp at heqad
                · rename_i a3 f3 b3 hcac
                  have h4 := Except.ok.inj heqad
                  have he2 : x1 = e2 := congrArg (fun p => p.1) h4
                  have hA2e : a3 = A2 := congrArg (fun p => p.2.1) h4
                  have hF2e : f3 = F2 := congrArg (fun p => p.2.2.1) h4
                  have hb2e : b3 = b2 := congrArg (fun p => p.2.2.2) h4
                  subst he2 hA2e hF2e hb2e
                  have hlastOK : last.EntryOK vs audit winner :=
                    hdspec.2.2.2.1 last rfl
                  have hlastfull := diveLoop_last_contains vs audit bound
                    irvOrder.reverse s none A rest2
                    (by intro e0 he0; cases he0) last (by rw [heqdive])
                  have hgoodlast : GoodOrder vs.numCandidates last.pi := by
                    refine goodOrder_of_nodup_bounded_superset _ _
                      hlastOK.2.1 hlastOK.2.2.1 ?_
                    intro x hx
                    exact hlastfull.1 x (List.mem_reverse.mpr (hirvFull x hx))
                  have hcacB := containsAllCandidates_boundOK vs audit winner
                    last hlastOK hgoodlast A3 F3 bound a3 f3 b3 hcac
                    ⟨hB.1, hdcanon, hB.2.2⟩
                  have hcacspec := containsAllCandidates_spec vs audit winner
                    last hlastOK A3 F3 bound a3 f3 b3 hcac
                  exact ⟨hcacspec.2.2.2.1 hb, hcacB.1,
                    fun e3 he3 => hdspec.2.2.1 e3 (hcacspec.2.2.2.2 e3 he3),
                    hdspec.1.2⟩
              · rename_i x1 A3 F3 heqdive
                rw [heqdive] at hdspec hdcanon
                have h4 := Except.ok.inj heqad
                have he2 : x1 = e2 := congrArg (fun p => p.1) h4
                have hA2e : A3 = A2 := congrArg (fun p => p.2.1) h4
                have hF2e : F3 = F2 := congrArg (fun p => p.2.2.1) h4
                have hb2e : bound = b2 := congrArg (fun p => p.2.2.2) h4
                subst he2 hA2e hF2e
                exact ⟨hb2e ▸ hb, hb2e ▸ ⟨hB.1, hdcanon, hB.2.2⟩,
                  hdspec.2.2.1, hdspec.1.2⟩
            · have h4 := Except.ok.inj heqad
              have he2 : s = e2 := congrArg (fun p => p.1) h4
              have hA2e : A = A2 := congrArg (fun p => p.2.1) h4
              have hF2e : rest2 = F2 := congrArg (fun p => p.2.2.1) h4
              have hb2e : bound = b2 := congrArg (fun p => p.2.2.2) h4
              subst he2 hA2e hF2e
              exact ⟨hb2e ▸ hb, hb2e ▸ hB, hrestOK, hsOK⟩
          split at heq
          · simp at heq
          · rename_i A3f F3f b3f hexp
            have hespec := expandLoop_boundOK vs audit winner e2 key.2.2.2
              (List.range vs.numCandidates)
              (fun x hx => List.mem_range.mp hx)
              A2 F2 b2 A3f F3f b3f key.2.1 hexp
            have hespec2 := expandLoop_spec vs audit winner e2 key.2.2.2
              (List.range vs.numCandidates)
              (fun x hx => List.mem_range.mp hx)
              A2 F2 b2 A3f F3f b3f key.1 key.2.2.1 hexp
            exact ih _ _ _ _ _ hespec2.2.2.1 hespec.1 hespec2.2.1 heq

/-- A successful trimming pass only keeps assertions from the input. -/
theorem orderAssertions_sub (assertions : List AssertionAndDifficulty)
    (winner N : Nat) (trim : TrimAlgorithm) (t : TimeOut)
    (trimmed : List AssertionAndDifficulty) (t' : TimeOut)
    (h : orderAssertionsAndRemoveUnnecessary assertions winner N trim t
      = some (.ok (trimmed, t'))) :
    ∀ ad ∈ trimmed, ad ∈ assertions := by
  simp only [orderAssertionsAndRemoveUnnecessary] at h
  split at h
  · have h2 := Except.ok.inj (Option.some.inj h)
    have h3 : sortAssertions assertions = trimmed := congrArg (fun p => p.1) h2
    intro ad had
    rw [← h3, sortAssertions] at had
    exact (List.perm_insertionSort _ _).mem_iff.mp had
  · split at h
    · simp at h
    · simp at h
    · split at h
      · simp at h
      · have h2 := Except.ok.inj (Option.some.inj h)
        rename_i fu t2 hsp
        have h3 : ((sortAssertions assertions).enum.filter
            (fun p => fu.uses p.1)).map (fun q => q.2) = trimmed :=
          congrArg (fun p => p.1) h2
        intro ad had
        rw [← h3] at had
        have hmem := (enum_filter_map_sublist _ _).subset had
        rw [sortAssertions] at hmem
        exact (List.perm_insertionSort _ _).mem_iff.mp hmem

/-- The finalisation step only returns assertions from the input. -/
theorem trimAndFinalize_sub (assertions : List AssertionAndDifficulty)
    (winner N : Nat) (trim : TrimAlgorithm) (t : TimeOut)
    (trimmed : List AssertionAndDifficulty) (flag : Bool)
    (h : trimAndFinalize assertions winner N trim t
      = some (.ok (trimmed, flag))) :
    ∀ ad ∈ trimmed, ad ∈ assertions := by
  simp only [trimAndFinalize] at h
  split at h
  · simp at h
  · rename_i tr0 t0 hord
    have h2 := Except.ok.inj (Option.some.inj h)
    have h3 : tr0 = trimmed := congrArg (fun p => p.1) h2
    rw [← h3]
    exact orderAssertions_sub assertions winner N trim t tr0 t0 hord
  · have h2 := Except.ok.inj (Option.some.inj h)
    have h3 : sortAssertions assertions = trimmed := congrArg (fun p => p.1) h2
    intro ad had
    rw [← h3, sortAssertions] at had
    exact (List.perm_insertionSort _ _).mem_iff.mp had
  · simp at h

/-- Canonically priced assertions are non-negative for a non-negative
audit. -/
theorem adCanonical_nonneg (vs : Votes)
    (audit : Nat → Nat → Nat → Difficulty) (hnn : AuditNonneg audit)
    (ad : AssertionAndDifficulty) (h : adCanonical vs audit ad) :
    0 ≤ ad.difficulty := by
  obtain ⟨asn, d⟩ := ad
  match asn, h with
  | .NEB neb, h =>
    show (0 : Difficulty) ≤ d
    rw [show d = nebCacheDifficulty vs audit neb from h, nebCacheDifficulty]
    split
    · exact le_top
    · simp only [NotEliminatedBefore.difficulty]
      exact hnn _ _ _
  | .NEN nen, h =>
    show (0 : Difficulty) ≤ d
    have h22 : d = audit (vs.tallyOf nen.continuing nen.winner)
        (vs.tallyOf nen.continuing nen.loser)
        (vs.restrictedTallies nen.continuing).sum := h.2.2
    rw [h22]
    exact hnn _ _ _

theorem maxDifficulty_nonneg (l : List AssertionAndDifficulty) :
    0 ≤ maxDifficulty l := by
  induction l with
  | nil => exact le_refl _
  | cons a rest ih => exact le_trans ih (le_max_right _ _)

/-- An `Ok` result of `raire` has its difficulty field equal to the largest
difficulty among the returned assertions, for a monotone non-negative
audit. -/
theorem raire_difficulty_max (ho : HashOrder) (vs : Votes)
    (winner : Option Nat) (audit : Nat → Nat → Nat → Difficulty)
    (trim : TrimAlgorithm) (timeout : TimeOut) (res : RaireResult)
    (hm : AuditMono audit) (hnn : AuditNonneg audit)
    (h : raire ho vs winner audit trim timeout = some (.ok res)) :
    maxDifficulty res.assertions = res.difficulty ∧
    ∀ ad ∈ res.assertions, 0 ≤ ad.difficulty := by
  simp only [raire] at h
  split at h
  · simp at h
  · rename_i irvResult t2 hrun
    split at h
    · simp at h
    · split at h
      · simp at h
      · rename_i hl1
        split at h
        · simp at h
        · simp at h
        · rename_i A bound hloop
          split at h
          · simp at h
          · simp at h
          · rename_i Atr flag htrim
            have hres := Except.ok.inj (Option.some.inj h)
            have hrA : Atr = res.assertions :=
              congrArg RaireResult.assertions hres
            have hrd : bound = res.difficulty :=
              congrArg RaireResult.difficulty hres
            obtain ⟨w0, hw0⟩ := List.length_eq_one.mp (of_not_not hl1)
            have hwval : irvResult.possibleWinners.head?.getD 0 = w0 := by
              rw [hw0]
              rfl
            have hwmem : w0 ∈ irvResult.possibleWinners := by
              rw [hw0]
              exact List.mem_singleton_self w0
            have hwN : w0 < vs.numCandidates :=
              runElection_possibleWinners_lt vs ho timeout irvResult t2
                hrun w0 hwmem
            have hperm := runElection_eliminationOrder_perm vs ho timeout
              irvResult t2 hrun
            have hirvND : irvResult.eliminationOrder.Nodup :=
              hperm.nodup_iff.mpr (List.nodup_range _)
            have hirvN : ∀ x ∈ irvResult.eliminationOrder,
                x < vs.numCandidates :=
              fun x hx => List.mem_range.mp (hperm.mem_iff.mp hx)
            have hirvFull : ∀ x, x < vs.numCandidates →
                x ∈ irvResult.eliminationOrder :=
              fun x hx => hperm.mem_iff.mpr (List.mem_range.mpr hx)
            have hb0 : (0 : Difficulty) ≠ ⊤ := by simp
            rw [hwval] at hloop htrim
            have hBfin := raireLoop_boundOK vs audit w0
              irvResult.eliminationOrder hirvND hirvN hirvFull
              (raireSearchFuel vs.numCandidates) []
              0 (initialFrontier vs audit w0) A bound hb0
              ⟨le_refl _, by intro ad had; simp at had, Or.inl rfl⟩
              (initialFrontier_entryOK vs audit w0) hloop
            have hAOK := raireLoop_AOK vs audit w0
              irvResult.eliminationOrder hirvND hirvN
              (raireSearchFuel vs.numCandidates) []
              0 (initialFrontier vs audit w0) A bound hb0
              (by intro ad had; simp at had)
              (initialFrontier_entryOK vs audit w0) hloop
            have hsub := trimAndFinalize_sub A w0 vs.numCandidates trim t2
              Atr flag htrim
            have hle : maxDifficulty Atr ≤ bound :=
              maxDifficulty_le Atr bound hBfin.1
                (fun ad had => (hBfin.2.1 ad (hsub ad had)).1)
            have hge : bound ≤ maxDifficulty Atr := by
              rcases hBfin.2.2 with h0 | ⟨τ, hgoodτ, hlastne, hσmin⟩
              · rw [h0]
                exact maxDifficulty_nonneg Atr
              · rcases hgl : τ.getLast? with _ | cst
                · exfalso
                  have hτe := List.getLast?_eq_none_iff.mp hgl
                  have hlen := hgoodτ.facts.1
                  rw [hτe] at hlen
                  simp at hlen
                  omega
                · have hcw : cst ≠ w0 := by
                    intro hcon
                    rw [hcon] at hgl
                    exact hlastne hgl
                  have hRO := raireLoop_covers vs audit w0
                    irvResult.eliminationOrder hirvND hirvN
                    (raireSearchFuel vs.numCandidates) []
                    0 (initialFrontier vs audit w0) A bound hb0
                    (initialFrontier_entryOK vs audit w0) hloop τ hgoodτ
                    (initialFrontier_covers vs audit w0 τ hgoodτ cst hgl
                      hcw hwN)
                  have hROtr := trimAndFinalize_covers A w0 vs.numCandidates
                    trim t2 Atr flag hAOK htrim τ hgoodτ cst hgl hcw hRO
                  obtain ⟨ad, hadtr, hcontr⟩ := hROtr
                  obtain ⟨σ, hσne, hσsuf, hdom⟩ := contradiction_dominates
                    vs audit hm ad (hBfin.2.1 ad (hsub ad hadtr)).2
                    (hAOK ad (hsub ad hadtr)) τ hgoodτ hcontr
                  exact le_trans (hσmin σ hσne hσsuf)
                    (le_trans hdom (le_maxDifficulty Atr ad hadtr))
            rw [← hrA, ← hrd]
            refine ⟨le_antisymm hle hge, ?_⟩
            intro ad had
            exact adCanonical_nonneg vs audit hnn ad
              (hBfin.2.1 ad (hsub ad had)).2

/-- C2: when the solver returns an `Ok` result for a monotone non-negative
audit, the returned difficulty (the lower bound at termination) is exactly
the maximum difficulty over the returned assertion list. -/
theorem claim_C2_difficulty_max (ho : HashOrder) (p : RaireProblem)
    (res : RaireResult) (hm : AuditMono p.audit) (hnn : AuditNonneg p.audit)
    (h : RaireProblem.solve ho p = some (.ok res)) :
    maxDifficulty res.assertions = res.difficulty ∧
    ∀ ad ∈ res.assertions, 0 ≤ ad.difficulty := by
  rw [RaireProblem.solve] at h
  split at h
  · simp at h
  · split at h
    · simp at h
    · split at h
      · simp at h
      · exact raire_difficulty_max ho _ p.winner p.audit
          (p.trimAlgorithm.getD .MinimizeTree) TimeOut.never res hm hnn h

/-- The one-over-diluted-margin audit difficulty is monotone in the loser
tally. -/
theorem BallotComparisonOneOnDilutedMargin.mono
    (a : BallotComparisonOneOnDilutedMargin) :
    AuditMono (fun w l t => a.difficulty w l t) := by
  intro w t l l2 hle
  show a.difficulty w l t ≤ a.difficulty w l2 t
  by_cases h1 : w ≤ l
  · rw [BallotComparisonOneOnDilutedMargin.difficulty, if_pos h1,
      BallotComparisonOneOnDilutedMargin.difficulty, if_pos (by omega : w ≤ l2)]
  · by_cases h2 : w ≤ l2
    · rw [show a.difficulty w l2 t = ⊤ by
        rw [BallotComparisonOneOnDilutedMargin.difficulty, if_pos h2]]
      exact le_top
    · rw [BallotComparisonOneOnDilutedMargin.difficulty_eq_div a w l t
        (by omega), BallotComparisonOneOnDilutedMargin.difficulty_eq_div
        a w l2 t (by omega)]
      rw [WithTop.coe_le_coe]
      have hm2 : (0 : Rat) < ((w - l2 : Nat) : Rat) := by
        have h3 : 1 ≤ w - l2 := by omega
        exact_mod_cast Nat.lt_of_lt_of_le Nat.zero_lt_one h3
      have hmm : ((w - l2 : Nat) : Rat) ≤ ((w - l : Nat) : Rat) := by
        have h3 : w - l2 ≤ w - l := by omega
        exact_mod_cast h3
      have hT : (0 : Rat) ≤ (a.totalAuditableBallots : Rat) := by positivity
      exact div_le_div_of_nonneg_left hT hm2 hmm

/-- The one-over-diluted-margin audit difficulty is non-negative. -/
theorem BallotComparisonOneOnDilutedMargin.nonneg
    (a : BallotComparisonOneOnDilutedMargin) :
    AuditNonneg (fun w l t => a.difficulty w l t) := by
  intro w l t
  show (0 : Difficulty) ≤ a.difficulty w l t
  rw [BallotComparisonOneOnDilutedMargin.difficulty]
  split
  · exact le_top
  · have h0 : (0 : Rat) ≤ mkRat a.totalAuditableBallots (w - l) := by
      rw [Rat.mkRat_eq_div]
      positivity
    exact_mod_cast h0

/-- Witness for C2: a concrete solved two-candidate contest whose returned
difficulty is the maximum difficulty of the returned assertions. -/
theorem claim_C2_witness :
    AuditMono (fun w l t =>
        (BallotComparisonOneOnDilutedMargin.mk 4).difficulty w l t) ∧
    AuditNonneg (fun w l t =>
        (BallotComparisonOneOnDilutedMargin.mk 4).difficulty w l t) ∧
    RaireProblem.solve idHashOrder
        { numCandidates := 2, votes := [⟨3, [0, 1]⟩, ⟨1, [1]⟩],
          winner := none,
          audit := fun w l t =>
            (BallotComparisonOneOnDilutedMargin.mk 4).difficulty w l t,
          trimAlgorithm := some .MinimizeAssertions,
          difficultyEstimate := none, timeLimitSeconds := none }
      = some (.ok ⟨[⟨.NEB ⟨0, 1⟩, ((2 : Rat) : Difficulty)⟩],
          ((2 : Rat) : Difficulty), 0, 2, false⟩) ∧
    maxDifficulty [⟨.NEB ⟨0, 1⟩, ((2 : Rat) : Difficulty)⟩]
      = ((2 : Rat) : Difficulty) := by
  refine ⟨BallotComparisonOneOnDilutedMargin.mono _,
    BallotComparisonOneOnDilutedMargin.nonneg _, by decide, ?_⟩
  exact (claim_C2_difficulty_max idHashOrder
    { numCandidates := 2, votes := [⟨3, [0, 1]⟩, ⟨1, [1]⟩],
      winner := none,
      audit := fun w l t =>
        (BallotComparisonOneOnDilutedMargin.mk 4).difficulty w l t,
      trimAlgorithm := some .MinimizeAssertions,
      difficultyEstimate := none, timeLimitSeconds := none }
    ⟨[⟨.NEB ⟨0, 1⟩, ((2 : Rat) : Difficulty)⟩],
      ((2 : Rat) : Difficulty), 0, 2, false⟩
    (BallotComparisonOneOnDilutedMargin.mono _)
    (BallotComparisonOneOnDilutedMargin.nonneg _)
    (by decide)).1

end Raire
